import Mathlib

/-!
# Tool-call extraction of `pkg/providers`

A shallow embedding of the brace matcher, the structured (envelope) extractor
and the tagged extractor of `claude_cli_provider.go` and
`tagged_tool_calls.go`.

A Go `string` is a sequence of bytes; it is embedded as `List Nat`, one
number per byte.  Every theorem that quantifies over `List Nat` therefore
covers every Go string.  Go's `-1` ("not found") result of `strings.Index`
and `strings.IndexByte` is embedded as `none`.
-/

namespace Summer

/-- The bytes of an ASCII literal, one number per character. -/
def ascii (s : String) : List Nat := s.toList.map Char.toNat

/-! ## Brace matcher (`claude_cli_provider.go`, lines 370-406) -/

/-- The loop of `findMatchingBrace`.  `rest` is `text[i:]`; `depth`, `inString`
and `escaped` are the three loop variables.  Running off the end of the text
returns `pos`. -/
def findMatchingBraceFrom (pos : Nat) : List Nat → Nat → Int → Bool → Bool → Nat
  | [], _, _, _, _ => pos
  | ch :: rest, i, depth, inString, escaped =>
    if inString then
      if escaped then
        findMatchingBraceFrom pos rest (i + 1) depth inString false
      else if ch = 92 then
        findMatchingBraceFrom pos rest (i + 1) depth inString true
      else if ch = 34 then
        findMatchingBraceFrom pos rest (i + 1) depth false escaped
      else
        findMatchingBraceFrom pos rest (i + 1) depth inString escaped
    else if ch = 34 then
      findMatchingBraceFrom pos rest (i + 1) depth true escaped
    else if ch = 123 then
      findMatchingBraceFrom pos rest (i + 1) (depth + 1) inString escaped
    else if ch = 125 then
      if depth - 1 = 0 then i + 1
      else findMatchingBraceFrom pos rest (i + 1) (depth - 1) inString escaped
    else
      findMatchingBraceFrom pos rest (i + 1) depth inString escaped

/-- Embedding of `findMatchingBrace(text, pos)`: the index after the closing brace
matching the opening brace at `pos`, or `pos` when there is none. -/
def findMatchingBrace (text : List Nat) (pos : Nat) : Nat :=
  findMatchingBraceFrom pos (text.drop pos) pos 0 false false

/-! ### String-literal state and unquoted byte counts (specification side) -/

/-- The string-literal state after one byte: a quote outside a string opens one;
inside a string a backslash skips exactly the next byte and an unescaped quote
closes the string.  The state is the pair (inside a string, escape pending). -/
def quoteStep (st : Bool × Bool) (ch : Nat) : Bool × Bool :=
  match st with
  | (true, true) => (true, false)
  | (true, false) => if ch = 92 then (true, true) else if ch = 34 then (false, false) else (true, false)
  | (false, e) => if ch = 34 then (true, e) else (false, e)

/-- Number of bytes equal to `c` that lie outside string literals in `bytes`,
the string-literal state being tracked from `st`. -/
def unquotedCountFrom (c : Nat) : Bool × Bool → List Nat → Nat
  | _, [] => 0
  | st, ch :: rest =>
    (if st.1 = false ∧ ch = c then 1 else 0) + unquotedCountFrom c (quoteStep st ch) rest

/-- Number of bytes equal to `c` lying outside string literals, tracked from the
first byte of `bytes` (which is outside any string). -/
def unquotedCount (c : Nat) (bytes : List Nat) : Nat :=
  unquotedCountFrom c (false, false) bytes

/-- The slice `text[a:b]`. -/
def slice (text : List Nat) (a b : Nat) : List Nat := (text.drop a).take (b - a)

/-! ### The matcher as a depth walk -/

/-- Nesting depth after one byte read in string-literal state `st`. -/
def depthStep (d : Int) (st : Bool × Bool) (ch : Nat) : Int :=
  if st.1 = false ∧ ch = 123 then d + 1
  else if st.1 = false ∧ ch = 125 then d - 1
  else d

/-- Nesting depth after reading `bytes` from depth `d` and string state `st`. -/
def depthAfter : Int → Bool × Bool → List Nat → Int
  | d, _, [] => d
  | d, st, ch :: rest => depthAfter (depthStep d st ch) (quoteStep st ch) rest

/-- One item of a string body: a byte other than the quote and the backslash, or a
two-byte escape (a backslash followed by any byte). -/
def isStringItem : List Nat → Bool
  | [c] => c != 34 && c != 92
  | [a, _] => a == 92
  | _ => false

/-! ## Library functions of package `strings` used by the extractors -/

/-- Embedding of `strings.HasPrefix(s, p)`. -/
def stringsHasPrefix (s p : List Nat) : Bool := s.take p.length == p

/-- Embedding of `strings.IndexByte(s, c)`: the index of the first byte equal to `c`,
`none` for Go's `-1`. -/
def stringsIndexByte : List Nat → Nat → Option Nat
  | [], _ => none
  | b :: rest, c => if b = c then some 0 else (stringsIndexByte rest c).map (· + 1)

/-- Embedding of `strings.Index(s, sub)`: the index of the first occurrence of `sub`
in `s`, `none` for Go's `-1`. -/
def stringsIndex : List Nat → List Nat → Option Nat
  | [], sub => if sub = [] then some 0 else none
  | b :: rest, sub =>
    if stringsHasPrefix (b :: rest) sub then some 0
    else (stringsIndex rest sub).map (· + 1)

/-- Width in bytes of the white-space rune whose UTF-8 encoding starts `s`, `0` when
`s` does not start with one.  The white-space runes are those of `unicode.IsSpace`:
U+0009..U+000D, U+0020, U+0085, U+00A0, U+1680, U+2000..U+200A, U+2028, U+2029,
U+202F, U+205F and U+3000. -/
def leadingSpaceWidth : List Nat → Nat
  | [] => 0
  | a :: rest =>
    if a = 9 ∨ a = 10 ∨ a = 11 ∨ a = 12 ∨ a = 13 ∨ a = 32 then 1
    else match rest with
      | [] => 0
      | b :: rest2 =>
        if a = 194 ∧ (b = 133 ∨ b = 160) then 2
        else match rest2 with
          | [] => 0
          | c :: _ =>
            if a = 225 ∧ b = 154 ∧ c = 128 then 3
            else if a = 226 ∧ b = 128 ∧ ((128 ≤ c ∧ c ≤ 138) ∨ c = 168 ∨ c = 169 ∨ c = 175) then 3
            else if a = 226 ∧ b = 129 ∧ c = 159 then 3
            else if a = 227 ∧ b = 128 ∧ c = 128 then 3
            else 0

/-- Width in bytes of the white-space rune whose UTF-8 encoding ends the string whose
reversal is `r`, `0` when there is none. -/
def trailingSpaceWidth : List Nat → Nat
  | [] => 0
  | c :: rest =>
    if c = 9 ∨ c = 10 ∨ c = 11 ∨ c = 12 ∨ c = 13 ∨ c = 32 then 1
    else match rest with
      | [] => 0
      | b :: rest2 =>
        if b = 194 ∧ (c = 133 ∨ c = 160) then 2
        else match rest2 with
          | [] => 0
          | a :: _ =>
            if a = 225 ∧ b = 154 ∧ c = 128 then 3
            else if a = 226 ∧ b = 128 ∧ ((128 ≤ c ∧ c ≤ 138) ∨ c = 168 ∨ c = 169 ∨ c = 175) then 3
            else if a = 226 ∧ b = 129 ∧ c = 159 then 3
            else if a = 227 ∧ b = 128 ∧ c = 128 then 3
            else 0

/-- Removes leading white-space runes, at most `fuel` of them. -/
def trimLeftSpace : Nat → List Nat → List Nat
  | 0, s => s
  | fuel + 1, s =>
    if leadingSpaceWidth s = 0 then s
    else trimLeftSpace fuel (s.drop (leadingSpaceWidth s))

/-- Removes trailing white-space runes from the string whose reversal is `r`, at most
`fuel` of them; the result is reversed too. -/
def trimRightSpaceRev : Nat → List Nat → List Nat
  | 0, r => r
  | fuel + 1, r =>
    if trailingSpaceWidth r = 0 then r
    else trimRightSpaceRev fuel (r.drop (trailingSpaceWidth r))

/-- Embedding of `strings.TrimSpace(s)`: `s` without its leading and trailing
white-space runes.  A string has at most as many runes as bytes, so its length is
enough fuel. -/
def stringsTrimSpace (s : List Nat) : List Nat :=
  (trimRightSpaceRev s.length (trimLeftSpace s.length s).reverse).reverse

/-- Decimal digits of `n`, as `fmt.Sprintf("%d", n)` prints them. -/
def decimal (n : Nat) : List Nat := (Nat.toDigits 10 n).map Char.toNat

/-- The number that a list of ASCII digits denotes in base ten. -/
def digitsValue (l : List Nat) : Nat := l.foldl (fun acc d => 10 * acc + (d - 48)) 0

/-! ## Tool calls and the JSON decoder -/

/-- Modelled from the spec: the type `FunctionCall` (declared outside the files at
hand), with the two fields the extractors set. -/
structure FunctionCall where
  Name : List Nat
  Arguments : List Nat
deriving DecidableEq, Repr

/-- Modelled from the spec: the type `ToolCall` (declared outside the files at hand),
with the fields the extractors set.  `Arguments` is the decoded map, `none` for Go's
nil map; `Function` is the pointer to the raw call, `none` for nil.  `Obj` is the type
of decoded JSON objects (`map[string]interface{}`). -/
structure ToolCall (Obj : Type) where
  ID : List Nat
  Typ : List Nat
  Name : List Nat
  Arguments : Option Obj
  Function : Option FunctionCall
deriving DecidableEq, Repr

/-- One entry of the `tool_calls` array of the envelope, as the anonymous struct of
`extractToolCalls` receives it. -/
structure EnvelopeCall where
  ID : List Nat
  Typ : List Nat
  Name : List Nat
  Arguments : List Nat
deriving DecidableEq, Repr

/-- The two uses of `json.Unmarshal` (standard library), taken as a parameter.
`unmarshalMap raw` decodes into a `map[string]interface{}` variable that is nil
beforehand: `none` is an error, `some none` is success leaving the map nil (the JSON
text `null`), `some (some m)` is success with map `m`.  `unmarshalEnvelope raw` decodes
into the envelope struct: `none` is an error, `some calls` the decoded `ToolCalls`. -/
structure JsonDecoder (Obj : Type) where
  unmarshalMap : List Nat → Option (Option Obj)
  unmarshalEnvelope : List Nat → Option (List EnvelopeCall)

/-! ## Tagged extractor (`tagged_tool_calls.go`, and its copy in
`claude_cli_provider.go`, lines 238-368) -/

/-- Embedding of `ptcIsWhitespace`. -/
def ptcIsWhitespace (b : Nat) : Bool := b == 32 || b == 10 || b == 13 || b == 9

/-- Embedding of `ptcIsTagNameStart`. -/
def ptcIsTagNameStart (b : Nat) : Bool :=
  (b ≥ 97 && b ≤ 122) || (b ≥ 65 && b ≤ 90) || b == 95

/-- Embedding of `ptcIsTagNameChar`. -/
def ptcIsTagNameChar (b : Nat) : Bool := ptcIsTagNameStart b || (b ≥ 48 && b ≤ 57)

/-- Embedding of `isWhitespaceByte`. -/
def isWhitespaceByte (b : Nat) : Bool := b == 32 || b == 10 || b == 9 || b == 13

/-- Embedding of `isToolTagNameStart`. -/
def isToolTagNameStart (b : Nat) : Bool :=
  (b ≥ 97 && b ≤ 122) || (b ≥ 65 && b ≤ 90) || b == 95

/-- Embedding of `isToolTagNameChar`. -/
def isToolTagNameChar (b : Nat) : Bool := isToolTagNameStart b || (b ≥ 48 && b ≤ 57)

/-- Embedding of `taggedToolCallSpan` (and of `taggedToolCallSegment`): the consumed
span `text[start:stop]` and its call. -/
structure taggedToolCallSpan (Obj : Type) where
  start : Nat
  stop : Nat
  call : ToolCall Obj
deriving DecidableEq, Repr

/-- The loop `for k < len(text) && p(text[k]) { k++ }`; `rest` is `text[k:]`. -/
def advanceWhile (p : Nat → Bool) : List Nat → Nat → Nat
  | [], k => k
  | b :: rest, k => if p b then advanceWhile p rest (k + 1) else k

/-- The closing tag `"</" + name + ">"`. -/
def closingTag (name : List Nat) : List Nat := [60, 47] ++ name ++ [62]

/-- The end of the consumed span, computed after a successful decode: white space
after the object is skipped and a closing tag found there is included; without one
the span ends at `jsonEnd`. -/
def spanEndAfter (isWs : Nat → Bool) (text name : List Nat) (jsonEnd : Nat) : Nat :=
  let afterJSON := advanceWhile isWs (text.drop jsonEnd) jsonEnd
  if stringsHasPrefix (text.drop afterJSON) (closingTag name) then
    afterJSON + (closingTag name).length
  else jsonEnd

/-- The call appended for a recognised span, `count` being the number of spans found
before it. -/
def taggedCall {Obj : Type} (count : Nat) (name rawArgs : List Nat) (args : Option Obj) :
    ToolCall Obj :=
  { ID := ascii "call_tag_" ++ decimal (count + 1),
    Typ := ascii "function",
    Name := name,
    Arguments := args,
    Function := some { Name := name, Arguments := rawArgs } }

/-- The loop of `parseTaggedToolCallSpans`, over its three byte classes.  `i` is the
cursor and `spans` the spans found so far; every iteration moves `i` forward, so
`fuel = len(text)` iterations are enough. -/
def taggedScan {Obj : Type} (isStart isChar isWs : Nat → Bool) (dec : JsonDecoder Obj)
    (text : List Nat) : Nat → Nat → List (taggedToolCallSpan Obj) → List (taggedToolCallSpan Obj)
  | 0, _, spans => spans
  | fuel + 1, i, spans =>
    if i < text.length then
      match stringsIndexByte (text.drop i) 60 with
      | none => spans
      | some rel =>
        let start := i + rel
        if start + 1 ≥ text.length then spans
        else if text.getD (start + 1) 0 = 47 || !isStart (text.getD (start + 1) 0) then
          taggedScan isStart isChar isWs dec text fuel (start + 1) spans
        else
          let nameStart := start + 1
          let nameEnd := advanceWhile isChar (text.drop nameStart) nameStart
          if nameEnd ≥ text.length || text.getD nameEnd 0 ≠ 62 then
            taggedScan isStart isChar isWs dec text fuel (start + 1) spans
          else
            let name := slice text nameStart nameEnd
            let jsonStart := advanceWhile isWs (text.drop (nameEnd + 1)) (nameEnd + 1)
            if jsonStart ≥ text.length || text.getD jsonStart 0 ≠ 123 then
              taggedScan isStart isChar isWs dec text fuel (start + 1) spans
            else
              let jsonEnd := findMatchingBrace text jsonStart
              if jsonEnd = jsonStart then
                taggedScan isStart isChar isWs dec text fuel (start + 1) spans
              else
                let rawArgs := slice text jsonStart jsonEnd
                match dec.unmarshalMap rawArgs with
                | none => taggedScan isStart isChar isWs dec text fuel (start + 1) spans
                | some args =>
                  let spanEnd := spanEndAfter isWs text name jsonEnd
                  taggedScan isStart isChar isWs dec text fuel spanEnd
                    (spans ++ [{ start := start, stop := spanEnd,
                                 call := taggedCall spans.length name rawArgs args }])
    else spans

/-- The body of the scan loop for the candidate `<` at index `start` (with
`start + 1 < len(text)`), `count` spans having been found before: the span appended
when the candidate is accepted, `none` when it is rejected. -/
def tagCandidate {Obj : Type} (isStart isChar isWs : Nat → Bool) (dec : JsonDecoder Obj)
    (text : List Nat) (count start : Nat) : Option (taggedToolCallSpan Obj) :=
  if text.getD (start + 1) 0 = 47 || !isStart (text.getD (start + 1) 0) then none
  else
    let nameStart := start + 1
    let nameEnd := advanceWhile isChar (text.drop nameStart) nameStart
    if nameEnd ≥ text.length || text.getD nameEnd 0 ≠ 62 then none
    else
      let name := slice text nameStart nameEnd
      let jsonStart := advanceWhile isWs (text.drop (nameEnd + 1)) (nameEnd + 1)
      if jsonStart ≥ text.length || text.getD jsonStart 0 ≠ 123 then none
      else
        let jsonEnd := findMatchingBrace text jsonStart
        if jsonEnd = jsonStart then none
        else
          let rawArgs := slice text jsonStart jsonEnd
          match dec.unmarshalMap rawArgs with
          | none => none
          | some args =>
            let spanEnd := spanEndAfter isWs text name jsonEnd
            some { start := start, stop := spanEnd,
                   call := taggedCall count name rawArgs args }

/-- Embedding of `parseTaggedToolCallSpans`. -/
def parseTaggedToolCallSpans {Obj : Type} (dec : JsonDecoder Obj) (text : List Nat) :
    List (taggedToolCallSpan Obj) :=
  taggedScan ptcIsTagNameStart ptcIsTagNameChar ptcIsWhitespace dec text text.length 0 []

/-- Embedding of `ExtractTaggedToolCalls`. -/
def ExtractTaggedToolCalls {Obj : Type} (dec : JsonDecoder Obj) (text : List Nat) :
    List (ToolCall Obj) :=
  (parseTaggedToolCallSpans dec text).map (·.call)

/-- The loop of `StripTaggedToolCalls` over the spans: the text written so far and
the value of `last`. -/
def stripLoop {Obj : Type} (text : List Nat) :
    List (taggedToolCallSpan Obj) → Nat → List Nat → List Nat × Nat
  | [], last, sb => (sb, last)
  | span :: rest, last, sb =>
    stripLoop text rest span.stop
      (if span.start > last then sb ++ slice text last span.start else sb)

/-- The body shared by `StripTaggedToolCalls` and `stripTaggedToolCalls`, given the
spans found. -/
def stripSpans {Obj : Type} (text : List Nat) (spans : List (taggedToolCallSpan Obj)) :
    List Nat :=
  if spans.length = 0 then stringsTrimSpace text
  else
    let r := stripLoop text spans 0 []
    stringsTrimSpace (if r.2 < text.length then r.1 ++ text.drop r.2 else r.1)

/-- Embedding of `StripTaggedToolCalls`. -/
def StripTaggedToolCalls {Obj : Type} (dec : JsonDecoder Obj) (text : List Nat) : List Nat :=
  stripSpans text (parseTaggedToolCallSpans dec text)

/-! ## Structured extractor and response content (`claude_cli_provider.go`) -/

/-- The marker of an envelope opening. -/
def toolCallsMarker : List Nat := ascii "\x7b\"tool_calls\""

/-- The loop of the method `parseTaggedToolCallSegments` (lines 244-312), transcribed on
its own.  `i` is the cursor and `segments` the segments found so far; every iteration
moves `i` forward, so `fuel = len(text)` iterations are enough. -/
def segmentScan {Obj : Type} (dec : JsonDecoder Obj) (text : List Nat) :
    Nat → Nat → List (taggedToolCallSpan Obj) → List (taggedToolCallSpan Obj)
  | 0, _, segments => segments
  | fuel + 1, i, segments =>
    if i < text.length then
      match stringsIndexByte (text.drop i) 60 with
      | none => segments
      | some rel =>
        let start := i + rel
        if start + 1 ≥ text.length then segments
        else if text.getD (start + 1) 0 = 47 || !isToolTagNameStart (text.getD (start + 1) 0) then
          segmentScan dec text fuel (start + 1) segments
        else
          let nameStart := start + 1
          let nameEnd := advanceWhile isToolTagNameChar (text.drop nameStart) nameStart
          if nameEnd ≥ text.length || text.getD nameEnd 0 ≠ 62 then
            segmentScan dec text fuel (start + 1) segments
          else
            let name := slice text nameStart nameEnd
            let jsonStart := advanceWhile isWhitespaceByte (text.drop (nameEnd + 1)) (nameEnd + 1)
            if jsonStart ≥ text.length || text.getD jsonStart 0 ≠ 123 then
              segmentScan dec text fuel (start + 1) segments
            else
              let jsonEnd := findMatchingBrace text jsonStart
              if jsonEnd = jsonStart then
                segmentScan dec text fuel (start + 1) segments
              else
                let rawArgs := slice text jsonStart jsonEnd
                match dec.unmarshalMap rawArgs with
                | none => segmentScan dec text fuel (start + 1) segments
                | some args =>
                  let afterJSON := advanceWhile isWhitespaceByte (text.drop jsonEnd) jsonEnd
                  let closing := [60, 47] ++ name ++ [62]
                  let segmentEnd :=
                    if stringsHasPrefix (text.drop afterJSON) closing then
                      afterJSON + closing.length
                    else jsonEnd
                  segmentScan dec text fuel segmentEnd
                    (segments ++ [{
                      start := start,
                      stop := segmentEnd,
                      call := {
                        ID := ascii "call_tag_" ++ decimal (segments.length + 1),
                        Typ := ascii "function",
                        Name := name,
                        Arguments := args,
                        Function := some { Name := name, Arguments := rawArgs } } }])
    else segments

/-- Embedding of the method `parseTaggedToolCallSegments`. -/
def parseTaggedToolCallSegments {Obj : Type} (dec : JsonDecoder Obj) (text : List Nat) :
    List (taggedToolCallSpan Obj) :=
  segmentScan dec text text.length 0 []

/-- Embedding of the method `extractTaggedToolCalls`. -/
def extractTaggedToolCalls {Obj : Type} (dec : JsonDecoder Obj) (text : List Nat) :
    List (ToolCall Obj) :=
  (parseTaggedToolCallSegments dec text).map (·.call)

/-- Embedding of the method `stripTaggedToolCalls`. -/
def stripTaggedToolCalls {Obj : Type} (dec : JsonDecoder Obj) (text : List Nat) : List Nat :=
  stripSpans text (parseTaggedToolCallSegments dec text)

/-- The `ToolCall` that `extractToolCalls` builds from one envelope entry; the
error of decoding the arguments is dropped, the map then stays nil. -/
def envelopeToolCall {Obj : Type} (dec : JsonDecoder Obj) (tc : EnvelopeCall) : ToolCall Obj :=
  { ID := tc.ID,
    Typ := tc.Typ,
    Name := tc.Name,
    Arguments := (dec.unmarshalMap tc.Arguments).getD none,
    Function := some { Name := tc.Name, Arguments := tc.Arguments } }

/-- Embedding of `extractToolCalls`. -/
def extractToolCalls {Obj : Type} (dec : JsonDecoder Obj) (text : List Nat) :
    List (ToolCall Obj) :=
  match stringsIndex text toolCallsMarker with
  | some start =>
    let stop := findMatchingBrace text start
    if stop = start then []
    else
      match dec.unmarshalEnvelope (slice text start stop) with
      | some calls => calls.map (envelopeToolCall dec)
      | none => extractTaggedToolCalls dec text
  | none => extractTaggedToolCalls dec text

/-- Embedding of `stripToolCallsJSON`. -/
def stripToolCallsJSON (text : List Nat) : List Nat :=
  match stringsIndex text toolCallsMarker with
  | none => text
  | some start =>
    let stop := findMatchingBrace text start
    if stop = start then text
    else stringsTrimSpace (text.take start ++ text.drop stop)

/-- The tool calls that `parseClaudeCliResponse` returns for the reply text `result`
(line 148). -/
def responseToolCalls {Obj : Type} (dec : JsonDecoder Obj) (result : List Nat) :
    List (ToolCall Obj) :=
  extractToolCalls dec result

/-- The `Content` that `parseClaudeCliResponse` returns for the reply text `result`
(lines 151-156 and 168). -/
def responseContent {Obj : Type} (dec : JsonDecoder Obj) (result : List Nat) : List Nat :=
  stringsTrimSpace
    (if (responseToolCalls dec result).length > 0 then
      stripTaggedToolCalls dec (stripToolCallsJSON result)
    else result)

/-- A valid tag name: the first byte an ASCII letter or underscore, the other bytes
ASCII letters, digits or underscores. -/
def isTagName : List Nat → Bool
  | [] => false
  | c :: cs => ptcIsTagNameStart c && cs.all ptcIsTagNameChar

/-- One tagged call of a composed text: the text before it, its tag name, the raw
JSON object and the object it decodes to. -/
structure TaggedPiece (Obj : Type) where
  before : List Nat
  name : List Nat
  obj : List Nat
  args : Obj

/-- The bytes of one piece: the text before, the opening tag, the object and the
closing tag. -/
def renderPiece {Obj : Type} (p : TaggedPiece Obj) : List Nat :=
  p.before ++ (60 :: (p.name ++ (62 :: (p.obj ++ closingTag p.name))))

/-- The pieces written one after the other. -/
def renderPieces {Obj : Type} : List (TaggedPiece Obj) → List Nat
  | [] => []
  | p :: ps => renderPiece p ++ renderPieces ps

/-- The spans expected for pieces that start at index `offset`, `count` spans having
been found before them. -/
def pieceSpans {Obj : Type} : Nat → Nat → List (TaggedPiece Obj) → List (taggedToolCallSpan Obj)
  | _, _, [] => []
  | offset, count, p :: ps =>
    { start := offset + p.before.length,
      stop := offset + (renderPiece p).length,
      call := taggedCall count p.name p.obj (some p.args) }
      :: pieceSpans (offset + (renderPiece p).length) (count + 1) ps

/-! ## Sample data -/

/-- The envelope of the specification's structured example. -/
def sampleEnvelope : List Nat :=
  ascii ("\x7b\"tool_calls\":[\x7b\"id\":\"call_1\",\"type\":\"function\",\"function\":"
    ++ "\x7b\"name\":\"f\",\"arguments\":\"\x7b\\\"x\\\":1\x7d\"\x7d\x7d]\x7d")

/-- An envelope with one entry whose arguments string is not JSON. -/
def sampleBadEnvelope : List Nat :=
  ascii ("\x7b\"tool_calls\":[\x7b\"id\":\"a\",\"type\":\"function\",\"function\":"
    ++ "\x7b\"name\":\"g\",\"arguments\":\"oops\"\x7d\x7d]\x7d")

/-- An envelope whose two entries carry no `id` and no `type`. -/
def sampleNoIdEnvelope : List Nat :=
  ascii ("\x7b\"tool_calls\":[\x7b\"function\":\x7b\"name\":\"f\",\"arguments\":\"\x7b\x7d\"\x7d\x7d,"
    ++ "\x7b\"function\":\x7b\"name\":\"g\",\"arguments\":\"\x7b\x7d\"\x7d\x7d]\x7d")

/-- The JSON object of the tagged tests. -/
def sampleObject : List Nat :=
  ascii "\x7b\"path\":\"/tmp/a.txt\",\"content\":\"hello\"\x7d"

/-- The entry of `sampleEnvelope`, decoded. -/
def sampleEntry : EnvelopeCall :=
  { ID := ascii "call_1", Typ := ascii "function", Name := ascii "f",
    Arguments := ascii "\x7b\"x\":1\x7d" }

/-- The entry of `sampleBadEnvelope`, decoded. -/
def sampleBadEntry : EnvelopeCall :=
  { ID := ascii "a", Typ := ascii "function", Name := ascii "g", Arguments := ascii "oops" }

/-- A decoder for the sample texts: it decodes the JSON texts listed here as
`json.Unmarshal` does (a decoded object is its list of keys and values, a value being
kept as its JSON text) and reports an error for every other input. -/
def sampleDecoder : JsonDecoder (List (List Nat × List Nat)) where
  unmarshalMap := fun raw =>
    if raw = ascii "\x7b\x7d" then some (some [])
    else if raw = ascii "\x7b\"x\":1\x7d" then some (some [(ascii "x", ascii "1")])
    else if raw = sampleObject then
      some (some [(ascii "path", ascii "\"/tmp/a.txt\""), (ascii "content", ascii "\"hello\"")])
    else none
  unmarshalEnvelope := fun raw =>
    if raw = sampleEnvelope then some [sampleEntry]
    else if raw = sampleBadEnvelope then some [sampleBadEntry]
    else if raw = ascii "\x7b\"tool_calls\":[]\x7d" then some []
    else if raw = sampleNoIdEnvelope then
      some [{ ID := [], Typ := [], Name := ascii "f", Arguments := ascii "\x7b\x7d" },
            { ID := [], Typ := [], Name := ascii "g", Arguments := ascii "\x7b\x7d" }]
    else none

/-- Two pieces for the examples: the call `f` with an empty object after `a `, and the
call `append_file` of the tests after ` b `. -/
def samplePieces : List (TaggedPiece (List (List Nat × List Nat))) :=
  [{ before := ascii "a ", name := ascii "f", obj := ascii "\x7b\x7d", args := [] },
   { before := ascii " b ", name := ascii "append_file", obj := sampleObject,
     args := [(ascii "path", ascii "\"/tmp/a.txt\""), (ascii "content", ascii "\"hello\"")] }]

/-! ## The scan loop, one iteration at a time -/

/-- One iteration of the loop of `parseTaggedToolCallSpans` at cursor `i`, `spans`
having been found: `none` when the loop is left (its condition is false, or one of the
two `break`s is taken), otherwise the cursor and the spans of the next iteration. -/
def scanStep {Obj : Type} (dec : JsonDecoder Obj) (text : List Nat) (i : Nat)
    (spans : List (taggedToolCallSpan Obj)) : Option (Nat × List (taggedToolCallSpan Obj)) :=
  if i < text.length then
    match stringsIndexByte (text.drop i) 60 with
    | none => none
    | some rel =>
      if i + rel + 1 ≥ text.length then none
      else
        match tagCandidate ptcIsTagNameStart ptcIsTagNameChar ptcIsWhitespace dec text
            spans.length (i + rel) with
        | none => some (i + rel + 1, spans)
        | some sp => some (sp.stop, spans ++ [sp])
  else none

/-- The cursor and the spans after `k` iterations that stay in the loop, `none` when
the loop is left before. -/
def scanSteps {Obj : Type} (dec : JsonDecoder Obj) (text : List Nat) :
    Nat → Nat → List (taggedToolCallSpan Obj) → Option (Nat × List (taggedToolCallSpan Obj))
  | 0, i, spans => some (i, spans)
  | k + 1, i, spans =>
    match scanStep dec text i spans with
    | none => none
    | some next => scanSteps dec text k next.1 next.2

/-! ## Prompt construction (`claude_cli_provider.go`, lines 65-88) -/

/-- Modelled from the spec: the type `Message` (declared outside the files at hand),
with the three fields that `messagesToPrompt` reads. -/
structure Message where
  Role : List Nat
  Content : List Nat
  ToolCallID : List Nat
deriving DecidableEq, Repr

/-- Embedding of `strings.TrimPrefix(s, p)`. -/
def stringsTrimPrefix (s p : List Nat) : List Nat :=
  if stringsHasPrefix s p then s.drop p.length else s

/-- Embedding of `strings.Join(parts, sep)`. -/
def stringsJoin : List (List Nat) → List Nat → List Nat
  | [], _ => []
  | [a], _ => a
  | a :: b :: rest, sep => a ++ sep ++ stringsJoin (b :: rest) sep

/-- The part that the `switch` of `messagesToPrompt` appends for one message: none for
the role `system` and for a role that no `case` names. -/
def promptPart (msg : Message) : List (List Nat) :=
  if msg.Role = ascii "system" then []
  else if msg.Role = ascii "user" then [ascii "User: " ++ msg.Content]
  else if msg.Role = ascii "assistant" then [ascii "Assistant: " ++ msg.Content]
  else if msg.Role = ascii "tool" then
    [ascii "[Tool Result for " ++ msg.ToolCallID ++ ascii "]: " ++ msg.Content]
  else []

/-- The value of `parts` after the loop of `messagesToPrompt` over `messages`, started
with `parts`. -/
def promptParts : List Message → List (List Nat) → List (List Nat)
  | [], parts => parts
  | msg :: rest, parts => promptParts rest (parts ++ promptPart msg)

/-- Embedding of `messagesToPrompt`. -/
def messagesToPrompt (messages : List Message) : List Nat :=
  let parts := promptParts messages []
  if parts.length = 1 ∧ stringsHasPrefix (parts.headD []) (ascii "User: ") then
    stringsTrimPrefix (parts.headD []) (ascii "User: ")
  else stringsJoin parts (ascii "\n")

/-! ## arXiv search: the result count (`research.go`, lines 54-63) -/

/-- A `float64` value: the finite value `mant * 2 ^ exp`, an infinity, or a NaN.  Every
finite `float64` is of this form. -/
inductive Float64 where
  | finite (mant : Int) (exp : Int)
  | inf (negative : Bool)
  | nan
deriving DecidableEq, Repr

/-- A value of `args[...]`, by the dynamic type that the type assertions of the tools
look at: the key is missing, or holds a `float64` (every JSON number), a `string`, a
`bool`, or anything else. -/
inductive ArgValue where
  | missing
  | number (f : Float64)
  | str (s : List Nat)
  | bool (b : Bool)
  | other
deriving DecidableEq, Repr

/-- The comparison `mr > 0` on `float64`: false for a NaN. -/
def Float64.isPositive : Float64 → Bool
  | .finite mant _ => decide (0 < mant)
  | .inf negative => !negative
  | .nan => false

/-- The finite value with its fraction discarded (truncation towards zero). -/
def truncateDyadic (mant exp : Int) : Int :=
  if 0 ≤ exp then mant * ((2 ^ exp.toNat : Nat) : Int)
  else Int.tdiv mant ((2 ^ (-exp).toNat : Nat) : Int)

/-- The conversion `int(mr)` to the 64-bit `int`: the fraction is discarded; for a
value that `int` cannot represent (and for an infinity or a NaN) the language leaves
the result to the implementation, which is the parameter `outOfRange`. -/
def floatToInt (outOfRange : Int) : Float64 → Int
  | .finite mant exp =>
    if -(2 ^ 63 : Int) ≤ truncateDyadic mant exp ∧ truncateDyadic mant exp < (2 ^ 63 : Int) then
      truncateDyadic mant exp
    else outOfRange
  | .inf _ => outOfRange
  | .nan => outOfRange

/-- The value of `maxResults` that `ArXivTool.Execute` prints into the query, for the
value `arg` of `args["max_results"]`. -/
def arxivMaxResults (outOfRange : Int) (arg : ArgValue) : Int :=
  match arg with
  | .number mr =>
    if mr.isPositive then
      if floatToInt outOfRange mr > 20 then 20 else floatToInt outOfRange mr
    else 5
  | _ => 5

/-! ## Tool loop controller (specification, section 4.5)

`RunToolLoop` is called by `toolloop_tagged_test.go` but is not among the files at
hand, so the controller is embedded from its specification. -/

/-- Modelled from the spec: the role of a `ConversationMessage`, one of system, user,
assistant and tool. -/
inductive Role where
  | system
  | user
  | assistant
  | tool
deriving DecidableEq, Repr

/-- Modelled from the spec: `ConversationMessage`, a role, a content and the optional
identifier of a tool call, set only on the role tool. -/
structure ConversationMessage where
  role : Role
  content : List Nat
  tool_call_id : Option (List Nat)
deriving DecidableEq, Repr

/-- Modelled from the spec: `ToolOutcome`, the text fed back into the conversation, the
text surfaced to an observer, and the error flag. -/
structure ToolOutcome where
  for_model : List Nat
  for_observer : List Nat
  is_error : Bool
deriving DecidableEq, Repr

/-- Modelled from the spec: `LoopResult`, the final content and the number of
iterations used. -/
structure LoopResult where
  final_content : List Nat
  iterations_used : Nat
deriving DecidableEq, Repr

/-- Modelled from the spec: how a run of the missing `RunToolLoop` ends.  The terminal
states are done (step 3), iteration-exhausted (step 5) and fatal transport error
(step 1); a bound of zero or less is a configuration error. -/
inductive LoopEnd where
  | done (result : LoopResult)
  | iterationExhausted (iterations_used : Nat)
  | fatalTransportError (error : List Nat)
  | configurationError
deriving DecidableEq, Repr

/-- What a run did, in order: a model exchange, the invocation of a registered tool, or
the lookup of a name that the registry does not know. -/
inductive LoopEvent where
  | exchange
  | invoked (name : List Nat)
  | unknown (name : List Nat)
deriving DecidableEq, Repr

/-- Modelled from the spec: the collaborators and the bound of the missing
`RunToolLoop`.  `exchange` is the model exchange on the full conversation, an error
being a transport failure; `registry` looks a tool up by name, a tool mapping the
parsed arguments to its outcome; `explain` is the explanatory message for a name that
is not found; `maxIterations` is the maximum-iteration bound. -/
structure LoopConfig (Obj : Type) where
  exchange : List ConversationMessage → Except (List Nat) (List Nat)
  registry : List Nat → Option (Option Obj → ToolOutcome)
  explain : List Nat → List Nat
  maxIterations : Int

/-- A finished run: how it ended, the conversation at that point, and what it did. -/
structure LoopRun where
  outcome : LoopEnd
  conversation : List ConversationMessage
  trace : List LoopEvent
deriving DecidableEq, Repr

/-- Modelled from the spec: step 4 of the missing `RunToolLoop` for one call.  The tool
is looked up by name; a name not found gives an outcome with `is_error` set and an
explanatory message, a name found gives the outcome of the tool on the parsed
arguments. -/
def toolOutcome {Obj : Type} (cfg : LoopConfig Obj) (c : ToolCall Obj) : ToolOutcome :=
  match cfg.registry c.Name with
  | none => { for_model := cfg.explain c.Name, for_observer := cfg.explain c.Name,
              is_error := true }
  | some tool => tool c.Arguments

/-- The event that step 4 records for one call. -/
def callEvent {Obj : Type} (cfg : LoopConfig Obj) (c : ToolCall Obj) : LoopEvent :=
  match cfg.registry c.Name with
  | none => .unknown c.Name
  | some _ => .invoked c.Name

/-- Modelled from the spec: the messages that step 4 of the missing `RunToolLoop`
appends.  One assistant message whose content is the stripped content, then one tool
message per call, in resolver order, its content the outcome's `for_model` and its tag
the identifier of the call. -/
def turnMessages {Obj : Type} (cfg : LoopConfig Obj) (content : List Nat)
    (calls : List (ToolCall Obj)) : List ConversationMessage :=
  { role := .assistant, content := content, tool_call_id := none } ::
    calls.map (fun c =>
      { role := .tool, content := (toolOutcome cfg c).for_model, tool_call_id := some c.ID })

/-- Modelled from the spec: the final content of step 3 of the missing `RunToolLoop`,
the stripped content, or the raw reply text if stripping found nothing to strip (the
stripped content is then the trimmed reply). -/
def finalContent {Obj : Type} (dec : JsonDecoder Obj) (reply : List Nat) : List Nat :=
  if responseContent dec reply = stringsTrimSpace reply then reply
  else responseContent dec reply

/-- Modelled from the spec: the iterations of the missing `RunToolLoop`.  `remaining`
is the bound minus the iteration counter `counter`.  Each iteration sends the
conversation to the model (step 1, a failure being fatal), resolves the reply (step 2),
ends the run as done when no call was resolved (step 3), and otherwise appends the
messages of step 4; when the counter has reached the bound without that, the run ends
as iteration-exhausted (step 5). -/
def loopFrom {Obj : Type} (dec : JsonDecoder Obj) (cfg : LoopConfig Obj) :
    Nat → Nat → List ConversationMessage → List LoopEvent → LoopRun
  | 0, counter, conversation, trace =>
    { outcome := .iterationExhausted counter, conversation := conversation, trace := trace }
  | remaining + 1, counter, conversation, trace =>
    match cfg.exchange conversation with
    | .error e =>
      { outcome := .fatalTransportError e, conversation := conversation,
        trace := trace ++ [.exchange] }
    | .ok reply =>
      if (responseToolCalls dec reply).length = 0 then
        { outcome := .done { final_content := finalContent dec reply,
                             iterations_used := counter + 1 },
          conversation := conversation,
          trace := trace ++ [.exchange] }
      else
        loopFrom dec cfg remaining (counter + 1)
          (conversation
            ++ turnMessages cfg (responseContent dec reply) (responseToolCalls dec reply))
          (trace ++ .exchange :: (responseToolCalls dec reply).map (callEvent cfg))

/-- Modelled from the spec: the initial conversation of the missing `RunToolLoop`, the
caller-supplied messages plus an optional system message describing the tools. -/
def initialConversation (messages : List ConversationMessage)
    (instruction : Option (List Nat)) : List ConversationMessage :=
  messages ++ (instruction.map (fun text =>
    ({ role := .system, content := text, tool_call_id := none } : ConversationMessage))).toList

/-- Modelled from the spec: the missing `RunToolLoop`.  A bound of zero or less is a
configuration error; otherwise the iterations start with the counter at zero.  The
external cancellation signal is not part of this embedding. -/
def runToolLoop {Obj : Type} (dec : JsonDecoder Obj) (cfg : LoopConfig Obj)
    (messages : List ConversationMessage) (instruction : Option (List Nat)) : LoopRun :=
  if cfg.maxIterations ≤ 0 then
    { outcome := .configurationError,
      conversation := initialConversation messages instruction, trace := [] }
  else
    loopFrom dec cfg cfg.maxIterations.toNat 0 (initialConversation messages instruction) []

/-- The iterations used, for the two outcomes that report them. -/
def LoopEnd.iterationsUsed : LoopEnd → Option Nat
  | .done result => some result.iterations_used
  | .iterationExhausted n => some n
  | _ => none

/-- The text of the tagged call of `toolloop_tagged_test.go`. -/
def sampleLoopReply : List Nat :=
  ascii ("<append_file>\x7b\"path\":\"/tmp/test.txt\",\"content\":\"hello\"\x7d"
    ++ "</append_file>")

/-- A decoder for the loop examples: it decodes the object of `sampleLoopReply` and the
empty object, and reports an error for every other input. -/
def sampleLoopDecoder : JsonDecoder (List (List Nat × List Nat)) where
  unmarshalMap := fun raw =>
    if raw = ascii "\x7b\"path\":\"/tmp/test.txt\",\"content\":\"hello\"\x7d" then
      some (some [(ascii "path", ascii "\"/tmp/test.txt\""),
                  (ascii "content", ascii "\"hello\"")])
    else if raw = ascii "\x7b\x7d" then some (some [])
    else none
  unmarshalEnvelope := fun _ => none

/-- The collaborators of `TestRunToolLoop_ParsesTaggedToolCalls`: the model answers a
conversation of one message with the tagged call and any other with `done`; the
registry knows `append_file`, which answers `ok`; the bound is 4. -/
def sampleLoopConfig : LoopConfig (List (List Nat × List Nat)) where
  exchange := fun conversation =>
    if conversation.length = 1 then .ok sampleLoopReply else .ok (ascii "done")
  registry := fun name =>
    if name = ascii "append_file" then
      some (fun _ => { for_model := ascii "ok", for_observer := ascii "ok", is_error := false })
    else none
  explain := fun name => ascii "unknown tool: " ++ name
  maxIterations := 4

/-- A model that asks for the tool `noop` on every turn, with the bound `bound`. -/
def sampleBusyConfig (bound : Int) : LoopConfig (List (List Nat × List Nat)) where
  exchange := fun _ => .ok (ascii "<noop>\x7b\x7d</noop>")
  registry := fun name =>
    if name = ascii "noop" then
      some (fun _ => { for_model := [], for_observer := [], is_error := false })
    else none
  explain := fun name => ascii "unknown tool: " ++ name
  maxIterations := bound

/-! ## Markdown file tool: the path (`markdown_file.go`, lines 75-83) -/

/-- Embedding of `strings.HasSuffix(s, sfx)`. -/
def stringsHasSuffix (s sfx : List Nat) : Bool :=
  decide (sfx.length ≤ s.length) && s.drop (s.length - sfx.length) == sfx

/-- The rune and width for a first byte `s0` that announces two bytes, `rest` being the
bytes after it. -/
def utf8Decode2 (s0 : Nat) : List Nat → Nat × Nat
  | s1 :: _ => if 128 ≤ s1 ∧ s1 ≤ 191 then (s0 % 32 * 64 + s1 % 64, 2) else (65533, 1)
  | [] => (65533, 1)

/-- The rune and width for a first byte `s0` that announces three bytes; the second
byte starts at 160 after 224 and ends at 159 after 237. -/
def utf8Decode3 (s0 : Nat) : List Nat → Nat × Nat
  | s1 :: s2 :: _ =>
    if (if s0 = 224 then 160 else 128) ≤ s1 ∧ s1 ≤ (if s0 = 237 then 159 else 191)
        ∧ 128 ≤ s2 ∧ s2 ≤ 191 then
      (s0 % 16 * 4096 + s1 % 64 * 64 + s2 % 64, 3)
    else (65533, 1)
  | _ => (65533, 1)

/-- The rune and width for a first byte `s0` that announces four bytes; the second
byte starts at 144 after 240 and ends at 143 after 244. -/
def utf8Decode4 (s0 : Nat) : List Nat → Nat × Nat
  | s1 :: s2 :: s3 :: _ =>
    if (if s0 = 240 then 144 else 128) ≤ s1 ∧ s1 ≤ (if s0 = 244 then 143 else 191)
        ∧ 128 ≤ s2 ∧ s2 ≤ 191 ∧ 128 ≤ s3 ∧ s3 ≤ 191 then
      (s0 % 8 * 262144 + s1 % 64 * 4096 + s2 % 64 * 64 + s3 % 64, 4)
    else (65533, 1)
  | _ => (65533, 1)

/-- Embedding of `utf8.DecodeRuneInString(s)`: the first rune of `s` and its width in
bytes, by the size that the first byte announces (2 bytes from 194, 3 from 224, 4 from
240 to 244).  An invalid or incomplete encoding gives the rune `RuneError` (65533) and
the width 1.  The masks and shifts of the library are written with `%` and `*`. -/
def utf8DecodeRune : List Nat → Nat × Nat
  | [] => (65533, 0)
  | s0 :: rest =>
    if s0 < 128 then (s0, 1)
    else if s0 < 194 ∨ 244 < s0 then (65533, 1)
    else if s0 < 224 then utf8Decode2 s0 rest
    else if s0 < 240 then utf8Decode3 s0 rest
    else utf8Decode4 s0 rest

/-- Embedding of `utf8.AppendRune`: the UTF-8 encoding of the rune `r`, that of
`RuneError` for a surrogate or a value beyond `MaxRune`. -/
def utf8EncodeRune (r : Nat) : List Nat :=
  if r ≤ 127 then [r]
  else if r ≤ 2047 then [192 + r / 64, 128 + r % 64]
  else if 1114111 < r ∨ (55296 ≤ r ∧ r ≤ 57343) then [239, 191, 189]
  else if r ≤ 65535 then [224 + r / 4096, 128 + r / 64 % 64, 128 + r % 64]
  else [240 + r / 262144, 128 + r / 4096 % 64, 128 + r / 64 % 64, 128 + r % 64]

/-- Embedding of `unicode.ToLower(r)`: the ASCII letters are mapped by the function
itself; for the other runes the case tables of the library are the parameter
`table`. -/
def unicodeToLower (table : Nat → Nat) (r : Nat) : Nat :=
  if r ≤ 127 then
    if 65 ≤ r ∧ r ≤ 90 then r + 32 else r
  else table r

/-- The loop of `strings.Map(mapping, s)` for a mapping that drops no rune: the runes
of `s` are decoded one after the other and the encodings of their images written.
A rune is at least one byte wide, so `fuel = len(s)` iterations are enough. -/
def stringsMapFrom (mapping : Nat → Nat) : Nat → List Nat → List Nat
  | 0, _ => []
  | fuel + 1, s =>
    match s with
    | [] => []
    | s0 :: rest =>
      utf8EncodeRune (mapping (utf8DecodeRune (s0 :: rest)).1)
        ++ stringsMapFrom mapping fuel ((s0 :: rest).drop (utf8DecodeRune (s0 :: rest)).2)

/-- Embedding of `strings.Map(mapping, s)`. -/
def stringsMap (mapping : Nat → Nat) (s : List Nat) : List Nat :=
  stringsMapFrom mapping s.length s

/-- The lower-case image of an ASCII byte. -/
def asciiLower (c : Nat) : Nat := if 65 ≤ c ∧ c ≤ 90 then c + 32 else c

/-- Embedding of `strings.ToLower(s)`: a string of ASCII bytes is mapped byte by byte,
any other string through `strings.Map(unicode.ToLower, s)`. -/
def stringsToLower (table : Nat → Nat) (s : List Nat) : List Nat :=
  if s.all (fun c => decide (c < 128)) then s.map asciiLower
  else stringsMap (unicodeToLower table) s

/-- The path that `MarkdownFileTool.Execute` resolves and writes, for the value `arg`
of `args["path"]`: a value that is not a string counts as the empty path, the empty
path is replaced by `defaultPath` (the `reports/summary-<time>.md` of the moment), and
`.md` is appended unless the lower-cased path ends with it. -/
def markdownPath (table : Nat → Nat) (defaultPath : List Nat) (arg : ArgValue) : List Nat :=
  let requested := match arg with
    | .str s => s
    | _ => []
  let path := if requested = [] then defaultPath else requested
  if !stringsHasSuffix (stringsToLower table path) (ascii ".md") then path ++ ascii ".md"
  else path

/-- Case tables for the examples: the Kelvin sign and the dotted capital I, which the
library maps to the ASCII letters `k` and `i`; every other rune is left as it is. -/
def sampleLowerTable (r : Nat) : Nat :=
  if r = 8490 then 107 else if r = 304 then 105 else r

/-! ## The response of the CLI (`claude_cli_provider.go`, lines 137-173) -/

/-- Embedding of `claudeCliUsageInfo`. -/
structure claudeCliUsageInfo where
  InputTokens : Int
  OutputTokens : Int
  CacheCreationInputTokens : Int
  CacheReadInputTokens : Int
deriving DecidableEq, Repr

/-- Embedding of `claudeCliJSONResponse`, with the fields that `parseClaudeCliResponse`
reads. -/
structure claudeCliJSONResponse where
  IsError : Bool
  Result : List Nat
  Usage : claudeCliUsageInfo
deriving DecidableEq, Repr

/-- Modelled from the spec: the type `UsageInfo` (declared outside the files at hand),
with the three fields that `parseClaudeCliResponse` sets. -/
structure UsageInfo where
  PromptTokens : Int
  CompletionTokens : Int
  TotalTokens : Int
deriving DecidableEq, Repr

/-- Modelled from the spec: the type `LLMResponse` (declared outside the files at
hand), with the four fields that `parseClaudeCliResponse` sets; `Usage` is a pointer,
`none` for nil. -/
structure LLMResponse (Obj : Type) where
  Content : List Nat
  ToolCalls : List (ToolCall Obj)
  FinishReason : List Nat
  Usage : Option UsageInfo
deriving DecidableEq, Repr

/-- The two errors that `parseClaudeCliResponse` returns: the output is not the JSON of
a response, or the response says that the CLI failed, with its result text. -/
inductive CliError where
  | parseFailed
  | cliReturnedError (result : List Nat)
deriving DecidableEq, Repr

/-- A sum of the 64-bit type `int`, wrapped into its range. -/
def wrapInt64 (x : Int) : Int := (x + 2 ^ 63) % 2 ^ 64 - 2 ^ 63

/-- The `usage` that `parseClaudeCliResponse` returns: nil unless input or output
tokens were counted. -/
def responseUsage (u : claudeCliUsageInfo) : Option UsageInfo :=
  if u.InputTokens > 0 ∨ u.OutputTokens > 0 then
    some {
      PromptTokens :=
        wrapInt64 (wrapInt64 (u.InputTokens + u.CacheCreationInputTokens)
          + u.CacheReadInputTokens),
      CompletionTokens := u.OutputTokens,
      TotalTokens :=
        wrapInt64 (wrapInt64 (wrapInt64 (u.InputTokens + u.CacheCreationInputTokens)
          + u.CacheReadInputTokens) + u.OutputTokens) }
  else none

/-- Embedding of `parseClaudeCliResponse`.  The decoding of the output into a
`claudeCliJSONResponse` by `json.Unmarshal` (standard library) is the parameter
`unmarshalResponse`, `none` being an error. -/
def parseClaudeCliResponse {Obj : Type} (dec : JsonDecoder Obj)
    (unmarshalResponse : List Nat → Option claudeCliJSONResponse) (output : List Nat) :
    Except CliError (LLMResponse Obj) :=
  match unmarshalResponse output with
  | none => .error .parseFailed
  | some resp =>
    if resp.IsError then .error (.cliReturnedError resp.Result)
    else
      let toolCalls := extractToolCalls dec resp.Result
      let finishReason :=
        if toolCalls.length > 0 then ascii "tool_calls" else ascii "stop"
      let content :=
        if toolCalls.length > 0 then stripTaggedToolCalls dec (stripToolCallsJSON resp.Result)
        else resp.Result
      .ok { Content := stringsTrimSpace content,
            ToolCalls := toolCalls,
            FinishReason := finishReason,
            Usage := responseUsage resp.Usage }

/-- A decoder of CLI outputs for the examples: it decodes the one output listed here,
whose result is the text `done`, and reports an error for every other input. -/
def sampleUnmarshalResponse (raw : List Nat) : Option claudeCliJSONResponse :=
  if raw = ascii "\x7b\"type\":\"result\",\"is_error\":false,\"result\":\"done\"\x7d" then
    some { IsError := false, Result := ascii "done",
           Usage := { InputTokens := 0, OutputTokens := 0, CacheCreationInputTokens := 0,
                      CacheReadInputTokens := 0 } }
  else none

/-! ## The pieces of text that stripping leaves in place -/

/-- The pieces of `text` outside the spans, in order, `last` being the end of the span
before: the slice before each span and the text after the last one.  These are the
strings that `StripTaggedToolCalls` writes. -/
def keptPieces {Obj : Type} (text : List Nat) :
    List (taggedToolCallSpan Obj) → Nat → List (List Nat)
  | [], last => [text.drop last]
  | span :: rest, last => slice text last span.start :: keptPieces text rest span.stop

/-- The bytes `w` after a `<` are the beginning of a tagged call that does not end
within them: a beginning of a tag name, or a tag name and `>` and white space, or
these and an object whose opening brace is not closed within `w`. -/
def beginsCall (w : List Nat) : Bool :=
  match w with
  | [] => true
  | c :: _ =>
    ptcIsTagNameStart c &&
    (match w.dropWhile ptcIsTagNameChar with
     | [] => true
     | g :: r =>
       g == 62 &&
       (match r.dropWhile ptcIsWhitespace with
        | [] => true
        | b :: o => b == 123 && findMatchingBrace (b :: o) 0 == 0))

/-- No `<` of the piece is followed, to the end of the piece, by the beginning of a
tagged call. -/
def noCallBegins : List Nat → Bool
  | [] => true
  | c :: rest => (c != 60 || !beginsCall rest) && noCallBegins rest

/-! # Theorems -/

/-! ## Library lemmas -/

theorem stringsIndexByte_append (c : Nat) (pre rest : List Nat) (h : c ∉ pre) :
    stringsIndexByte (pre ++ c :: rest) c = some pre.length := by
  induction pre with
  | nil => simp [stringsIndexByte]
  | cons b pre ih =>
    have hb : b ≠ c := fun hbc => h (by simp [hbc])
    have hp : c ∉ pre := fun hc => h (List.mem_cons_of_mem _ hc)
    simp [stringsIndexByte, hb, ih hp]

theorem stringsIndexByte_none (c : Nat) (s : List Nat) (h : c ∉ s) :
    stringsIndexByte s c = none := by
  induction s with
  | nil => simp [stringsIndexByte]
  | cons b s ih =>
    have hb : b ≠ c := fun hbc => h (by simp [hbc])
    have hp : c ∉ s := fun hc => h (List.mem_cons_of_mem _ hc)
    simp [stringsIndexByte, hb, ih hp]

theorem advanceWhile_stop (p : Nat → Bool) (run : List Nat) (c : Nat) (tail : List Nat)
    (hrun : ∀ b ∈ run, p b = true) (hc : p c = false) :
    ∀ k, advanceWhile p (run ++ c :: tail) k = k + run.length := by
  induction run with
  | nil => intro k; simp [advanceWhile, hc]
  | cons b run ih =>
    intro k
    have hb : p b = true := hrun b (List.mem_cons_self _ _)
    have hr : ∀ x ∈ run, p x = true := fun x hx => hrun x (List.mem_cons_of_mem _ hx)
    rw [List.cons_append, advanceWhile, if_pos hb, ih hr, List.length_cons]
    omega

theorem advanceWhile_all (p : Nat → Bool) (run : List Nat)
    (hrun : ∀ b ∈ run, p b = true) :
    ∀ k, advanceWhile p run k = k + run.length := by
  induction run with
  | nil => intro k; simp [advanceWhile]
  | cons b run ih =>
    intro k
    have hb : p b = true := hrun b (List.mem_cons_self _ _)
    have hr : ∀ x ∈ run, p x = true := fun x hx => hrun x (List.mem_cons_of_mem _ hx)
    rw [advanceWhile, if_pos hb, ih hr, List.length_cons]
    omega

theorem getD_eq_headD_drop (text : List Nat) (k d : Nat) :
    text.getD k d = (text.drop k).headD d := by
  induction text generalizing k with
  | nil => simp
  | cons b text ih =>
    cases k with
    | zero => simp
    | succ k => simp

theorem drop_of_append (text x y : List Nat) (k : Nat) (h : text = x ++ y)
    (hk : k = x.length) : text.drop k = y := by
  subst h; subst hk; simp

theorem take_of_append (text x y : List Nat) (k : Nat) (h : text = x ++ y)
    (hk : k = x.length) : text.take k = x := by
  subst h; subst hk; simp

theorem slice_of_append (text x m y : List Nat) (i j : Nat) (h : text = x ++ (m ++ y))
    (hi : i = x.length) (hj : j = x.length + m.length) : slice text i j = m := by
  subst h; subst hi; subst hj
  simp [slice]

theorem mem_trimLeftSpace (x : Nat) : ∀ (fuel : Nat) (s : List Nat),
    x ∈ trimLeftSpace fuel s → x ∈ s := by
  intro fuel
  induction fuel with
  | zero => intro s h; simpa [trimLeftSpace] using h
  | succ fuel ih =>
    intro s h
    rw [trimLeftSpace] at h
    split_ifs at h
    · exact h
    · exact List.mem_of_mem_drop (ih _ h)

theorem mem_trimRightSpaceRev (x : Nat) : ∀ (fuel : Nat) (r : List Nat),
    x ∈ trimRightSpaceRev fuel r → x ∈ r := by
  intro fuel
  induction fuel with
  | zero => intro r h; simpa [trimRightSpaceRev] using h
  | succ fuel ih =>
    intro r h
    rw [trimRightSpaceRev] at h
    split_ifs at h
    · exact h
    · exact List.mem_of_mem_drop (ih _ h)

theorem mem_stringsTrimSpace (x : Nat) (s : List Nat) (h : x ∈ stringsTrimSpace s) :
    x ∈ s := by
  unfold stringsTrimSpace at h
  rw [List.mem_reverse] at h
  have h1 := mem_trimRightSpaceRev x _ _ h
  rw [List.mem_reverse] at h1
  exact mem_trimLeftSpace x _ _ h1

theorem trimLeftSpace_suffix : ∀ (fuel : Nat) (s : List Nat),
    trimLeftSpace fuel s <:+ s := by
  intro fuel
  induction fuel with
  | zero => intro s; exact List.suffix_refl _
  | succ fuel ih =>
    intro s
    rw [trimLeftSpace]
    split_ifs
    · exact List.suffix_refl _
    · exact (ih _).trans (List.drop_suffix _ _)

theorem stringsHasPrefix_iff (s p : List Nat) : stringsHasPrefix s p = true ↔ p <+: s := by
  unfold stringsHasPrefix
  rw [List.prefix_iff_eq_take, beq_iff_eq]
  exact eq_comm

/-- The result `none` of `stringsIndex` means that `sub` does not occur in `s`. -/
theorem stringsIndex_eq_none_iff (sub : List Nat) : ∀ s : List Nat,
    stringsIndex s sub = none ↔ ¬ sub <:+: s := by
  intro s
  induction s with
  | nil =>
    rw [stringsIndex, List.infix_nil]
    split_ifs with h <;> simp [h]
  | cons b rest ih =>
    rw [stringsIndex, List.infix_cons_iff, ← stringsHasPrefix_iff]
    split_ifs with h
    · simp [h]
    · simp [h, ih]

theorem stringsIndex_self_append (sub y : List Nat) :
    stringsIndex (sub ++ y) sub = some 0 := by
  cases hs : sub ++ y with
  | nil =>
    have : sub = [] := (List.append_eq_nil.1 hs).1
    simp [stringsIndex, this]
  | cons b rest =>
    have hp : stringsHasPrefix (b :: rest) sub = true := by
      rw [stringsHasPrefix_iff, ← hs]
      exact List.prefix_append _ _
    simp [stringsIndex, hp]

theorem trimLeftSpace_of_zero (fuel : Nat) (s : List Nat) (h : leadingSpaceWidth s = 0) :
    trimLeftSpace fuel s = s := by
  cases fuel with
  | zero => rfl
  | succ fuel => rw [trimLeftSpace, if_pos h]

theorem trimRightSpaceRev_of_zero (fuel : Nat) (r : List Nat)
    (h : trailingSpaceWidth r = 0) : trimRightSpaceRev fuel r = r := by
  cases fuel with
  | zero => rfl
  | succ fuel => rw [trimRightSpaceRev, if_pos h]

theorem leadingSpaceWidth_trimLeftSpace : ∀ (fuel : Nat) (s : List Nat),
    s.length ≤ fuel → leadingSpaceWidth (trimLeftSpace fuel s) = 0 := by
  intro fuel
  induction fuel with
  | zero =>
    intro s h
    have : s = [] := List.length_eq_zero.1 (by omega)
    subst this
    rfl
  | succ fuel ih =>
    intro s h
    rw [trimLeftSpace]
    split_ifs with hz
    · exact hz
    · apply ih
      rw [List.length_drop]
      omega

theorem trailingSpaceWidth_trimRightSpaceRev : ∀ (fuel : Nat) (r : List Nat),
    r.length ≤ fuel → trailingSpaceWidth (trimRightSpaceRev fuel r) = 0 := by
  intro fuel
  induction fuel with
  | zero =>
    intro r h
    have : r = [] := List.length_eq_zero.1 (by omega)
    subst this
    rfl
  | succ fuel ih =>
    intro r h
    rw [trimRightSpaceRev]
    split_ifs with hz
    · exact hz
    · apply ih
      rw [List.length_drop]
      omega

theorem trimRightSpaceRev_suffix : ∀ (fuel : Nat) (r : List Nat),
    trimRightSpaceRev fuel r <:+ r := by
  intro fuel
  induction fuel with
  | zero => intro r; exact List.suffix_refl _
  | succ fuel ih =>
    intro r
    rw [trimRightSpaceRev]
    split_ifs
    · exact List.suffix_refl _
    · exact (ih _).trans (List.drop_suffix _ _)

theorem leadingSpaceWidth_of_append (p q : List Nat)
    (h : leadingSpaceWidth (p ++ q) = 0) : leadingSpaceWidth p = 0 := by
  match p with
  | [] => rfl
  | [a] =>
    cases q with
    | nil => simpa using h
    | cons b q =>
      simp only [List.singleton_append, leadingSpaceWidth] at h ⊢
      split_ifs at h ⊢
      simp_all
  | [a, b] =>
    cases q with
    | nil => simpa using h
    | cons c q =>
      simp only [List.cons_append, List.nil_append, leadingSpaceWidth] at h ⊢
      split_ifs at h ⊢
      simp_all
  | a :: b :: c :: p =>
    simp only [List.cons_append, leadingSpaceWidth] at h ⊢
    exact h

/-- `stringsTrimSpace` is idempotent. -/
theorem stringsTrimSpace_idem (s : List Nat) :
    stringsTrimSpace (stringsTrimSpace s) = stringsTrimSpace s := by
  have hu := leadingSpaceWidth_trimLeftSpace s.length s (le_refl _)
  have hr := trailingSpaceWidth_trimRightSpaceRev s.length
    (trimLeftSpace s.length s).reverse
    (by rw [List.length_reverse]
        exact (List.IsSuffix.length_le (trimLeftSpace_suffix _ _)))
  obtain ⟨x, hx⟩ := trimRightSpaceRev_suffix s.length (trimLeftSpace s.length s).reverse
  have ht : stringsTrimSpace s ++ x.reverse = trimLeftSpace s.length s := by
    unfold stringsTrimSpace
    rw [← List.reverse_append, hx, List.reverse_reverse]
  have hl : leadingSpaceWidth (stringsTrimSpace s) = 0 := by
    apply leadingSpaceWidth_of_append _ x.reverse
    rw [ht]; exact hu
  have hrev : (stringsTrimSpace s).reverse
      = trimRightSpaceRev s.length (trimLeftSpace s.length s).reverse := by
    unfold stringsTrimSpace
    rw [List.reverse_reverse]
  have hdef : ∀ t, stringsTrimSpace t
      = (trimRightSpaceRev t.length (trimLeftSpace t.length t).reverse).reverse :=
    fun _ => rfl
  rw [hdef (stringsTrimSpace s), trimLeftSpace_of_zero _ _ hl, hrev, trimRightSpaceRev_of_zero _ _ hr, ← hrev,
    List.reverse_reverse]

/-! ## Brace matcher -/

theorem findMatchingBrace_sample1 :
    findMatchingBrace (ascii "\x7b\"a\":\"x\\\"\x7dy\"\x7d") 0 = 13 := by decide

theorem findMatchingBrace_sample2 :
    findMatchingBrace (ascii "ab\x7b\"a\":\x7b\x7d\x7d \x7b") 2 = 10 := by decide

theorem findMatchingBrace_sample3 :
    findMatchingBrace (ascii "ab\x7b\"a\":\x7b\x7d \x7b") 2 = 2 := by decide

theorem findMatchingBraceFrom_cons (pos ch : Nat) (rest : List Nat) (i : Nat) (d : Int)
    (s e : Bool) :
    findMatchingBraceFrom pos (ch :: rest) i d s e =
      if s = false ∧ ch = 125 ∧ d - 1 = 0 then i + 1
      else findMatchingBraceFrom pos rest (i + 1) (depthStep d (s, e) ch)
        (quoteStep (s, e) ch).1 (quoteStep (s, e) ch).2 := by
  cases s <;> cases e <;>
    simp only [findMatchingBraceFrom, depthStep, quoteStep] <;>
    split_ifs <;> simp_all

theorem depthAfter_counts (l : List Nat) : ∀ (d : Int) (st : Bool × Bool),
    depthAfter d st l
      = d + (unquotedCountFrom 123 st l : Int) - (unquotedCountFrom 125 st l : Int) := by
  induction l with
  | nil => intro d st; simp [depthAfter, unquotedCountFrom]
  | cons ch rest ih =>
    intro d st
    simp only [depthAfter, unquotedCountFrom, ih, depthStep]
    split_ifs <;> simp_all <;> omega

/-- The walk of the matcher from a positive depth: either the depth stays
positive to the end of the text and `pos` is returned, or the result is one past
the first unquoted closing brace that brings the depth to zero. -/
theorem findMatchingBraceFrom_walk (pos : Nat) (rest : List Nat) :
    ∀ (i : Nat) (d : Int) (st : Bool × Bool), 1 ≤ d →
      (findMatchingBraceFrom pos rest i d st.1 st.2 = pos ∧
          ∀ m, m ≤ rest.length → 1 ≤ depthAfter d st (rest.take m)) ∨
      (∃ k, k < rest.length ∧ findMatchingBraceFrom pos rest i d st.1 st.2 = i + k + 1 ∧
          rest[k]? = some 125 ∧ depthAfter d st (rest.take (k + 1)) = 0 ∧
          ∀ m, m ≤ k → 1 ≤ depthAfter d st (rest.take m)) := by
  induction rest with
  | nil =>
    intro i d st hd
    left
    refine ⟨by simp [findMatchingBraceFrom], ?_⟩
    intro m _
    simpa [depthAfter] using hd
  | cons ch rest ih =>
    intro i d st hd
    obtain ⟨s, e⟩ := st
    rw [findMatchingBraceFrom_cons]
    by_cases hc : s = false ∧ ch = 125 ∧ d - 1 = 0
    · right
      refine ⟨0, by simp, by simp [hc], by simp [hc.2.1], ?_, ?_⟩
      · obtain ⟨hs, hch, hz⟩ := hc
        simp [depthAfter, depthStep, hs, hch, hz]
      · intro m hm
        have : m = 0 := by omega
        subst this
        simpa [depthAfter] using hd
    · rw [if_neg hc]
      have hd1 : 1 ≤ depthStep d (s, e) ch := by
        unfold depthStep
        split_ifs with h1 h2
        · omega
        · have : d - 1 ≠ 0 := fun h => hc ⟨h2.1, h2.2, h⟩
          omega
        · exact hd
      rcases ih (i + 1) (depthStep d (s, e) ch) (quoteStep (s, e) ch) hd1 with h | h
      · left
        refine ⟨h.1, ?_⟩
        intro m hm
        cases m with
        | zero => simpa [depthAfter] using hd
        | succ m =>
          simp only [List.take_succ_cons, depthAfter]
          exact h.2 m (by simpa using hm)
      · right
        obtain ⟨k, hk, hres, hget, hz, hpos⟩ := h
        refine ⟨k + 1, by simpa using hk, by rw [hres]; omega, by simpa using hget, ?_, ?_⟩
        · simp only [List.take_succ_cons, depthAfter]
          exact hz
        · intro m hm
          cases m with
          | zero => simpa [depthAfter] using hd
          | succ m =>
            simp only [List.take_succ_cons, depthAfter]
            exact hpos m (by omega)

theorem slice_open (text : List Nat) (pos : Nat) (rest : List Nat)
    (h : text.drop pos = 123 :: rest) (m : Nat) :
    slice text pos (pos + m + 1) = 123 :: rest.take m := by
  unfold slice
  rw [h]
  have : pos + m + 1 - pos = m + 1 := by omega
  rw [this, List.take_succ_cons]

theorem unquotedCount_open (c : Nat) (l : List Nat) :
    unquotedCount c (123 :: l)
      = (if 123 = c then 1 else 0) + unquotedCountFrom c (false, false) l := by
  simp [unquotedCount, unquotedCountFrom, quoteStep]

/-- The two outcomes of `findMatchingBrace` at an opening brace, in terms of the
unquoted brace counts of the slices `text[pos:j]`. -/
theorem findMatchingBrace_cases (text : List Nat) (pos : Nat) (h : text[pos]? = some 123) :
    (findMatchingBrace text pos = pos ∧
        ∀ j, pos < j → j ≤ text.length →
          unquotedCount 125 (slice text pos j) < unquotedCount 123 (slice text pos j)) ∨
    (pos + 2 ≤ findMatchingBrace text pos ∧ findMatchingBrace text pos ≤ text.length ∧
        text[findMatchingBrace text pos - 1]? = some 125 ∧
        unquotedCount 123 (slice text pos (findMatchingBrace text pos))
          = unquotedCount 125 (slice text pos (findMatchingBrace text pos)) ∧
        ∀ j, pos < j → j < findMatchingBrace text pos →
          unquotedCount 125 (slice text pos j) < unquotedCount 123 (slice text pos j)) := by
  have hlt : pos < text.length := by
    rcases Nat.lt_or_ge pos text.length with h1 | h1
    · exact h1
    · rw [List.getElem?_eq_none h1] at h; cases h
  have hget : text[pos] = 123 := by
    rw [List.getElem?_eq_getElem hlt] at h
    exact Option.some.inj h
  have hdrop : text.drop pos = 123 :: text.drop (pos + 1) := by
    rw [List.drop_eq_getElem_cons hlt, hget]
  have hlen : (text.drop (pos + 1)).length = text.length - (pos + 1) := by simp
  have hfm : findMatchingBrace text pos
      = findMatchingBraceFrom pos (text.drop (pos + 1)) (pos + 1) 1 false false := by
    unfold findMatchingBrace
    rw [hdrop, findMatchingBraceFrom_cons]
    simp [depthStep, quoteStep]
  have hcnt : ∀ m, depthAfter 1 (false, false) ((text.drop (pos + 1)).take m)
      = 1 + (unquotedCountFrom 123 (false, false) ((text.drop (pos + 1)).take m) : Int)
          - (unquotedCountFrom 125 (false, false) ((text.drop (pos + 1)).take m) : Int) :=
    fun m => depthAfter_counts _ 1 (false, false)
  rcases findMatchingBraceFrom_walk pos (text.drop (pos + 1)) (pos + 1) 1 (false, false)
    (le_refl 1) with hw | hw
  · left
    refine ⟨by rw [hfm]; exact hw.1, ?_⟩
    intro j hj1 hj2
    obtain ⟨m, rfl⟩ : ∃ m, j = pos + m + 1 := ⟨j - pos - 1, by omega⟩
    have h1 := hw.2 m (by rw [hlen]; omega)
    rw [hcnt m] at h1
    rw [slice_open text pos _ hdrop m, unquotedCount_open, unquotedCount_open]
    simp only [if_true]
    norm_num
    omega
  · right
    obtain ⟨k, hk, hres, hgk, hz, hpos⟩ := hw
    rw [hlen] at hk
    have hr : findMatchingBrace text pos = pos + (k + 1) + 1 := by
      rw [hfm, hres]; omega
    rw [hr]
    refine ⟨by omega, by omega, ?_, ?_, ?_⟩
    · have : pos + (k + 1) + 1 - 1 = pos + 1 + k := by omega
      rw [this]
      rw [List.getElem?_drop] at hgk
      exact hgk
    · rw [hcnt (k + 1)] at hz
      rw [slice_open text pos _ hdrop (k + 1), unquotedCount_open, unquotedCount_open]
      simp only [if_true]
      norm_num
      omega
    · intro j hj1 hj2
      obtain ⟨m, rfl⟩ : ∃ m, j = pos + m + 1 := ⟨j - pos - 1, by omega⟩
      have h1 := hpos m (by omega)
      rw [hcnt m] at h1
      rw [slice_open text pos _ hdrop m, unquotedCount_open, unquotedCount_open]
      simp only [if_true]
      norm_num
      omega

/-- A position at which the depth first returns to zero is the result of the walk. -/
theorem findMatchingBraceFrom_of_depth (pos : Nat) (rest : List Nat) (i : Nat) (d : Int)
    (st : Bool × Bool) (hd : 1 ≤ d) (k : Nat) (hk : k < rest.length)
    (hz : depthAfter d st (rest.take (k + 1)) = 0)
    (hpos : ∀ m, m ≤ k → 1 ≤ depthAfter d st (rest.take m)) :
    findMatchingBraceFrom pos rest i d st.1 st.2 = i + k + 1 := by
  rcases findMatchingBraceFrom_walk pos rest i d st hd with hw | hw
  · have := hw.2 (k + 1) (by omega)
    omega
  · obtain ⟨k2, hk2, hres, _, hz2, hpos2⟩ := hw
    rcases Nat.lt_trichotomy k2 k with h | h | h
    · have := hpos (k2 + 1) (by omega)
      omega
    · rw [hres, h]
    · have := hpos2 (k + 1) (by omega)
      omega

/-- An object that is brace-matched over its whole length is matched over exactly
that length wherever it is embedded. -/
theorem findMatchingBrace_embed (a obj b : List Nat) (h0 : obj.head? = some 123)
    (hm : findMatchingBrace obj 0 = obj.length) :
    findMatchingBrace (a ++ (obj ++ b)) a.length = a.length + obj.length := by
  match obj, h0 with
  | c :: rest, h0 =>
    have hc : c = 123 := by simpa using h0
    subst hc
    have hfm0 : findMatchingBrace (123 :: rest) 0
        = findMatchingBraceFrom 0 rest 1 1 false false := by
      unfold findMatchingBrace
      rw [List.drop_zero, findMatchingBraceFrom_cons]
      simp [depthStep, quoteStep]
    have hfm1 : findMatchingBrace (a ++ (123 :: rest ++ b)) a.length
        = findMatchingBraceFrom a.length (rest ++ b) (a.length + 1) 1 false false := by
      unfold findMatchingBrace
      rw [List.drop_left, List.cons_append, findMatchingBraceFrom_cons]
      simp [depthStep, quoteStep]
    rw [hfm0] at hm
    rcases findMatchingBraceFrom_walk 0 rest 1 1 (false, false) (le_refl 1) with hw | hw
    · rw [hw.1] at hm
      simp at hm
    · obtain ⟨k, hk, hres, _, hz, hpos⟩ := hw
      rw [hres] at hm
      simp only [List.length_cons] at hm
      have hkl : k + 1 = rest.length := by omega
      rw [hfm1]
      have := findMatchingBraceFrom_of_depth a.length (rest ++ b) (a.length + 1) 1
        (false, false) (le_refl 1) k (by simp; omega)
        (by rw [List.take_append_of_le_length (by omega)]; exact hz)
        (fun m hmk => by
          rw [List.take_append_of_le_length (by omega)]; exact hpos m hmk)
      rw [this]
      simp only [List.length_cons]
      omega

/-- C1: when `findMatchingBrace` at an opening brace returns `r` different from
`pos`, the byte before `r` is a closing brace, the unquoted opening and closing
braces of `text[pos:r]` are equal in number, and at every earlier cut `j` the
unquoted opening braces strictly outnumber the closing ones. -/
theorem findMatchingBrace_balanced (text : List Nat) (pos : Nat)
    (h : text[pos]? = some 123) (hr : findMatchingBrace text pos ≠ pos) :
    text[findMatchingBrace text pos - 1]? = some 125 ∧
    unquotedCount 123 (slice text pos (findMatchingBrace text pos))
      = unquotedCount 125 (slice text pos (findMatchingBrace text pos)) ∧
    ∀ j, pos < j → j < findMatchingBrace text pos →
      unquotedCount 125 (slice text pos j) < unquotedCount 123 (slice text pos j) := by
  rcases findMatchingBrace_cases text pos h with hc | hc
  · exact absurd hc.1 hr
  · exact ⟨hc.2.2.1, hc.2.2.2.1, hc.2.2.2.2⟩

theorem findMatchingBrace_balanced_witness :
    (ascii "ab\x7b\"a\":\x7b\x7d\x7d \x7b")[2]? = some 123 ∧
    findMatchingBrace (ascii "ab\x7b\"a\":\x7b\x7d\x7d \x7b") 2 ≠ 2 ∧
    (ascii "ab\x7b\"a\":\x7b\x7d\x7d \x7b")[findMatchingBrace (ascii "ab\x7b\"a\":\x7b\x7d\x7d \x7b") 2 - 1]? = some 125 ∧
    unquotedCount 123 (slice (ascii "ab\x7b\"a\":\x7b\x7d\x7d \x7b") 2 (findMatchingBrace (ascii "ab\x7b\"a\":\x7b\x7d\x7d \x7b") 2))
      = unquotedCount 125
          (slice (ascii "ab\x7b\"a\":\x7b\x7d\x7d \x7b") 2 (findMatchingBrace (ascii "ab\x7b\"a\":\x7b\x7d\x7d \x7b") 2)) ∧
    ∀ j, 2 < j → j < findMatchingBrace (ascii "ab\x7b\"a\":\x7b\x7d\x7d \x7b") 2 →
      unquotedCount 125 (slice (ascii "ab\x7b\"a\":\x7b\x7d\x7d \x7b") 2 j)
        < unquotedCount 123 (slice (ascii "ab\x7b\"a\":\x7b\x7d\x7d \x7b") 2 j) :=
  ⟨by decide, by decide,
    findMatchingBrace_balanced (ascii "ab\x7b\"a\":\x7b\x7d\x7d \x7b") 2 (by decide) (by decide)⟩

/-- C2: at an opening brace the result equals `pos` exactly when the depth never
returns to zero before the text ends; a match is at least `pos + 2`, and an
immediate `{}` gives exactly `pos + 2`. -/
theorem findMatchingBrace_no_match_iff (text : List Nat) (pos : Nat)
    (h : text[pos]? = some 123) :
    (findMatchingBrace text pos = pos ↔
      ∀ j, pos < j → j ≤ text.length →
        unquotedCount 123 (slice text pos j) ≠ unquotedCount 125 (slice text pos j)) ∧
    (findMatchingBrace text pos ≠ pos → pos + 2 ≤ findMatchingBrace text pos) ∧
    (slice text pos (pos + 2) = [123, 125] → findMatchingBrace text pos = pos + 2) := by
  rcases findMatchingBrace_cases text pos h with hc | hc
  · refine ⟨⟨fun _ j h1 h2 => ?_, fun _ => hc.1⟩, fun hne => absurd hc.1 hne, fun hs => ?_⟩
    · have := hc.2 j h1 h2
      omega
    · have hl : pos + 2 ≤ text.length := by
        have := congrArg List.length hs
        simp [slice] at this
        omega
      have := hc.2 (pos + 2) (by omega) hl
      rw [hs] at this
      exact absurd this (by decide)
  · obtain ⟨h2, hle, _, heq, hmin⟩ := hc
    refine ⟨⟨fun he => ?_, fun hall => ?_⟩, fun _ => h2, fun hs => ?_⟩
    · omega
    · exact absurd heq (hall _ (by omega) hle)
    · rcases Nat.lt_or_ge (pos + 2) (findMatchingBrace text pos) with hlt | hge
      · have := hmin (pos + 2) (by omega) hlt
        rw [hs] at this
        exact absurd this (by decide)
      · omega

theorem findMatchingBrace_no_match_iff_witness :
    (ascii "x\x7b\x7d")[1]? = some 123 ∧
    ((findMatchingBrace (ascii "x\x7b\x7d") 1 = 1 ↔
      ∀ j, 1 < j → j ≤ (ascii "x\x7b\x7d").length →
        unquotedCount 123 (slice (ascii "x\x7b\x7d") 1 j)
          ≠ unquotedCount 125 (slice (ascii "x\x7b\x7d") 1 j)) ∧
    (findMatchingBrace (ascii "x\x7b\x7d") 1 ≠ 1 → 1 + 2 ≤ findMatchingBrace (ascii "x\x7b\x7d") 1) ∧
    (slice (ascii "x\x7b\x7d") 1 (1 + 2) = [123, 125] → findMatchingBrace (ascii "x\x7b\x7d") 1 = 1 + 2)) :=
  ⟨by decide, findMatchingBrace_no_match_iff (ascii "x\x7b\x7d") 1 (by decide)⟩

theorem findMatchingBraceFrom_string_items (pos : Nat) (tail : List Nat)
    (items : List (List Nat)) : ∀ (i : Nat) (d : Int),
    (∀ it ∈ items, isStringItem it = true) →
    findMatchingBraceFrom pos (items.flatten ++ tail) i d true false
      = findMatchingBraceFrom pos tail (i + items.flatten.length) d true false := by
  induction items with
  | nil => intro i d _; simp
  | cons it items ih =>
    intro i d hall
    have hit := hall it (List.mem_cons_self _ _)
    have hrest : ∀ x ∈ items, isStringItem x = true :=
      fun x hx => hall x (List.mem_cons_of_mem _ hx)
    match it, hit with
    | [c], hit =>
      simp only [isStringItem, Bool.and_eq_true, bne_iff_ne, ne_eq] at hit
      simp only [List.flatten_cons, List.singleton_append, List.cons_append,
        List.nil_append, List.length_cons]
      rw [findMatchingBraceFrom_cons]
      simp only [quoteStep, depthStep, if_neg hit.1, if_neg hit.2, Bool.true_eq_false,
        false_and, if_false]
      rw [ih (i + 1) d hrest]
      congr 1
      omega
    | [a, b], hit =>
      simp only [isStringItem, beq_iff_eq] at hit
      subst hit
      simp only [List.flatten_cons, List.cons_append, List.nil_append,
        List.length_cons]
      rw [findMatchingBraceFrom_cons, findMatchingBraceFrom_cons]
      simp only [quoteStep, depthStep, Bool.true_eq_false, false_and, if_false, if_true]
      rw [ih (i + 1 + 1) d hrest]
      congr 1
      omega

/-- C3: braces inside a string literal never change the depth.  For a string
body made of plain bytes and two-byte escapes, the object consisting of that one
string is matched over exactly its own length, whatever follows it; the sample
with an escaped quote followed by a closing brace is matched to its real end. -/
theorem findMatchingBrace_string_body (items : List (List Nat)) (rest : List Nat)
    (h : ∀ it ∈ items, isStringItem it = true) :
    findMatchingBrace ([123, 34] ++ items.flatten ++ [34, 125] ++ rest) 0
        = ([123, 34] ++ items.flatten ++ [34, 125]).length ∧
    findMatchingBrace (ascii "\x7b\"a\":\"x\\\"\x7dy\"\x7d" ++ rest) 0
        = (ascii "\x7b\"a\":\"x\\\"\x7dy\"\x7d").length := by
  constructor
  · unfold findMatchingBrace
    simp only [List.drop_zero, List.cons_append, List.nil_append, List.append_assoc,
      findMatchingBraceFrom, Bool.false_eq_true, if_false, if_true]
    norm_num
    rw [findMatchingBraceFrom_string_items 0 _ items _ _ h]
    simp [findMatchingBraceFrom]
    omega
  · have he : ascii "\x7b\"a\":\"x\\\"\x7dy\"\x7d"
        = [123, 34, 97, 34, 58, 34, 120, 92, 34, 125, 121, 34, 125] := by decide
    rw [he]
    simp [findMatchingBrace, findMatchingBraceFrom]

theorem findMatchingBrace_string_body_witness :
    (∀ it ∈ [[120], [92, 34], [125], [92, 92]], isStringItem it = true) ∧
    (findMatchingBrace ([123, 34] ++ [[120], [92, 34], [125], [92, 92]].flatten
        ++ [34, 125] ++ [125, 60]) 0
        = ([123, 34] ++ [[120], [92, 34], [125], [92, 92]].flatten ++ [34, 125]).length ∧
    findMatchingBrace (ascii "\x7b\"a\":\"x\\\"\x7dy\"\x7d" ++ [125, 60]) 0
        = (ascii "\x7b\"a\":\"x\\\"\x7dy\"\x7d").length) :=
  ⟨by decide, findMatchingBrace_string_body [[120], [92, 34], [125], [92, 92]] [125, 60]
    (by decide)⟩

/-! ## Tagged extractor -/

theorem isTagName_chars (n : List Nat) (h : isTagName n = true) :
    ∃ c cs, n = c :: cs ∧ ptcIsTagNameStart c = true ∧ ∀ b ∈ n, ptcIsTagNameChar b = true := by
  match n, h with
  | c :: cs, h =>
    simp only [isTagName, Bool.and_eq_true, List.all_eq_true] at h
    refine ⟨c, cs, rfl, h.1, ?_⟩
    intro b hb
    rcases List.mem_cons.1 hb with rfl | hb
    · simp [ptcIsTagNameChar, h.1]
    · exact h.2 b hb

theorem taggedScan_step {Obj : Type} (dec : JsonDecoder Obj)
    (text a pre n ws obj tail : List Nat) (args : Option Obj) (fuel : Nat)
    (spans : List (taggedToolCallSpan Obj))
    (htext : text = a ++ (pre ++ (60 :: (n ++ (62 :: (ws ++ (obj ++ tail)))))))
    (hpre : 60 ∉ pre) (hn : isTagName n = true)
    (hws : ∀ b ∈ ws, ptcIsWhitespace b = true)
    (hobj0 : obj.head? = some 123) (hobj : findMatchingBrace obj 0 = obj.length)
    (hdec : dec.unmarshalMap obj = some args) :
    taggedScan ptcIsTagNameStart ptcIsTagNameChar ptcIsWhitespace dec text (fuel + 1)
        a.length spans
      = taggedScan ptcIsTagNameStart ptcIsTagNameChar ptcIsWhitespace dec text fuel
          (spanEndAfter ptcIsWhitespace text n
            (a.length + pre.length + 1 + n.length + 1 + ws.length + obj.length))
          (spans ++ [{ start := a.length + pre.length,
                       stop := spanEndAfter ptcIsWhitespace text n
                         (a.length + pre.length + 1 + n.length + 1 + ws.length + obj.length),
                       call := taggedCall spans.length n obj args }]) := by
  obtain ⟨c, cs, hncs, hc, hchars⟩ := isTagName_chars n hn
  obtain ⟨o, hobjeq⟩ : ∃ o, obj = 123 :: o := by
    match obj, hobj0 with
    | x :: o, h => exact ⟨o, by simp at h; rw [h]⟩
  have hlen : text.length = a.length + (pre.length + (1 + (n.length + (1 + (ws.length
      + (obj.length + tail.length)))))) := by
    rw [htext]; simp; omega
  have hnlen : n.length = cs.length + 1 := by rw [hncs]; simp
  have d0 : text.drop a.length = pre ++ 60 :: (n ++ (62 :: (ws ++ (obj ++ tail)))) :=
    drop_of_append text _ _ _ htext rfl
  have d1 : text.drop (a.length + pre.length + 1) = n ++ (62 :: (ws ++ (obj ++ tail))) :=
    drop_of_append text (a ++ (pre ++ [60])) _ _ (by rw [htext]; simp) (by simp; omega)
  have d2 : text.drop (a.length + pre.length + 1 + n.length) = 62 :: (ws ++ (obj ++ tail)) :=
    drop_of_append text (a ++ (pre ++ (60 :: n))) _ _ (by rw [htext]; simp) (by simp; omega)
  have d3 : text.drop (a.length + pre.length + 1 + n.length + 1) = ws ++ (obj ++ tail) :=
    drop_of_append text (a ++ (pre ++ (60 :: (n ++ [62])))) _ _ (by rw [htext]; simp)
      (by simp; omega)
  have d4 : text.drop (a.length + pre.length + 1 + n.length + 1 + ws.length) = obj ++ tail :=
    drop_of_append text (a ++ (pre ++ (60 :: (n ++ (62 :: ws))))) _ _ (by rw [htext]; simp)
      (by simp; omega)
  have hc47 : c ≠ 47 := by
    intro h; subst h; revert hc; decide
  have g1 : text.getD (a.length + pre.length + 1) 0 = c := by
    rw [getD_eq_headD_drop, d1, hncs]; rfl
  have aw1 : advanceWhile ptcIsTagNameChar (text.drop (a.length + pre.length + 1))
      (a.length + pre.length + 1) = a.length + pre.length + 1 + n.length := by
    rw [d1]; exact advanceWhile_stop _ n 62 _ hchars (by decide) _
  have g2 : text.getD (a.length + pre.length + 1 + n.length) 0 = 62 := by
    rw [getD_eq_headD_drop, d2]; rfl
  have sl1 : slice text (a.length + pre.length + 1) (a.length + pre.length + 1 + n.length)
      = n :=
    slice_of_append text (a ++ (pre ++ [60])) n (62 :: (ws ++ (obj ++ tail))) _ _
      (by rw [htext]; simp) (by simp; omega)
      (by simp; omega)
  have aw2 : advanceWhile ptcIsWhitespace
      (text.drop (a.length + pre.length + 1 + n.length + 1))
      (a.length + pre.length + 1 + n.length + 1)
        = a.length + pre.length + 1 + n.length + 1 + ws.length := by
    rw [d3, hobjeq]; exact advanceWhile_stop _ ws 123 _ hws (by decide) _
  have g3 : text.getD (a.length + pre.length + 1 + n.length + 1 + ws.length) 0 = 123 := by
    rw [getD_eq_headD_drop, d4, hobjeq]; rfl
  have fm : findMatchingBrace text (a.length + pre.length + 1 + n.length + 1 + ws.length)
      = a.length + pre.length + 1 + n.length + 1 + ws.length + obj.length := by
    have h := findMatchingBrace_embed (a ++ (pre ++ (60 :: (n ++ (62 :: ws))))) obj tail
      hobj0 hobj
    have e1 : a ++ (pre ++ (60 :: (n ++ (62 :: ws)))) ++ (obj ++ tail) = text := by
      rw [htext]; simp
    have e2 : (a ++ (pre ++ (60 :: (n ++ (62 :: ws))))).length
        = a.length + pre.length + 1 + n.length + 1 + ws.length := by
      simp; omega
    rw [e1, e2] at h
    exact h
  have sl2 : slice text (a.length + pre.length + 1 + n.length + 1 + ws.length)
      (a.length + pre.length + 1 + n.length + 1 + ws.length + obj.length) = obj :=
    slice_of_append text (a ++ (pre ++ (60 :: (n ++ (62 :: ws))))) obj tail _ _
      (by rw [htext]; simp) (by simp; omega) (by simp; omega)
  have hol : 0 < obj.length := by rw [hobjeq]; simp
  rw [taggedScan, if_pos (by omega), d0, stringsIndexByte_append 60 pre _ hpre]
  simp only []
  rw [if_neg (by omega)]
  simp only [g1, aw1, g2, aw2, g3, fm, sl1, sl2, hdec]
  have b1 : ¬ (a.length + pre.length + 1 + n.length ≥ text.length) := by omega
  have b2 : ¬ (a.length + pre.length + 1 + n.length + 1 + ws.length ≥ text.length) := by omega
  have b3 : ¬ (a.length + pre.length + 1 + n.length + 1 + ws.length + obj.length
      = a.length + pre.length + 1 + n.length + 1 + ws.length) := by omega
  simp [hc47, hc, b1, b2, b3]

theorem taggedScan_done {Obj : Type} (isStart isChar isWs : Nat → Bool)
    (dec : JsonDecoder Obj) (text : List Nat) (fuel i : Nat)
    (spans : List (taggedToolCallSpan Obj)) (h : 60 ∉ text.drop i) :
    taggedScan isStart isChar isWs dec text fuel i spans = spans := by
  cases fuel with
  | zero => rw [taggedScan]
  | succ fuel =>
    rw [taggedScan, stringsIndexByte_none 60 _ h]
    simp

theorem spanEndAfter_closing (text x ws n post : List Nat)
    (htext : text = x ++ (ws ++ (closingTag n ++ post)))
    (hws : ∀ b ∈ ws, ptcIsWhitespace b = true) :
    spanEndAfter ptcIsWhitespace text n x.length
      = x.length + ws.length + (n.length + 3) ∧
    text.drop (x.length + ws.length + (n.length + 3)) = post := by
  have d0 : text.drop x.length = ws ++ (closingTag n ++ post) :=
    drop_of_append text x _ _ htext rfl
  have d1 : text.drop (x.length + ws.length) = closingTag n ++ post :=
    drop_of_append text (x ++ ws) _ _ (by rw [htext]; simp) (by simp)
  have hcl : (closingTag n).length = n.length + 3 := by simp [closingTag]
  have d2 : text.drop (x.length + ws.length + (n.length + 3)) = post :=
    drop_of_append text (x ++ (ws ++ closingTag n)) _ _ (by rw [htext]; simp)
      (by simp [hcl]; omega)
  have aw : advanceWhile ptcIsWhitespace (text.drop x.length) x.length
      = x.length + ws.length := by
    rw [d0]
    have : closingTag n ++ post = 60 :: (47 :: (n ++ 62 :: post)) := by simp [closingTag]
    rw [this]
    exact advanceWhile_stop _ ws 60 _ hws (by decide) _
  refine ⟨?_, d2⟩
  unfold spanEndAfter
  simp only [aw, d1, hcl]
  simp [stringsHasPrefix]

theorem spanEndAfter_end (text n : List Nat) :
    spanEndAfter ptcIsWhitespace text n text.length = text.length := by
  unfold spanEndAfter
  simp [advanceWhile, stringsHasPrefix, closingTag]

/-- The spans of a text holding one tagged call with its closing tag, between texts
without `<`. -/
theorem parseTaggedToolCallSpans_closed {Obj : Type} (dec : JsonDecoder Obj)
    (pre n obj ws post : List Nat) (args : Option Obj)
    (hn : isTagName n = true) (hobj0 : obj.head? = some 123)
    (hobj : findMatchingBrace obj 0 = obj.length) (hdec : dec.unmarshalMap obj = some args)
    (hws : ∀ b ∈ ws, ptcIsWhitespace b = true) (hpre : 60 ∉ pre) (hpost : 60 ∉ post) :
    parseTaggedToolCallSpans dec (pre ++ (60 :: (n ++ (62 :: (obj ++ (ws ++ (closingTag n ++ post)))))))
      = [{ start := pre.length,
           stop := pre.length + 1 + n.length + 1 + obj.length + ws.length + (n.length + 3),
           call := taggedCall 0 n obj args }] := by
  have hse := spanEndAfter_closing
    (pre ++ (60 :: (n ++ (62 :: (obj ++ (ws ++ (closingTag n ++ post)))))))
    (pre ++ (60 :: (n ++ (62 :: obj)))) ws n post (by simp) hws
  have hxl : (pre ++ (60 :: (n ++ (62 :: obj)))).length
      = ([] : List Nat).length + pre.length + 1 + n.length + 1 + ([] : List Nat).length
          + obj.length := by
    simp; omega
  rw [hxl] at hse
  have hstep := taggedScan_step dec
    (pre ++ (60 :: (n ++ (62 :: (obj ++ (ws ++ (closingTag n ++ post)))))))
    [] pre n [] obj (ws ++ (closingTag n ++ post)) args
    (pre.length + (n.length + (obj.length + (ws.length + ((closingTag n).length
      + post.length))) + 1)) []
    (by simp) hpre hn (by simp) hobj0 hobj hdec
  unfold parseTaggedToolCallSpans
  have hl : (pre ++ (60 :: (n ++ (62 :: (obj ++ (ws ++ (closingTag n ++ post))))))).length
      = pre.length + (n.length + (obj.length + (ws.length + ((closingTag n).length
          + post.length))) + 1) + 1 := by
    simp; omega
  rw [hl]
  rw [show (0 : Nat) = ([] : List Nat).length from rfl, hstep, hse.1]
  rw [taggedScan_done _ _ _ _ _ _ _ _ (by rw [hse.2]; exact hpost)]
  simp

/-- The spans of a text that ends with one tagged call without closing tag. -/
theorem parseTaggedToolCallSpans_open {Obj : Type} (dec : JsonDecoder Obj)
    (pre n obj : List Nat) (args : Option Obj)
    (hn : isTagName n = true) (hobj0 : obj.head? = some 123)
    (hobj : findMatchingBrace obj 0 = obj.length) (hdec : dec.unmarshalMap obj = some args)
    (hpre : 60 ∉ pre) :
    parseTaggedToolCallSpans dec (pre ++ (60 :: (n ++ (62 :: obj))))
      = [{ start := pre.length,
           stop := pre.length + 1 + n.length + 1 + obj.length,
           call := taggedCall 0 n obj args }] := by
  have hl : (pre ++ (60 :: (n ++ (62 :: obj)))).length
      = (pre.length + (n.length + obj.length + 1)) + 1 := by
    simp; omega
  have hl2 : (pre ++ (60 :: (n ++ (62 :: obj)))).length
      = ([] : List Nat).length + pre.length + 1 + n.length + 1 + ([] : List Nat).length
          + obj.length := by
    simp; omega
  have hse := spanEndAfter_end (pre ++ (60 :: (n ++ (62 :: obj)))) n
  rw [hl2] at hse
  have hstep := taggedScan_step dec (pre ++ (60 :: (n ++ (62 :: obj))))
    [] pre n [] obj [] args (pre.length + (n.length + obj.length + 1)) []
    (by simp) hpre hn (by simp) hobj0 hobj hdec
  unfold parseTaggedToolCallSpans
  rw [hl]
  rw [show (0 : Nat) = ([] : List Nat).length from rfl, hstep, hse]
  rw [taggedScan_done _ _ _ _ _ _ _ _ (by rw [← hl2]; simp)]
  simp

theorem advanceWhile_ge (p : Nat → Bool) (l : List Nat) : ∀ k, k ≤ advanceWhile p l k := by
  induction l with
  | nil => intro k; simp [advanceWhile]
  | cons b l ih =>
    intro k
    rw [advanceWhile]
    split_ifs
    · exact Nat.le_trans (Nat.le_succ k) (ih (k + 1))
    · exact Nat.le_refl k

theorem findMatchingBraceFrom_ge (pos : Nat) (rest : List Nat) :
    ∀ (i : Nat) (d : Int) (s e : Bool), pos ≤ i →
      pos ≤ findMatchingBraceFrom pos rest i d s e := by
  induction rest with
  | nil => intro i d s e _; simp [findMatchingBraceFrom]
  | cons ch rest ih =>
    intro i d s e hi
    rw [findMatchingBraceFrom_cons]
    split_ifs
    · omega
    · exact ih _ _ _ _ (by omega)

theorem findMatchingBrace_ge (text : List Nat) (pos : Nat) :
    pos ≤ findMatchingBrace text pos :=
  findMatchingBraceFrom_ge pos _ pos 0 false false (le_refl _)

theorem spanEndAfter_ge (isWs : Nat → Bool) (text name : List Nat) (jsonEnd : Nat) :
    jsonEnd ≤ spanEndAfter isWs text name jsonEnd := by
  unfold spanEndAfter
  simp only []
  split_ifs
  · exact Nat.le_trans (advanceWhile_ge _ _ _) (Nat.le_add_right _ _)
  · exact Nat.le_refl _

/-- Fuel beyond `len(text) - i` does not change the result of the scan: the loop has
left through one of its exits before the fuel is used up. -/
theorem taggedScan_fuel {Obj : Type} (isStart isChar isWs : Nat → Bool)
    (dec : JsonDecoder Obj) (text : List Nat) (extra : Nat) :
    ∀ (fuel i : Nat) (spans : List (taggedToolCallSpan Obj)), text.length ≤ i + fuel →
      taggedScan isStart isChar isWs dec text (fuel + extra) i spans
        = taggedScan isStart isChar isWs dec text fuel i spans := by
  intro fuel
  induction fuel with
  | zero =>
    intro i spans h
    cases extra with
    | zero => rfl
    | succ extra =>
      rw [Nat.zero_add, taggedScan, taggedScan, if_neg (by omega)]
  | succ fuel ih =>
    intro i spans h
    rw [Nat.add_right_comm, taggedScan, taggedScan]
    split_ifs with h1
    · split
      · rfl
      · rename_i rel _
        simp only []
        have hj1 := advanceWhile_ge isWs (text.drop (advanceWhile isChar (text.drop (i + rel + 1)) (i + rel + 1) + 1)) (advanceWhile isChar (text.drop (i + rel + 1)) (i + rel + 1) + 1)
        have hn1 := advanceWhile_ge isChar (text.drop (i + rel + 1)) (i + rel + 1)
        have hfm := findMatchingBrace_ge text (advanceWhile isWs (text.drop (advanceWhile isChar (text.drop (i + rel + 1)) (i + rel + 1) + 1)) (advanceWhile isChar (text.drop (i + rel + 1)) (i + rel + 1) + 1))
        split_ifs with h2 h3 h4 h5 h6
        · rfl
        · exact ih _ _ (by omega)
        · exact ih _ _ (by omega)
        · exact ih _ _ (by omega)
        · exact ih _ _ (by omega)
        · split
          · exact ih _ _ (by omega)
          · apply ih
            have := spanEndAfter_ge isWs text (slice text (i + rel + 1) (advanceWhile isChar (text.drop (i + rel + 1)) (i + rel + 1))) (findMatchingBrace text (advanceWhile isWs (text.drop (advanceWhile isChar (text.drop (i + rel + 1)) (i + rel + 1) + 1)) (advanceWhile isChar (text.drop (i + rel + 1)) (i + rel + 1) + 1)))
            omega
    · rfl

/-- The fuel `len(text)` of `parseTaggedToolCallSpans` is enough: any larger fuel gives
the same spans. -/
theorem parseTaggedToolCallSpans_fuel {Obj : Type} (dec : JsonDecoder Obj) (text : List Nat)
    (extra : Nat) :
    taggedScan ptcIsTagNameStart ptcIsTagNameChar ptcIsWhitespace dec text
        (text.length + extra) 0 []
      = parseTaggedToolCallSpans dec text :=
  taggedScan_fuel _ _ _ dec text extra text.length 0 [] (by omega)

/-- C6: one tagged call with its closing tag, between texts without `<`, is
returned as exactly one `ToolCall` whose name is the tag name and whose arguments are
the decoded object. -/
theorem ExtractTaggedToolCalls_single {Obj : Type} (dec : JsonDecoder Obj)
    (pre n obj post : List Nat) (args : Obj)
    (hn : isTagName n = true) (hobj0 : obj.head? = some 123)
    (hobj : findMatchingBrace obj 0 = obj.length)
    (hdec : dec.unmarshalMap obj = some (some args))
    (hpre : 60 ∉ pre) (hpost : 60 ∉ post) :
    ExtractTaggedToolCalls dec
        (pre ++ [60] ++ n ++ [62] ++ obj ++ [60, 47] ++ n ++ [62] ++ post)
      = [{ ID := ascii "call_tag_1", Typ := ascii "function", Name := n,
           Arguments := some args,
           Function := some { Name := n, Arguments := obj } }] := by
  have e : pre ++ [60] ++ n ++ [62] ++ obj ++ [60, 47] ++ n ++ [62] ++ post
      = pre ++ (60 :: (n ++ (62 :: (obj ++ ([] ++ (closingTag n ++ post)))))) := by
    simp [closingTag]
  unfold ExtractTaggedToolCalls
  rw [e, parseTaggedToolCallSpans_closed dec pre n obj [] post (some args) hn hobj0 hobj hdec
    (by simp) hpre hpost]
  rfl

theorem ExtractTaggedToolCalls_single_witness :
    isTagName (ascii "append_file") = true ∧ sampleObject.head? = some 123 ∧
    findMatchingBrace sampleObject 0 = sampleObject.length ∧
    sampleDecoder.unmarshalMap sampleObject
      = some (some [(ascii "path", ascii "\"/tmp/a.txt\""),
                    (ascii "content", ascii "\"hello\"")]) ∧
    60 ∉ ascii "I'll update that.\n" ∧ 60 ∉ ascii "\nDone." ∧
    ExtractTaggedToolCalls sampleDecoder
        (ascii "I'll update that.\n" ++ [60] ++ ascii "append_file" ++ [62] ++ sampleObject
          ++ [60, 47] ++ ascii "append_file" ++ [62] ++ ascii "\nDone.")
      = [{ ID := ascii "call_tag_1", Typ := ascii "function", Name := ascii "append_file",
           Arguments := some [(ascii "path", ascii "\"/tmp/a.txt\""),
                              (ascii "content", ascii "\"hello\"")],
           Function := some { Name := ascii "append_file", Arguments := sampleObject } }] :=
  ⟨by decide, by decide, by decide, by decide, by decide, by decide,
    ExtractTaggedToolCalls_single sampleDecoder (ascii "I'll update that.\n")
      (ascii "append_file") sampleObject (ascii "\nDone.")
      [(ascii "path", ascii "\"/tmp/a.txt\""), (ascii "content", ascii "\"hello\"")]
      (by decide) (by decide) (by decide) (by decide) (by decide) (by decide)⟩

/-- C7: the closing tag is optional.  A text that ends with a tagged call without
closing tag yields exactly one `ToolCall`, the same one as the text with the closing
tag appended. -/
theorem ExtractTaggedToolCalls_closing_optional {Obj : Type} (dec : JsonDecoder Obj)
    (pre n obj : List Nat) (args : Obj)
    (hn : isTagName n = true) (hobj0 : obj.head? = some 123)
    (hobj : findMatchingBrace obj 0 = obj.length)
    (hdec : dec.unmarshalMap obj = some (some args)) (hpre : 60 ∉ pre) :
    ExtractTaggedToolCalls dec (pre ++ [60] ++ n ++ [62] ++ obj)
      = [{ ID := ascii "call_tag_1", Typ := ascii "function", Name := n,
           Arguments := some args,
           Function := some { Name := n, Arguments := obj } }] ∧
    ExtractTaggedToolCalls dec (pre ++ [60] ++ n ++ [62] ++ obj ++ [60, 47] ++ n ++ [62])
      = ExtractTaggedToolCalls dec (pre ++ [60] ++ n ++ [62] ++ obj) := by
  have e1 : pre ++ [60] ++ n ++ [62] ++ obj = pre ++ (60 :: (n ++ (62 :: obj))) := by simp
  have e2 : pre ++ [60] ++ n ++ [62] ++ obj ++ [60, 47] ++ n ++ [62]
      = pre ++ (60 :: (n ++ (62 :: (obj ++ ([] ++ (closingTag n ++ [])))))) := by
    simp [closingTag]
  unfold ExtractTaggedToolCalls
  rw [e2, e1, parseTaggedToolCallSpans_open dec pre n obj (some args) hn hobj0 hobj hdec hpre,
    parseTaggedToolCallSpans_closed dec pre n obj [] [] (some args) hn hobj0 hobj hdec
      (by simp) hpre (by simp)]
  exact ⟨rfl, rfl⟩

theorem ExtractTaggedToolCalls_closing_optional_witness :
    isTagName (ascii "append_file") = true ∧ sampleObject.head? = some 123 ∧
    findMatchingBrace sampleObject 0 = sampleObject.length ∧
    sampleDecoder.unmarshalMap sampleObject
      = some (some [(ascii "path", ascii "\"/tmp/a.txt\""),
                    (ascii "content", ascii "\"hello\"")]) ∧
    60 ∉ ([] : List Nat) ∧
    (ExtractTaggedToolCalls sampleDecoder
        ([] ++ [60] ++ ascii "append_file" ++ [62] ++ sampleObject)
      = [{ ID := ascii "call_tag_1", Typ := ascii "function", Name := ascii "append_file",
           Arguments := some [(ascii "path", ascii "\"/tmp/a.txt\""),
                              (ascii "content", ascii "\"hello\"")],
           Function := some { Name := ascii "append_file", Arguments := sampleObject } }] ∧
    ExtractTaggedToolCalls sampleDecoder
        ([] ++ [60] ++ ascii "append_file" ++ [62] ++ sampleObject
          ++ [60, 47] ++ ascii "append_file" ++ [62])
      = ExtractTaggedToolCalls sampleDecoder
          ([] ++ [60] ++ ascii "append_file" ++ [62] ++ sampleObject)) :=
  ⟨by decide, by decide, by decide, by decide, by decide,
    ExtractTaggedToolCalls_closing_optional sampleDecoder [] (ascii "append_file")
      sampleObject [(ascii "path", ascii "\"/tmp/a.txt\""), (ascii "content", ascii "\"hello\"")]
      (by decide) (by decide) (by decide) (by decide) (by decide)⟩

/-- C8: stripping removes the tagged span, white space before the closing tag
included, and keeps the surrounding text: the result is the trimmed concatenation of
the text before and after the span, and it no longer contains the opening tag. -/
theorem StripTaggedToolCalls_single {Obj : Type} (dec : JsonDecoder Obj)
    (pre n obj ws post : List Nat) (args : Obj)
    (hn : isTagName n = true) (hobj0 : obj.head? = some 123)
    (hobj : findMatchingBrace obj 0 = obj.length)
    (hdec : dec.unmarshalMap obj = some (some args))
    (hws : ∀ b ∈ ws, ptcIsWhitespace b = true)
    (hpre : 60 ∉ pre) (hpost : 60 ∉ post) :
    StripTaggedToolCalls dec
        (pre ++ [60] ++ n ++ [62] ++ obj ++ ws ++ [60, 47] ++ n ++ [62] ++ post)
      = stringsTrimSpace (pre ++ post) ∧
    ¬ (([60] ++ n ++ [62]) <:+: StripTaggedToolCalls dec
        (pre ++ [60] ++ n ++ [62] ++ obj ++ ws ++ [60, 47] ++ n ++ [62] ++ post)) := by
  have e : pre ++ [60] ++ n ++ [62] ++ obj ++ ws ++ [60, 47] ++ n ++ [62] ++ post
      = pre ++ (60 :: (n ++ (62 :: (obj ++ (ws ++ (closingTag n ++ post)))))) := by
    simp [closingTag]
  have hcl : (closingTag n).length = n.length + 3 := by simp [closingTag]
  have hmain : StripTaggedToolCalls dec
        (pre ++ [60] ++ n ++ [62] ++ obj ++ ws ++ [60, 47] ++ n ++ [62] ++ post)
      = stringsTrimSpace (pre ++ post) := by
    unfold StripTaggedToolCalls
    rw [e, parseTaggedToolCallSpans_closed dec pre n obj ws post (some args) hn hobj0 hobj hdec
      hws hpre hpost]
    have hd : (pre ++ (60 :: (n ++ (62 :: (obj ++ (ws ++ (closingTag n ++ post))))))).drop
        (pre.length + 1 + n.length + 1 + obj.length + ws.length + (n.length + 3)) = post :=
      drop_of_append _ (pre ++ (60 :: (n ++ (62 :: (obj ++ (ws ++ closingTag n)))))) post _
        (by simp) (by simp [hcl]; omega)
    have hs : slice (pre ++ (60 :: (n ++ (62 :: (obj ++ (ws ++ (closingTag n ++ post)))))))
        0 pre.length = pre := by
      simp [slice]
    simp only [stripSpans, stripLoop, List.length_singleton, one_ne_zero, if_false, hd, hs,
      List.nil_append]
    congr 1
    by_cases hp : pre = []
    · subst hp
      by_cases hq : post = []
      · subst hq; simp
      · have : 0 < post.length := List.length_pos.2 hq
        simp [hcl]
        intro h; exfalso; omega
    · have hpl : 0 < pre.length := List.length_pos.2 hp
      by_cases hq : post = []
      · subst hq; simp [hpl, hcl]
      · have : 0 < post.length := List.length_pos.2 hq
        simp [hpl, hcl]
        intro h; exfalso; omega
  refine ⟨hmain, ?_⟩
  rw [hmain]
  intro hin
  have h60 : 60 ∈ stringsTrimSpace (pre ++ post) :=
    hin.subset (by simp)
  have := mem_stringsTrimSpace 60 _ h60
  rcases List.mem_append.1 this with h | h
  · exact hpre h
  · exact hpost h

theorem StripTaggedToolCalls_single_witness :
    isTagName (ascii "append_file") = true ∧ sampleObject.head? = some 123 ∧
    findMatchingBrace sampleObject 0 = sampleObject.length ∧
    sampleDecoder.unmarshalMap sampleObject
      = some (some [(ascii "path", ascii "\"/tmp/a.txt\""),
                    (ascii "content", ascii "\"hello\"")]) ∧
    (∀ b ∈ [32, 10], ptcIsWhitespace b = true) ∧
    60 ∉ ascii "before\n" ∧ 60 ∉ ascii "\nafter" ∧
    (StripTaggedToolCalls sampleDecoder
        (ascii "before\n" ++ [60] ++ ascii "append_file" ++ [62] ++ sampleObject ++ [32, 10]
          ++ [60, 47] ++ ascii "append_file" ++ [62] ++ ascii "\nafter")
      = stringsTrimSpace (ascii "before\n" ++ ascii "\nafter") ∧
    ¬ (([60] ++ ascii "append_file" ++ [62]) <:+: StripTaggedToolCalls sampleDecoder
        (ascii "before\n" ++ [60] ++ ascii "append_file" ++ [62] ++ sampleObject ++ [32, 10]
          ++ [60, 47] ++ ascii "append_file" ++ [62] ++ ascii "\nafter"))) :=
  ⟨by decide, by decide, by decide, by decide, by decide, by decide, by decide,
    StripTaggedToolCalls_single sampleDecoder (ascii "before\n") (ascii "append_file")
      sampleObject [32, 10] (ascii "\nafter")
      [(ascii "path", ascii "\"/tmp/a.txt\""), (ascii "content", ascii "\"hello\"")]
      (by decide) (by decide) (by decide) (by decide) (by decide) (by decide) (by decide)⟩

/-! ## Structured extractor and response content -/

/-- The result `some i` of `stringsIndex` is the first position at which `sub` starts. -/
theorem stringsIndex_some (sub : List Nat) : ∀ (s : List Nat) (i : Nat),
    stringsIndex s sub = some i →
      sub <+: s.drop i ∧ ∀ j, j < i → ¬ sub <+: s.drop j := by
  intro s
  induction s with
  | nil =>
    intro i h
    rw [stringsIndex] at h
    split_ifs at h with hs
    · have : i = 0 := by simpa using h.symm
      subst this
      exact ⟨by simp [hs], fun j hj => absurd hj (Nat.not_lt_zero _)⟩
  | cons b rest ih =>
    intro i h
    rw [stringsIndex] at h
    split_ifs at h with hp
    · have : i = 0 := by simpa using h.symm
      subst this
      exact ⟨by simpa using (stringsHasPrefix_iff _ _).1 hp,
        fun j hj => absurd hj (Nat.not_lt_zero _)⟩
    · cases hr : stringsIndex rest sub with
      | none => rw [hr] at h; simp at h
      | some k =>
        rw [hr] at h
        have hi : i = k + 1 := by simpa using h.symm
        subst hi
        obtain ⟨h1, h2⟩ := ih k hr
        refine ⟨by simpa using h1, ?_⟩
        intro j hj
        cases j with
        | zero =>
          rw [List.drop_zero, ← stringsHasPrefix_iff]
          exact hp
        | succ j =>
          simpa using h2 j (by omega)

theorem toolCallsMarker_no_inner_brace (k : Nat) (h1 : 1 ≤ k) (h2 : k < 13) :
    toolCallsMarker[k]? ≠ some 123 := by
  interval_cases k <;> decide

/-- The marker that follows a text without marker is the first one. -/
theorem stringsIndex_marker_append (rest : List Nat) : ∀ pfx : List Nat,
    ¬ toolCallsMarker <:+: pfx →
    stringsIndex (pfx ++ (toolCallsMarker ++ rest)) toolCallsMarker = some pfx.length := by
  intro pfx
  induction pfx with
  | nil =>
    intro _
    rw [List.nil_append, List.length_nil]
    exact stringsIndex_self_append _ _
  | cons b p ih =>
    intro h
    have hp : ¬ toolCallsMarker <:+: p := fun hin =>
      h (List.infix_cons_iff.2 (Or.inr hin))
    have hnp : ¬ stringsHasPrefix (b :: p ++ (toolCallsMarker ++ rest)) toolCallsMarker
        = true := by
      rw [stringsHasPrefix_iff]
      intro hpre
      rcases Nat.lt_or_ge (b :: p).length toolCallsMarker.length with hlt | hge
      · have hml : toolCallsMarker.length = 13 := by decide
        have hk : (toolCallsMarker)[(b :: p).length]?
            = (b :: p ++ (toolCallsMarker ++ rest))[(b :: p).length]? := by
          obtain ⟨t, ht⟩ := hpre
          rw [← ht, List.getElem?_append_left hlt]
        rw [List.getElem?_append_right (le_refl _)] at hk
        simp only [Nat.sub_self] at hk
        have h0 : (toolCallsMarker ++ rest)[0]? = some 123 := by
          simp [toolCallsMarker, ascii]
        rw [h0] at hk
        exact toolCallsMarker_no_inner_brace (b :: p).length (by simp) (by omega) hk
      · exact h (List.prefix_of_prefix_length_le hpre (List.prefix_append _ _) hge).isInfix
    rw [List.cons_append, stringsIndex, if_neg (by simpa using hnp), ih hp]
    simp

/-- C4: a text without marker in which the tagged parser finds no span resolves to
no tool call and to its trimmed self as content. -/
theorem response_plain_text {Obj : Type} (dec : JsonDecoder Obj) (text : List Nat)
    (hm : ¬ toolCallsMarker <:+: text)
    (ht : parseTaggedToolCallSegments dec text = []) :
    responseToolCalls dec text = [] ∧ responseContent dec text = stringsTrimSpace text := by
  have hidx := (stringsIndex_eq_none_iff toolCallsMarker text).2 hm
  have hcalls : responseToolCalls dec text = [] := by
    simp [responseToolCalls, extractToolCalls, hidx, extractTaggedToolCalls, ht]
  refine ⟨hcalls, ?_⟩
  simp [responseContent, hcalls]

theorem response_plain_text_witness :
    ¬ toolCallsMarker <:+: ascii " 1 < 2, see </b> and <b>bold \x7btext\x7d\n" ∧
    parseTaggedToolCallSegments sampleDecoder
      (ascii " 1 < 2, see </b> and <b>bold \x7btext\x7d\n") = [] ∧
    responseToolCalls sampleDecoder (ascii " 1 < 2, see </b> and <b>bold \x7btext\x7d\n")
      = [] ∧
    responseContent sampleDecoder (ascii " 1 < 2, see </b> and <b>bold \x7btext\x7d\n")
      = stringsTrimSpace (ascii " 1 < 2, see </b> and <b>bold \x7btext\x7d\n") :=
  ⟨(stringsIndex_eq_none_iff _ _).1 (by decide), by decide,
    response_plain_text sampleDecoder (ascii " 1 < 2, see </b> and <b>bold \x7btext\x7d\n")
      ((stringsIndex_eq_none_iff _ _).1 (by decide)) (by decide)⟩

/-- The calls of a text whose first marker span is matched and decodes. -/
theorem extractToolCalls_of_envelope {Obj : Type} (dec : JsonDecoder Obj) (text : List Nat)
    (start : Nat) (entries : List EnvelopeCall)
    (hidx : stringsIndex text toolCallsMarker = some start)
    (hm : findMatchingBrace text start ≠ start)
    (hdec : dec.unmarshalEnvelope (slice text start (findMatchingBrace text start))
      = some entries) :
    extractToolCalls dec text = entries.map (envelopeToolCall dec) := by
  unfold extractToolCalls
  rw [hidx]
  simp only []
  rw [if_neg hm, hdec]

set_option maxRecDepth 100000 in
/-- The envelope of the specification's example embedded in a text without earlier
marker: the index of the marker, the matched span, and the text left by
`stripToolCallsJSON`. -/
theorem sampleEnvelope_embedded (pfx sfx : List Nat) (hpre : ¬ toolCallsMarker <:+: pfx) :
    stringsIndex (pfx ++ sampleEnvelope ++ sfx) toolCallsMarker = some pfx.length ∧
    findMatchingBrace (pfx ++ sampleEnvelope ++ sfx) pfx.length
      = pfx.length + sampleEnvelope.length ∧
    slice (pfx ++ sampleEnvelope ++ sfx) pfx.length (pfx.length + sampleEnvelope.length)
      = sampleEnvelope ∧
    stripToolCallsJSON (pfx ++ sampleEnvelope ++ sfx) = stringsTrimSpace (pfx ++ sfx) := by
  have hE : sampleEnvelope = toolCallsMarker ++ sampleEnvelope.drop 13 := by decide
  have hidx : stringsIndex (pfx ++ sampleEnvelope ++ sfx) toolCallsMarker
      = some pfx.length := by
    have := stringsIndex_marker_append (sampleEnvelope.drop 13 ++ sfx) pfx hpre
    rw [← List.append_assoc toolCallsMarker, ← hE, ← List.append_assoc] at this
    exact this
  have hfm : findMatchingBrace (pfx ++ sampleEnvelope ++ sfx) pfx.length
      = pfx.length + sampleEnvelope.length := by
    rw [List.append_assoc]
    exact findMatchingBrace_embed pfx sampleEnvelope sfx (by decide) (by decide)
  have hlen : sampleEnvelope.length = 98 := by decide
  refine ⟨hidx, hfm, ?_, ?_⟩
  · exact slice_of_append _ pfx sampleEnvelope sfx _ _ (by simp) rfl rfl
  · unfold stripToolCallsJSON
    rw [hidx]
    simp only []
    rw [hfm, if_neg (by omega),
      take_of_append _ pfx (sampleEnvelope ++ sfx) _ (by simp) rfl,
      drop_of_append _ (pfx ++ sampleEnvelope) sfx _ (by simp) (by simp)]

set_option maxRecDepth 100000 in
/-- C5 (as amended): the envelope of the example, placed after a text without marker,
resolves to exactly its one call `f` with the decoded arguments; when the tagged
parser finds no span in the trimmed surrounding text, the content is that trimmed
surrounding text. -/
theorem response_sample_envelope {Obj : Type} (dec : JsonDecoder Obj) (pfx sfx : List Nat)
    (args : Obj)
    (hdecE : dec.unmarshalEnvelope sampleEnvelope = some [sampleEntry])
    (hdecA : dec.unmarshalMap (ascii "\x7b\"x\":1\x7d") = some (some args))
    (hpre : ¬ toolCallsMarker <:+: pfx) :
    responseToolCalls dec (pfx ++ sampleEnvelope ++ sfx)
      = [{ ID := ascii "call_1", Typ := ascii "function", Name := ascii "f",
           Arguments := some args,
           Function := some { Name := ascii "f", Arguments := ascii "\x7b\"x\":1\x7d" } }] ∧
    (parseTaggedToolCallSegments dec (stringsTrimSpace (pfx ++ sfx)) = [] →
      responseContent dec (pfx ++ sampleEnvelope ++ sfx) = stringsTrimSpace (pfx ++ sfx)) := by
  obtain ⟨hidx, hfm, hsl, hstrip⟩ := sampleEnvelope_embedded pfx sfx hpre
  have hlen : sampleEnvelope.length = 98 := by decide
  have hcalls : responseToolCalls dec (pfx ++ sampleEnvelope ++ sfx)
      = [{ ID := ascii "call_1", Typ := ascii "function", Name := ascii "f",
           Arguments := some args,
           Function := some { Name := ascii "f", Arguments := ascii "\x7b\"x\":1\x7d" } }] := by
    unfold responseToolCalls
    rw [extractToolCalls_of_envelope dec _ pfx.length _ hidx (by rw [hfm]; omega)
      (by rw [hfm, hsl]; exact hdecE)]
    simp [envelopeToolCall, sampleEntry, hdecA]
  refine ⟨hcalls, fun htag => ?_⟩
  unfold responseContent
  rw [hcalls, hstrip]
  simp only [List.length_singleton, gt_iff_lt, Nat.lt_one_iff, if_true, Nat.zero_lt_one]
  unfold stripTaggedToolCalls
  rw [htag]
  simp only [stripSpans, List.length_nil, if_true]
  rw [stringsTrimSpace_idem, stringsTrimSpace_idem]

set_option maxRecDepth 100000 in
theorem response_sample_envelope_witness :
    sampleDecoder.unmarshalEnvelope sampleEnvelope = some [sampleEntry] ∧
    sampleDecoder.unmarshalMap (ascii "\x7b\"x\":1\x7d")
      = some (some [(ascii "x", ascii "1")]) ∧
    ¬ toolCallsMarker <:+: ascii " I will call f: " ∧
    (responseToolCalls sampleDecoder (ascii " I will call f: " ++ sampleEnvelope ++ ascii "\nDone. ")
      = [{ ID := ascii "call_1", Typ := ascii "function", Name := ascii "f",
           Arguments := some [(ascii "x", ascii "1")],
           Function := some { Name := ascii "f", Arguments := ascii "\x7b\"x\":1\x7d" } }] ∧
    (parseTaggedToolCallSegments sampleDecoder
        (stringsTrimSpace (ascii " I will call f: " ++ ascii "\nDone. ")) = [] →
      responseContent sampleDecoder
          (ascii " I will call f: " ++ sampleEnvelope ++ ascii "\nDone. ")
        = stringsTrimSpace (ascii " I will call f: " ++ ascii "\nDone. "))) :=
  ⟨by decide, by decide, (stringsIndex_eq_none_iff _ _).1 (by decide),
    response_sample_envelope sampleDecoder (ascii " I will call f: ") (ascii "\nDone. ")
      [(ascii "x", ascii "1")] (by decide) (by decide)
      ((stringsIndex_eq_none_iff _ _).1 (by decide))⟩

set_option maxRecDepth 100000 in
/-- C5 fails as stated, in two ways.  When the surrounding prose itself holds the
marker before the envelope, the first marker's brace is never closed and no call is
returned.  When the surrounding prose holds a tagged span, the one call `f` is
returned but the tagged span is stripped from the content as well. -/
theorem response_sample_envelope_counterexample :
    responseToolCalls sampleDecoder (toolCallsMarker ++ sampleEnvelope ++ []) = [] ∧
    (responseContent sampleDecoder (ascii "<a>\x7b\x7d" ++ sampleEnvelope ++ []) = [] ∧
      stringsTrimSpace (ascii "<a>\x7b\x7d" ++ []) = ascii "<a>\x7b\x7d") := by
  decide

/-- C9: when the first marker span is brace-matched and decodes as an envelope, the
calls returned are the envelope entries, one per entry and in order, each with the
entry's id, type, name and raw arguments string. -/
theorem extractToolCalls_envelope_order {Obj : Type} (dec : JsonDecoder Obj)
    (text : List Nat) (start : Nat) (entries : List EnvelopeCall)
    (hidx : stringsIndex text toolCallsMarker = some start)
    (hm : findMatchingBrace text start ≠ start)
    (hdec : dec.unmarshalEnvelope (slice text start (findMatchingBrace text start))
      = some entries) :
    (extractToolCalls dec text).length = entries.length ∧
    ∀ (i : Nat) (e : EnvelopeCall), entries[i]? = some e →
      ∃ c : ToolCall Obj, (extractToolCalls dec text)[i]? = some c ∧
        c.ID = e.ID ∧ c.Typ = e.Typ ∧ c.Name = e.Name ∧
        c.Function = some { Name := e.Name, Arguments := e.Arguments } := by
  rw [extractToolCalls_of_envelope dec text start entries hidx hm hdec]
  refine ⟨by simp, ?_⟩
  intro i e hi
  refine ⟨envelopeToolCall dec e, by simp [hi], rfl, rfl, rfl, rfl⟩

set_option maxRecDepth 100000 in
theorem extractToolCalls_envelope_order_witness :
    stringsIndex (ascii "ok " ++ sampleEnvelope) toolCallsMarker = some 3 ∧
    findMatchingBrace (ascii "ok " ++ sampleEnvelope) 3 ≠ 3 ∧
    sampleDecoder.unmarshalEnvelope
      (slice (ascii "ok " ++ sampleEnvelope) 3
        (findMatchingBrace (ascii "ok " ++ sampleEnvelope) 3)) = some [sampleEntry] ∧
    ((extractToolCalls sampleDecoder (ascii "ok " ++ sampleEnvelope)).length
      = [sampleEntry].length ∧
    ∀ (i : Nat) (e : EnvelopeCall), [sampleEntry][i]? = some e →
      ∃ c : ToolCall (List (List Nat × List Nat)),
        (extractToolCalls sampleDecoder (ascii "ok " ++ sampleEnvelope))[i]? = some c ∧
        c.ID = e.ID ∧ c.Typ = e.Typ ∧ c.Name = e.Name ∧
        c.Function = some { Name := e.Name, Arguments := e.Arguments }) :=
  ⟨by decide, by decide, by decide,
    extractToolCalls_envelope_order sampleDecoder (ascii "ok " ++ sampleEnvelope) 3
      [sampleEntry] (by decide) (by decide) (by decide)⟩

/-- C10: an envelope entry whose arguments string does not decode as a JSON object is
still returned, at its position, with `Arguments` nil and the raw string kept; the
other entries are returned as well. -/
theorem extractToolCalls_bad_arguments {Obj : Type} (dec : JsonDecoder Obj)
    (text : List Nat) (start : Nat) (entries : List EnvelopeCall) (i : Nat) (e : EnvelopeCall)
    (hidx : stringsIndex text toolCallsMarker = some start)
    (hm : findMatchingBrace text start ≠ start)
    (hdec : dec.unmarshalEnvelope (slice text start (findMatchingBrace text start))
      = some entries)
    (hi : entries[i]? = some e)
    (hbad : ∀ m, dec.unmarshalMap e.Arguments ≠ some (some m)) :
    (∃ c : ToolCall Obj, (extractToolCalls dec text)[i]? = some c ∧ c.Arguments = none ∧
        c.Function = some { Name := e.Name, Arguments := e.Arguments }) ∧
    (extractToolCalls dec text).length = entries.length ∧
    ∀ (j : Nat) (e2 : EnvelopeCall), entries[j]? = some e2 →
      ∃ c2 : ToolCall Obj, (extractToolCalls dec text)[j]? = some c2 ∧
        c2.ID = e2.ID ∧ c2.Name = e2.Name := by
  rw [extractToolCalls_of_envelope dec text start entries hidx hm hdec]
  refine ⟨⟨envelopeToolCall dec e, by simp [hi], ?_, rfl⟩, by simp, ?_⟩
  · unfold envelopeToolCall
    simp only
    cases hr : dec.unmarshalMap e.Arguments with
    | none => rfl
    | some r =>
      cases r with
      | none => rfl
      | some m => exact absurd hr (hbad m)
  · intro j e2 hj
    exact ⟨envelopeToolCall dec e2, by simp [hj], rfl, rfl⟩

set_option maxRecDepth 100000 in
theorem extractToolCalls_bad_arguments_witness :
    stringsIndex (ascii "x" ++ sampleBadEnvelope) toolCallsMarker = some 1 ∧
    findMatchingBrace (ascii "x" ++ sampleBadEnvelope) 1 ≠ 1 ∧
    sampleDecoder.unmarshalEnvelope
      (slice (ascii "x" ++ sampleBadEnvelope) 1
        (findMatchingBrace (ascii "x" ++ sampleBadEnvelope) 1)) = some [sampleBadEntry] ∧
    [sampleBadEntry][0]? = some sampleBadEntry ∧
    (∀ m, sampleDecoder.unmarshalMap sampleBadEntry.Arguments ≠ some (some m)) ∧
    ((∃ c : ToolCall (List (List Nat × List Nat)),
        (extractToolCalls sampleDecoder (ascii "x" ++ sampleBadEnvelope))[0]? = some c ∧
        c.Arguments = none ∧
        c.Function
          = some { Name := sampleBadEntry.Name, Arguments := sampleBadEntry.Arguments }) ∧
    (extractToolCalls sampleDecoder (ascii "x" ++ sampleBadEnvelope)).length
      = [sampleBadEntry].length ∧
    ∀ (j : Nat) (e2 : EnvelopeCall), [sampleBadEntry][j]? = some e2 →
      ∃ c2 : ToolCall (List (List Nat × List Nat)),
        (extractToolCalls sampleDecoder (ascii "x" ++ sampleBadEnvelope))[j]? = some c2 ∧
        c2.ID = e2.ID ∧ c2.Name = e2.Name) :=
  ⟨by decide, by decide, by decide, by decide,
    (fun m h => by
      have h2 : sampleDecoder.unmarshalMap sampleBadEntry.Arguments = none := by decide
      rw [h2] at h
      cases h),
    extractToolCalls_bad_arguments sampleDecoder (ascii "x" ++ sampleBadEnvelope) 1
      [sampleBadEntry] 0 sampleBadEntry
      (by decide) (by decide) (by decide) (by decide)
      (fun m h => by
        have h2 : sampleDecoder.unmarshalMap sampleBadEntry.Arguments = none := by decide
        rw [h2] at h
        cases h)⟩

/-! ## Fallback to the tagged extractor -/

theorem isWhitespaceByte_eq : isWhitespaceByte = ptcIsWhitespace := by
  funext b
  simp only [isWhitespaceByte, ptcIsWhitespace, Bool.or_assoc]
  cases (b == 32) <;> cases (b == 10) <;> cases (b == 9) <;> cases (b == 13) <;> rfl

theorem isToolTagNameStart_eq : isToolTagNameStart = ptcIsTagNameStart := rfl

theorem isToolTagNameChar_eq : isToolTagNameChar = ptcIsTagNameChar := rfl

/-- The loop of the method and the loop of the package-level function compute the same
spans from every cursor. -/
theorem segmentScan_eq_taggedScan {Obj : Type} (dec : JsonDecoder Obj) (text : List Nat) :
    ∀ (fuel i : Nat) (spans : List (taggedToolCallSpan Obj)),
      segmentScan dec text fuel i spans
        = taggedScan ptcIsTagNameStart ptcIsTagNameChar ptcIsWhitespace dec text fuel i spans := by
  intro fuel
  induction fuel with
  | zero => intro i spans; rfl
  | succ fuel ih =>
    intro i spans
    rw [segmentScan, taggedScan]
    simp only [ih, isWhitespaceByte_eq, isToolTagNameStart_eq, isToolTagNameChar_eq]
    rfl

/-- The method and the package-level function find the same spans. -/
theorem parseTaggedToolCallSegments_eq_spans {Obj : Type} (dec : JsonDecoder Obj)
    (text : List Nat) :
    parseTaggedToolCallSegments dec text = parseTaggedToolCallSpans dec text := by
  unfold parseTaggedToolCallSegments parseTaggedToolCallSpans
  exact segmentScan_eq_taggedScan dec text text.length 0 []

theorem extractTaggedToolCalls_eq {Obj : Type} (dec : JsonDecoder Obj) (text : List Nat) :
    extractTaggedToolCalls dec text = ExtractTaggedToolCalls dec text := by
  unfold extractTaggedToolCalls ExtractTaggedToolCalls
  rw [parseTaggedToolCallSegments_eq_spans]

theorem stripTaggedToolCalls_eq {Obj : Type} (dec : JsonDecoder Obj) (text : List Nat) :
    stripTaggedToolCalls dec text = StripTaggedToolCalls dec text := by
  unfold stripTaggedToolCalls StripTaggedToolCalls
  rw [parseTaggedToolCallSegments_eq_spans]

/-- A marker whose brace is never closed makes `extractToolCalls` return nothing. -/
theorem extractToolCalls_of_unmatched {Obj : Type} (dec : JsonDecoder Obj) (text : List Nat)
    (start : Nat) (hidx : stringsIndex text toolCallsMarker = some start)
    (hm : findMatchingBrace text start = start) :
    extractToolCalls dec text = [] := by
  unfold extractToolCalls
  rw [hidx]
  simp only []
  rw [if_pos hm]

/-- A matched marker span that does not decode hands the text to the tagged extractor. -/
theorem extractToolCalls_of_undecodable {Obj : Type} (dec : JsonDecoder Obj)
    (text : List Nat) (start : Nat)
    (hidx : stringsIndex text toolCallsMarker = some start)
    (hm : findMatchingBrace text start ≠ start)
    (hdec : dec.unmarshalEnvelope (slice text start (findMatchingBrace text start)) = none) :
    extractToolCalls dec text = extractTaggedToolCalls dec text := by
  unfold extractToolCalls
  rw [hidx]
  simp only []
  rw [if_neg hm, hdec]

set_option maxRecDepth 100000 in
/-- C11: on a text with a tagged call followed by a truncated marker, the marker is at
index 10 and its brace is never closed; `extractToolCalls` returns no call, although
the tagged extractor finds the call `f` in the same text. -/
theorem extractToolCalls_unmatched_marker_drops_tagged :
    stringsIndex (ascii "<f>\x7b\x7d</f> \x7b\"tool_calls\":[") toolCallsMarker = some 10 ∧
    findMatchingBrace (ascii "<f>\x7b\x7d</f> \x7b\"tool_calls\":[") 10 = 10 ∧
    extractToolCalls sampleDecoder (ascii "<f>\x7b\x7d</f> \x7b\"tool_calls\":[") = [] ∧
    extractTaggedToolCalls sampleDecoder (ascii "<f>\x7b\x7d</f> \x7b\"tool_calls\":[")
      = [taggedCall 0 (ascii "f") (ascii "\x7b\x7d") (some [])] := by
  decide

/-- C12: structured wins outright.  When the first marker span is brace-matched and
decodes as an envelope, the calls are exactly those of the envelope entries, and none
when the envelope has no entry; an empty envelope followed by a tagged call yields no
call, although the tagged extractor alone finds one in that text. -/
theorem extractToolCalls_structured_wins {Obj : Type} (dec : JsonDecoder Obj)
    (text : List Nat) (start : Nat) (entries : List EnvelopeCall)
    (hidx : stringsIndex text toolCallsMarker = some start)
    (hm : findMatchingBrace text start ≠ start)
    (hdec : dec.unmarshalEnvelope (slice text start (findMatchingBrace text start))
      = some entries) :
    extractToolCalls dec text = entries.map (envelopeToolCall dec) ∧
    (entries = [] → extractToolCalls dec text = []) ∧
    (extractToolCalls sampleDecoder (ascii "\x7b\"tool_calls\":[]\x7d<f>\x7b\x7d</f>") = [] ∧
      extractTaggedToolCalls sampleDecoder (ascii "\x7b\"tool_calls\":[]\x7d<f>\x7b\x7d</f>")
        = [taggedCall 0 (ascii "f") (ascii "\x7b\x7d") (some [])]) := by
  have h := extractToolCalls_of_envelope dec text start entries hidx hm hdec
  refine ⟨h, fun he => ?_, by decide⟩
  rw [h, he]
  rfl

set_option maxRecDepth 100000 in
theorem extractToolCalls_structured_wins_witness :
    stringsIndex (ascii "\x7b\"tool_calls\":[]\x7d<f>\x7b\x7d</f>") toolCallsMarker = some 0 ∧
    findMatchingBrace (ascii "\x7b\"tool_calls\":[]\x7d<f>\x7b\x7d</f>") 0 ≠ 0 ∧
    sampleDecoder.unmarshalEnvelope
      (slice (ascii "\x7b\"tool_calls\":[]\x7d<f>\x7b\x7d</f>") 0
        (findMatchingBrace (ascii "\x7b\"tool_calls\":[]\x7d<f>\x7b\x7d</f>") 0)) = some [] ∧
    (extractToolCalls sampleDecoder (ascii "\x7b\"tool_calls\":[]\x7d<f>\x7b\x7d</f>")
      = ([] : List EnvelopeCall).map (envelopeToolCall sampleDecoder) ∧
    (([] : List EnvelopeCall) = [] →
      extractToolCalls sampleDecoder (ascii "\x7b\"tool_calls\":[]\x7d<f>\x7b\x7d</f>") = []) ∧
    (extractToolCalls sampleDecoder (ascii "\x7b\"tool_calls\":[]\x7d<f>\x7b\x7d</f>") = [] ∧
      extractTaggedToolCalls sampleDecoder (ascii "\x7b\"tool_calls\":[]\x7d<f>\x7b\x7d</f>")
        = [taggedCall 0 (ascii "f") (ascii "\x7b\x7d") (some [])])) :=
  ⟨by decide, by decide, by decide,
    extractToolCalls_structured_wins sampleDecoder
      (ascii "\x7b\"tool_calls\":[]\x7d<f>\x7b\x7d</f>") 0 [] (by decide) (by decide)
      (by decide)⟩

/-- C13 (as amended): when the first marker span is brace-matched but does not decode
as an envelope, `extractToolCalls` returns what the tagged extractor finds in the
text. -/
theorem extractToolCalls_undecodable_falls_back {Obj : Type} (dec : JsonDecoder Obj)
    (text : List Nat) (start : Nat)
    (hidx : stringsIndex text toolCallsMarker = some start)
    (hm : findMatchingBrace text start ≠ start)
    (hdec : dec.unmarshalEnvelope (slice text start (findMatchingBrace text start)) = none) :
    extractToolCalls dec text = ExtractTaggedToolCalls dec text := by
  rw [extractToolCalls_of_undecodable dec text start hidx hm hdec, extractTaggedToolCalls_eq]

set_option maxRecDepth 100000 in
theorem extractToolCalls_undecodable_falls_back_witness :
    stringsIndex (ascii "\x7b\"tool_calls\":oops\x7d <f>\x7b\x7d</f>") toolCallsMarker = some 0 ∧
    findMatchingBrace (ascii "\x7b\"tool_calls\":oops\x7d <f>\x7b\x7d</f>") 0 ≠ 0 ∧
    sampleDecoder.unmarshalEnvelope
      (slice (ascii "\x7b\"tool_calls\":oops\x7d <f>\x7b\x7d</f>") 0
        (findMatchingBrace (ascii "\x7b\"tool_calls\":oops\x7d <f>\x7b\x7d</f>") 0)) = none ∧
    extractToolCalls sampleDecoder (ascii "\x7b\"tool_calls\":oops\x7d <f>\x7b\x7d</f>")
      = ExtractTaggedToolCalls sampleDecoder
          (ascii "\x7b\"tool_calls\":oops\x7d <f>\x7b\x7d</f>") :=
  ⟨by decide, by decide, by decide,
    extractToolCalls_undecodable_falls_back sampleDecoder
      (ascii "\x7b\"tool_calls\":oops\x7d <f>\x7b\x7d</f>") 0 (by decide) (by decide)
      (by decide)⟩

set_option maxRecDepth 100000 in
/-- C13 fails as stated: the first marker span of this text is brace-matched and does
not decode, yet `extractToolCalls` returns the tagged call `f` found after it. -/
theorem extractToolCalls_undecodable_counterexample :
    stringsIndex (ascii "\x7b\"tool_calls\":oops\x7d <f>\x7b\x7d</f>") toolCallsMarker = some 0 ∧
    findMatchingBrace (ascii "\x7b\"tool_calls\":oops\x7d <f>\x7b\x7d</f>") 0 = 19 ∧
    sampleDecoder.unmarshalEnvelope
      (slice (ascii "\x7b\"tool_calls\":oops\x7d <f>\x7b\x7d</f>") 0 19) = none ∧
    extractToolCalls sampleDecoder (ascii "\x7b\"tool_calls\":oops\x7d <f>\x7b\x7d</f>")
      = [taggedCall 0 (ascii "f") (ascii "\x7b\x7d") (some [])] := by
  decide

/-! ## Invariants of the scan -/

theorem taggedScan_unfold {Obj : Type} (isStart isChar isWs : Nat → Bool)
    (dec : JsonDecoder Obj) (text : List Nat) (fuel i : Nat)
    (spans : List (taggedToolCallSpan Obj)) :
    taggedScan isStart isChar isWs dec text (fuel + 1) i spans =
      if i < text.length then
        match stringsIndexByte (text.drop i) 60 with
        | none => spans
        | some rel =>
          if i + rel + 1 ≥ text.length then spans
          else
            match tagCandidate isStart isChar isWs dec text spans.length (i + rel) with
            | none => taggedScan isStart isChar isWs dec text fuel (i + rel + 1) spans
            | some sp => taggedScan isStart isChar isWs dec text fuel sp.stop (spans ++ [sp])
      else spans := by
  rw [taggedScan]
  split_ifs with h1
  · cases hrel : stringsIndexByte (text.drop i) 60 with
    | none => rfl
    | some rel =>
      simp only []
      unfold tagCandidate
      simp only []
      split_ifs <;> try rfl
      split <;> rfl
  · rfl


theorem stringsIndexByte_some (c : Nat) : ∀ (l : List Nat) (k : Nat),
    stringsIndexByte l c = some k → l[k]? = some c := by
  intro l
  induction l with
  | nil => intro k h; simp [stringsIndexByte] at h
  | cons b l ih =>
    intro k h
    rw [stringsIndexByte] at h
    split_ifs at h with hb
    · have : k = 0 := by simpa using h.symm
      subst this
      simp [hb]
    · cases hr : stringsIndexByte l c with
      | none => rw [hr] at h; simp at h
      | some j =>
        rw [hr] at h
        have : k = j + 1 := by simpa using h.symm
        subst this
        simpa using ih j hr

/-- Induction over the scan: a property of the cursor and the spans found so far that
survives moving the cursor forward and appending an accepted candidate holds when the
scan ends. -/
theorem taggedScan_induction {Obj : Type} (isStart isChar isWs : Nat → Bool)
    (dec : JsonDecoder Obj) (text : List Nat)
    (Inv : Nat → List (taggedToolCallSpan Obj) → Prop)
    (hskip : ∀ i j spans, Inv i spans → i ≤ j → Inv j spans)
    (hstep : ∀ i spans start sp, Inv i spans → i ≤ start → start + 1 < text.length →
      text[start]? = some 60 →
      tagCandidate isStart isChar isWs dec text spans.length start = some sp →
      Inv sp.stop (spans ++ [sp])) :
    ∀ (fuel i : Nat) (spans : List (taggedToolCallSpan Obj)), Inv i spans →
      ∃ j, Inv j (taggedScan isStart isChar isWs dec text fuel i spans) := by
  intro fuel
  induction fuel with
  | zero => intro i spans h; exact ⟨i, by rw [taggedScan]; exact h⟩
  | succ fuel ih =>
    intro i spans h
    rw [taggedScan_unfold]
    split_ifs with h1
    · cases hrel : stringsIndexByte (text.drop i) 60 with
      | none => exact ⟨i, h⟩
      | some rel =>
        simp only []
        split_ifs with h2
        · exact ⟨i, h⟩
        · have h60 : text[i + rel]? = some 60 := by
            have := stringsIndexByte_some 60 _ _ hrel
            rwa [List.getElem?_drop] at this
          cases hc : tagCandidate isStart isChar isWs dec text spans.length (i + rel) with
          | none => exact ih _ _ (hskip _ _ _ h (by omega))
          | some sp =>
            exact ih _ _ (hstep i spans (i + rel) sp h (by omega) (by omega) h60 hc)
    · exact ⟨i, h⟩


theorem advanceWhile_spec (p : Nat → Bool) (l : List Nat) : ∀ k,
    ∃ run rest, l = run ++ rest ∧ (∀ b ∈ run, p b = true) ∧
      advanceWhile p l k = k + run.length ∧ (∀ b, rest.head? = some b → p b = false) := by
  induction l with
  | nil => intro k; exact ⟨[], [], rfl, by simp, by simp [advanceWhile], by simp⟩
  | cons b l ih =>
    intro k
    by_cases hb : p b = true
    · obtain ⟨run, rest, h1, h2, h3, h4⟩ := ih (k + 1)
      refine ⟨b :: run, rest, by rw [h1]; rfl, ?_, ?_, h4⟩
      · intro x hx
        rcases List.mem_cons.1 hx with rfl | hx
        · exact hb
        · exact h2 x hx
      · rw [advanceWhile, if_pos hb, h3, List.length_cons]; omega
    · refine ⟨[], b :: l, rfl, by simp, by simp [advanceWhile, hb], ?_⟩
      intro x hx
      have : b = x := by simpa using hx
      subst this
      simpa using hb

/-- What the code has checked when a candidate is accepted. -/
theorem tagCandidate_facts {Obj : Type} (isStart isChar isWs : Nat → Bool)
    (dec : JsonDecoder Obj) (text : List Nat) (count start : Nat)
    (sp : taggedToolCallSpan Obj)
    (h : tagCandidate isStart isChar isWs dec text count start = some sp) :
    ∃ nameEnd jsonStart jsonEnd args,
      text.getD (start + 1) 0 ≠ 47 ∧ isStart (text.getD (start + 1) 0) = true ∧
      nameEnd = advanceWhile isChar (text.drop (start + 1)) (start + 1) ∧
      nameEnd < text.length ∧ text.getD nameEnd 0 = 62 ∧
      jsonStart = advanceWhile isWs (text.drop (nameEnd + 1)) (nameEnd + 1) ∧
      jsonStart < text.length ∧ text.getD jsonStart 0 = 123 ∧
      jsonEnd = findMatchingBrace text jsonStart ∧ jsonEnd ≠ jsonStart ∧
      dec.unmarshalMap (slice text jsonStart jsonEnd) = some args ∧
      sp = { start := start,
             stop := spanEndAfter isWs text (slice text (start + 1) nameEnd) jsonEnd,
             call := taggedCall count (slice text (start + 1) nameEnd)
               (slice text jsonStart jsonEnd) args } := by
  unfold tagCandidate at h
  simp only [] at h
  split_ifs at h with h1 h2 h3 h4
  cases hd : dec.unmarshalMap (slice text
      (advanceWhile isWs (text.drop (advanceWhile isChar (text.drop (start + 1)) (start + 1) + 1))
        (advanceWhile isChar (text.drop (start + 1)) (start + 1) + 1))
      (findMatchingBrace text
        (advanceWhile isWs (text.drop (advanceWhile isChar (text.drop (start + 1)) (start + 1) + 1))
          (advanceWhile isChar (text.drop (start + 1)) (start + 1) + 1)))) with
  | none => rw [hd] at h; simp at h
  | some args =>
    rw [hd] at h
    simp only [Option.some.injEq] at h
    simp only [Bool.or_eq_true, decide_eq_true_eq, Bool.not_eq_true', not_or,
      Bool.not_eq_false, ge_iff_le, not_le, ne_eq, Decidable.not_not] at h1 h2 h3
    exact ⟨_, _, _, args, h1.1, h1.2, rfl, h2.1, h2.2, rfl, h3.1, h3.2, rfl, h4, hd, h.symm⟩

/-! ## Identifiers of tagged calls -/

theorem toDigitsCore_append : ∀ (fuel n : Nat) (ds : List Char),
    Nat.toDigitsCore 10 fuel n ds = Nat.toDigitsCore 10 fuel n [] ++ ds := by
  intro fuel
  induction fuel with
  | zero => intro n ds; simp [Nat.toDigitsCore]
  | succ fuel ih =>
    intro n ds
    simp only [Nat.toDigitsCore]
    split_ifs
    · simp
    · rw [ih (n / 10) (Nat.digitChar (n % 10) :: ds), ih (n / 10) [Nat.digitChar (n % 10)]]
      simp

theorem digitChar_toNat (k : Nat) (h : k < 10) : (Nat.digitChar k).toNat = 48 + k := by
  interval_cases k <;> rfl

theorem digitsValue_append_single (l : List Nat) (d : Nat) :
    digitsValue (l ++ [d]) = 10 * digitsValue l + (d - 48) := by
  simp [digitsValue, List.foldl_append]

theorem digitsValue_toDigitsCore : ∀ (fuel n : Nat), n < fuel →
    digitsValue ((Nat.toDigitsCore 10 fuel n []).map Char.toNat) = n := by
  intro fuel
  induction fuel with
  | zero => intro n h; omega
  | succ fuel ih =>
    intro n h
    simp only [Nat.toDigitsCore]
    have hd : (Nat.digitChar (n % 10)).toNat - 48 = n % 10 := by
      rw [digitChar_toNat _ (Nat.mod_lt _ (by decide))]; omega
    split_ifs with hz
    · simp only [List.map_cons, List.map_nil]
      have := digitsValue_append_single [] (Nat.digitChar (n % 10)).toNat
      simp only [List.nil_append] at this
      rw [this, hd]
      simp [digitsValue]
      omega
    · rw [toDigitsCore_append, List.map_append, List.map_cons, List.map_nil,
        digitsValue_append_single, ih (n / 10) (by omega), hd]
      omega

theorem digitsValue_decimal (n : Nat) : digitsValue (decimal n) = n := by
  unfold decimal Nat.toDigits
  exact digitsValue_toDigitsCore (n + 1) n (by omega)

theorem decimal_injective (m n : Nat) (h : decimal m = decimal n) : m = n := by
  have := congrArg digitsValue h
  rwa [digitsValue_decimal, digitsValue_decimal] at this


/-- Every span found carries the identifier of its position and the type `function`. -/
theorem parseTaggedToolCallSpans_ids {Obj : Type} (dec : JsonDecoder Obj) (text : List Nat) :
    ∀ (k : Nat) (sp : taggedToolCallSpan Obj),
      (parseTaggedToolCallSpans dec text)[k]? = some sp →
      sp.call.ID = ascii "call_tag_" ++ decimal (k + 1) ∧ sp.call.Typ = ascii "function" := by
  have h := taggedScan_induction ptcIsTagNameStart ptcIsTagNameChar ptcIsWhitespace dec text
    (fun _ spans => ∀ (k : Nat) (sp : taggedToolCallSpan Obj), spans[k]? = some sp →
      sp.call.ID = ascii "call_tag_" ++ decimal (k + 1) ∧ sp.call.Typ = ascii "function")
    (fun _ _ _ hinv _ => hinv)
    (by
      intro i spans start sp hinv _ _ _ hc k sp2 hk
      obtain ⟨nameEnd, jsonStart, jsonEnd, args, -, -, -, -, -, -, -, -, -, -, -, hsp⟩ :=
        tagCandidate_facts _ _ _ dec text _ _ sp hc
      rcases Nat.lt_or_ge k spans.length with hlt | hge
      · rw [List.getElem?_append_left hlt] at hk
        exact hinv k sp2 hk
      · rw [List.getElem?_append_right hge] at hk
        have hk0 : k - spans.length = 0 := by
          rcases Nat.eq_zero_or_pos (k - spans.length) with h0 | h0
          · exact h0
          · rw [List.getElem?_eq_none (by simp only [List.length_singleton]; omega)] at hk
            cases hk
        rw [hk0] at hk
        have hsp2 : sp2 = sp := by simpa using hk.symm
        have hkl : k = spans.length := by omega
        rw [hsp2, hsp, hkl]
        exact ⟨rfl, rfl⟩)
    text.length 0 [] (by intro k sp hk; simp at hk)
  obtain ⟨_, hj⟩ := h
  exact hj

/-- C17: the call at position `k` (counted from zero) of `ExtractTaggedToolCalls` has
the identifier `call_tag_` followed by the decimal `k + 1` and the type `function`;
the identifiers of the calls of one text are pairwise distinct. -/
theorem ExtractTaggedToolCalls_ids {Obj : Type} (dec : JsonDecoder Obj) (text : List Nat) :
    (∀ (k : Nat) (c : ToolCall Obj), (ExtractTaggedToolCalls dec text)[k]? = some c →
      c.ID = ascii "call_tag_" ++ decimal (k + 1) ∧ c.Typ = ascii "function") ∧
    (∀ (j k : Nat) (c1 c2 : ToolCall Obj),
      (ExtractTaggedToolCalls dec text)[j]? = some c1 →
      (ExtractTaggedToolCalls dec text)[k]? = some c2 → c1.ID = c2.ID → j = k) := by
  have h1 : ∀ (k : Nat) (c : ToolCall Obj), (ExtractTaggedToolCalls dec text)[k]? = some c →
      c.ID = ascii "call_tag_" ++ decimal (k + 1) ∧ c.Typ = ascii "function" := by
    intro k c hk
    unfold ExtractTaggedToolCalls at hk
    rw [List.getElem?_map] at hk
    cases hs : (parseTaggedToolCallSpans dec text)[k]? with
    | none => rw [hs] at hk; cases hk
    | some sp =>
      rw [hs] at hk
      have : sp.call = c := by simpa using hk
      rw [← this]
      exact parseTaggedToolCallSpans_ids dec text k sp hs
  refine ⟨h1, ?_⟩
  intro j k c1 c2 hj hk hid
  rw [(h1 j c1 hj).1, (h1 k c2 hk).1] at hid
  have := decimal_injective _ _ (List.append_cancel_left hid)
  omega

/-! ## Soundness of tag detection -/

theorem drop_add_length (text x y : List Nat) (a : Nat) (h : text.drop a = x ++ y) :
    text.drop (a + x.length) = y := by
  have h2 := congrArg (List.drop x.length) h
  rw [List.drop_drop, List.drop_left] at h2
  rw [← h2]

theorem drop_cons_of_getD (text : List Nat) (k c : Nat) (hk : k < text.length)
    (hc : text.getD k 0 = c) : text.drop k = c :: text.drop (k + 1) := by
  rw [List.drop_eq_getElem_cons hk]
  congr 1
  rw [← hc, List.getD_eq_getElem _ _ hk]

/-- What an accepted candidate looks like in the text: the tag name between `<` and
`>`, white space, and the raw arguments beginning with an opening brace. -/
theorem tagCandidate_sound {Obj : Type} (dec : JsonDecoder Obj) (text : List Nat)
    (count start : Nat) (sp : taggedToolCallSpan Obj)
    (h60 : text[start]? = some 60)
    (hc : tagCandidate ptcIsTagNameStart ptcIsTagNameChar ptcIsWhitespace dec text count start
      = some sp) :
    ∃ ws rawArgs tail,
      sp.start = start ∧
      text.drop start = 60 :: (sp.call.Name ++ 62 :: (ws ++ (rawArgs ++ tail))) ∧
      isTagName sp.call.Name = true ∧
      (∀ b ∈ ws, ptcIsWhitespace b = true) ∧
      rawArgs.head? = some 123 ∧
      sp.call.Function = some { Name := sp.call.Name, Arguments := rawArgs } ∧
      dec.unmarshalMap rawArgs = some sp.call.Arguments := by
  obtain ⟨nameEnd, jsonStart, jsonEnd, args, h47, hst, hne, hnlt, hn62, hjs, hjlt, hj123,
    hje, hjne, hdec, hsp⟩ := tagCandidate_facts _ _ _ dec text count start sp hc
  have hslt : start < text.length := by
    rcases Nat.lt_or_ge start text.length with h | h
    · exact h
    · rw [List.getElem?_eq_none h] at h60; cases h60
  -- the name run
  obtain ⟨run1, rest1, hD1, hrun1, haw1, hstop1⟩ :=
    advanceWhile_spec ptcIsTagNameChar (text.drop (start + 1)) (start + 1)
  rw [← hne] at haw1
  have hs1 : start + 1 < text.length := by omega
  have hD1c := drop_cons_of_getD text (start + 1) _ hs1 rfl
  have hdn : text.drop nameEnd = rest1 := by
    rw [haw1]; exact drop_add_length text run1 rest1 (start + 1) hD1
  have hrest1 : rest1 = 62 :: text.drop (nameEnd + 1) := by
    rw [← hdn]; exact drop_cons_of_getD text nameEnd 62 hnlt hn62
  have hname : slice text (start + 1) nameEnd = run1 := by
    unfold slice
    rw [hD1, haw1]
    simp
  have hrun1ne : ∃ cs, run1 = text.getD (start + 1) 0 :: cs := by
    cases run1 with
    | nil =>
      rw [List.nil_append] at hD1
      have := hstop1 (text.getD (start + 1) 0) (by rw [← hD1, hD1c]; rfl)
      have hch : ptcIsTagNameChar (text.getD (start + 1) 0) = true := by
        unfold ptcIsTagNameChar
        rw [hst]
        rfl
      rw [hch] at this
      cases this
    | cons c cs =>
      refine ⟨cs, ?_⟩
      rw [hD1c, List.cons_append] at hD1
      rw [(List.cons.inj hD1).1]
  obtain ⟨cs, hrun1eq⟩ := hrun1ne
  have htag : isTagName run1 = true := by
    rw [hrun1eq]
    simp only [isTagName, Bool.and_eq_true, List.all_eq_true]
    refine ⟨hst, fun b hb => hrun1 b ?_⟩
    rw [hrun1eq]
    exact List.mem_cons_of_mem _ hb
  -- the white space run
  obtain ⟨ws, rest2, hD2, hws, haw2, _⟩ :=
    advanceWhile_spec ptcIsWhitespace (text.drop (nameEnd + 1)) (nameEnd + 1)
  rw [← hjs] at haw2
  have hdj : text.drop jsonStart = rest2 := by
    rw [haw2]; exact drop_add_length text ws rest2 (nameEnd + 1) hD2
  have hrest2 : rest2 = 123 :: text.drop (jsonStart + 1) := by
    rw [← hdj]; exact drop_cons_of_getD text jsonStart 123 hjlt hj123
  -- the raw arguments
  have hj? : text[jsonStart]? = some 123 := by
    rw [List.getElem?_eq_getElem hjlt, ← hj123, List.getD_eq_getElem _ _ hjlt]
  have hjbounds : jsonStart + 2 ≤ jsonEnd := by
    rcases findMatchingBrace_cases text jsonStart hj? with hcase | hcase
    · exact absurd (hje.trans hcase.1) hjne
    · rw [hje]; exact hcase.1
  have hraw : rest2 = slice text jsonStart jsonEnd
      ++ rest2.drop (jsonEnd - jsonStart) := by
    unfold slice
    rw [hdj]
    exact (List.take_append_drop _ _).symm
  have hhead : (slice text jsonStart jsonEnd).head? = some 123 := by
    unfold slice
    rw [hdj, hrest2]
    obtain ⟨m, hm⟩ : ∃ m, jsonEnd - jsonStart = m + 1 := ⟨jsonEnd - jsonStart - 1, by omega⟩
    rw [hm, List.take_succ_cons]
    rfl
  refine ⟨ws, slice text jsonStart jsonEnd, rest2.drop (jsonEnd - jsonStart), ?_, ?_, ?_,
    hws, hhead, ?_, ?_⟩
  · rw [hsp]
  · rw [hsp]
    simp only [taggedCall]
    rw [hname, drop_cons_of_getD text start 60 hslt
      (by rw [List.getD_eq_getElem _ _ hslt]
          rw [List.getElem?_eq_getElem hslt] at h60
          exact Option.some.inj h60),
      hD1, hrest1, hD2, ← hraw]
  · rw [hsp]
    simp only [taggedCall]
    rw [hname]
    exact htag
  · rw [hsp]
    simp only [taggedCall]
  · rw [hsp]
    simp only [taggedCall]
    exact hdec


set_option maxRecDepth 100000 in
/-- C20: soundness of tag detection.  Every span returned by `parseTaggedToolCallSpans`
starts at a `<` that is followed by the call's name and `>`, the name being a valid
tag name; then come only white-space bytes and the raw arguments, which begin with an
opening brace and decode.  So the byte after the `<` is never `/`, and a closing tag,
a `<` before another byte, an unterminated name or a tag without object yield no
call. -/
theorem parseTaggedToolCallSpans_sound {Obj : Type} (dec : JsonDecoder Obj)
    (text : List Nat) :
    (∀ sp ∈ parseTaggedToolCallSpans dec text, ∃ ws rawArgs tail,
      text.drop sp.start = 60 :: (sp.call.Name ++ 62 :: (ws ++ (rawArgs ++ tail))) ∧
      isTagName sp.call.Name = true ∧
      (∀ b ∈ ws, ptcIsWhitespace b = true) ∧
      rawArgs.head? = some 123 ∧
      sp.call.Function = some { Name := sp.call.Name, Arguments := rawArgs } ∧
      dec.unmarshalMap rawArgs = some sp.call.Arguments ∧
      text[sp.start + 1]? ≠ some 47) ∧
    (parseTaggedToolCallSpans sampleDecoder (ascii "</f>\x7b\x7d") = [] ∧
      parseTaggedToolCallSpans sampleDecoder (ascii "<1>\x7b\x7d < \x7b\x7d") = [] ∧
      parseTaggedToolCallSpans sampleDecoder (ascii "<f\x7b\x7d <f \x7b\x7d") = [] ∧
      parseTaggedToolCallSpans sampleDecoder (ascii "<f>x\x7b\x7d <f>[]") = []) := by
  refine ⟨?_, by decide, by decide, by decide, by decide⟩
  have h := taggedScan_induction ptcIsTagNameStart ptcIsTagNameChar ptcIsWhitespace dec text
    (fun _ spans => ∀ sp ∈ spans, ∃ ws rawArgs tail,
      text.drop sp.start = 60 :: (sp.call.Name ++ 62 :: (ws ++ (rawArgs ++ tail))) ∧
      isTagName sp.call.Name = true ∧
      (∀ b ∈ ws, ptcIsWhitespace b = true) ∧
      rawArgs.head? = some 123 ∧
      sp.call.Function = some { Name := sp.call.Name, Arguments := rawArgs } ∧
      dec.unmarshalMap rawArgs = some sp.call.Arguments ∧
      text[sp.start + 1]? ≠ some 47)
    (fun _ _ _ hinv _ => hinv)
    (by
      intro i spans start sp hinv _ _ h60 hc sp2 hmem
      rcases List.mem_append.1 hmem with hold | hnew
      · exact hinv sp2 hold
      · have hsp2 : sp2 = sp := by simpa using hnew
        subst hsp2
        obtain ⟨ws, rawArgs, tail, hstart, hdrop, htag, hws, hhead, hfun, hdec⟩ :=
          tagCandidate_sound dec text spans.length start sp2 h60 hc
        refine ⟨ws, rawArgs, tail, by rw [hstart]; exact hdrop, htag, hws, hhead, hfun,
          hdec, ?_⟩
        obtain ⟨c, cs, hncs, hcst, _⟩ := isTagName_chars _ htag
        have hget : text[sp2.start + 1]? = some c := by
          have := congrArg (fun l => l[1]?) hdrop
          simp only [List.getElem?_drop] at this
          rw [hstart, this, hncs]
          simp
        rw [hget]
        intro h47
        have : c = 47 := Option.some.inj h47
        subst this
        revert hcst
        decide)
    text.length 0 [] (by intro sp hsp; simp at hsp)
  obtain ⟨_, hj⟩ := h
  exact hj

/-! ## Response content -/

theorem stripSpans_trim {Obj : Type} (text : List Nat)
    (spans : List (taggedToolCallSpan Obj)) :
    stringsTrimSpace (stripSpans text spans) = stripSpans text spans := by
  unfold stripSpans
  split_ifs
  · exact stringsTrimSpace_idem _
  · exact stringsTrimSpace_idem _

theorem stripToolCallsJSON_of_no_marker (text : List Nat)
    (hm : ¬ toolCallsMarker <:+: text) : stripToolCallsJSON text = text := by
  unfold stripToolCallsJSON
  rw [(stringsIndex_eq_none_iff toolCallsMarker text).2 hm]

theorem stripToolCallsJSON_of_matched (text : List Nat) (start : Nat)
    (hidx : stringsIndex text toolCallsMarker = some start)
    (hm : findMatchingBrace text start ≠ start) :
    stripToolCallsJSON text
      = stringsTrimSpace (text.take start ++ text.drop (findMatchingBrace text start)) := by
  unfold stripToolCallsJSON
  rw [hidx]
  simp only []
  rw [if_neg hm]

theorem responseToolCalls_of_no_marker {Obj : Type} (dec : JsonDecoder Obj)
    (text : List Nat) (hm : ¬ toolCallsMarker <:+: text) :
    responseToolCalls dec text = ExtractTaggedToolCalls dec text := by
  unfold responseToolCalls extractToolCalls
  rw [(stringsIndex_eq_none_iff toolCallsMarker text).2 hm]
  exact extractTaggedToolCalls_eq dec text

theorem responseContent_of_no_marker {Obj : Type} (dec : JsonDecoder Obj)
    (text : List Nat) (hm : ¬ toolCallsMarker <:+: text) :
    responseContent dec text = StripTaggedToolCalls dec text := by
  unfold responseContent
  rw [responseToolCalls_of_no_marker dec text hm, stripToolCallsJSON_of_no_marker text hm,
    stripTaggedToolCalls_eq]
  unfold ExtractTaggedToolCalls StripTaggedToolCalls
  cases hs : parseTaggedToolCallSpans dec text with
  | nil => simp [stripSpans]
  | cons sp rest =>
    simp only [List.map_cons, List.length_cons, gt_iff_lt, Nat.zero_lt_succ, if_true]
    exact stripSpans_trim _ _

/-- C15 (as amended): for a text without marker, whose calls therefore come from the
tagged extractor, the content is `StripTaggedToolCalls(text)`: the text outside the
consumed tagged spans, in order and trimmed. -/
theorem responseContent_tagged {Obj : Type} (dec : JsonDecoder Obj) (text : List Nat)
    (hm : ¬ toolCallsMarker <:+: text) :
    responseToolCalls dec text = ExtractTaggedToolCalls dec text ∧
    responseContent dec text = StripTaggedToolCalls dec text := by
  constructor
  · exact responseToolCalls_of_no_marker dec text hm
  · exact responseContent_of_no_marker dec text hm

set_option maxRecDepth 100000 in
theorem responseContent_tagged_witness :
    ¬ toolCallsMarker <:+: ascii "see \x7bthis\x7d <f>\x7b\x7d</f> and <b> that " ∧
    (responseToolCalls sampleDecoder (ascii "see \x7bthis\x7d <f>\x7b\x7d</f> and <b> that ")
      = ExtractTaggedToolCalls sampleDecoder
          (ascii "see \x7bthis\x7d <f>\x7b\x7d</f> and <b> that ") ∧
    responseContent sampleDecoder (ascii "see \x7bthis\x7d <f>\x7b\x7d</f> and <b> that ")
      = StripTaggedToolCalls sampleDecoder
          (ascii "see \x7bthis\x7d <f>\x7b\x7d</f> and <b> that ")) :=
  ⟨(stringsIndex_eq_none_iff _ _).1 (by decide),
    responseContent_tagged sampleDecoder
      (ascii "see \x7bthis\x7d <f>\x7b\x7d</f> and <b> that ")
      ((stringsIndex_eq_none_iff _ _).1 (by decide))⟩

set_option maxRecDepth 100000 in
/-- C15 fails as stated: the calls of this text come from the tagged extractor, the
marker span after them being brace-matched but not an envelope; the content has lost
that span, which `StripTaggedToolCalls` keeps. -/
theorem responseContent_tagged_counterexample :
    responseToolCalls sampleDecoder (ascii "<f>\x7b\x7d</f> \x7b\"tool_calls\":oops\x7d hi")
      = [taggedCall 0 (ascii "f") (ascii "\x7b\x7d") (some [])] ∧
    responseContent sampleDecoder (ascii "<f>\x7b\x7d</f> \x7b\"tool_calls\":oops\x7d hi")
      = ascii "hi" ∧
    StripTaggedToolCalls sampleDecoder (ascii "<f>\x7b\x7d</f> \x7b\"tool_calls\":oops\x7d hi")
      = ascii "\x7b\"tool_calls\":oops\x7d hi" := by
  decide

/-- C16 (as amended): when the first marker span is brace-matched and decodes as an
envelope with at least one entry, and the tagged parser finds no span in the text left
around it, the content is that text, trimmed; when the envelope has no entry the
content is the whole text, trimmed, envelope included. -/
theorem responseContent_envelope {Obj : Type} (dec : JsonDecoder Obj) (text : List Nat)
    (start : Nat) (entries : List EnvelopeCall)
    (hidx : stringsIndex text toolCallsMarker = some start)
    (hm : findMatchingBrace text start ≠ start)
    (hdec : dec.unmarshalEnvelope (slice text start (findMatchingBrace text start))
      = some entries) :
    (entries ≠ [] →
      parseTaggedToolCallSegments dec
        (stringsTrimSpace (text.take start ++ text.drop (findMatchingBrace text start))) = [] →
      responseContent dec text
        = stringsTrimSpace (text.take start ++ text.drop (findMatchingBrace text start))) ∧
    (entries = [] → responseContent dec text = stringsTrimSpace text) := by
  have hcalls : responseToolCalls dec text = entries.map (envelopeToolCall dec) :=
    extractToolCalls_of_envelope dec text start entries hidx hm hdec
  constructor
  · intro hne htag
    have hlen : (entries.map (envelopeToolCall dec)).length > 0 := by
      rw [List.length_map]
      exact List.length_pos.2 hne
    unfold responseContent
    rw [hcalls, if_pos hlen, stripToolCallsJSON_of_matched text start hidx hm]
    unfold stripTaggedToolCalls
    rw [htag]
    simp only [stripSpans, List.length_nil, if_true]
    rw [stringsTrimSpace_idem, stringsTrimSpace_idem]
  · intro he
    unfold responseContent
    rw [hcalls, he]
    simp

set_option maxRecDepth 100000 in
theorem responseContent_envelope_witness :
    stringsIndex (ascii "ok " ++ sampleEnvelope ++ ascii " bye") toolCallsMarker = some 3 ∧
    findMatchingBrace (ascii "ok " ++ sampleEnvelope ++ ascii " bye") 3 ≠ 3 ∧
    sampleDecoder.unmarshalEnvelope
      (slice (ascii "ok " ++ sampleEnvelope ++ ascii " bye") 3
        (findMatchingBrace (ascii "ok " ++ sampleEnvelope ++ ascii " bye") 3))
      = some [sampleEntry] ∧
    (([sampleEntry] ≠ [] →
      parseTaggedToolCallSegments sampleDecoder
        (stringsTrimSpace ((ascii "ok " ++ sampleEnvelope ++ ascii " bye").take 3
          ++ (ascii "ok " ++ sampleEnvelope ++ ascii " bye").drop
            (findMatchingBrace (ascii "ok " ++ sampleEnvelope ++ ascii " bye") 3))) = [] →
      responseContent sampleDecoder (ascii "ok " ++ sampleEnvelope ++ ascii " bye")
        = stringsTrimSpace ((ascii "ok " ++ sampleEnvelope ++ ascii " bye").take 3
          ++ (ascii "ok " ++ sampleEnvelope ++ ascii " bye").drop
            (findMatchingBrace (ascii "ok " ++ sampleEnvelope ++ ascii " bye") 3))) ∧
    ([sampleEntry] = [] →
      responseContent sampleDecoder (ascii "ok " ++ sampleEnvelope ++ ascii " bye")
        = stringsTrimSpace (ascii "ok " ++ sampleEnvelope ++ ascii " bye"))) :=
  ⟨by decide, by decide, by decide,
    responseContent_envelope sampleDecoder (ascii "ok " ++ sampleEnvelope ++ ascii " bye") 3
      [sampleEntry] (by decide) (by decide) (by decide)⟩

set_option maxRecDepth 100000 in
/-- C16 fails as stated, in two ways.  An envelope without entries is brace-matched and
decodes, the text holds no tagged span, yet the content keeps the envelope.  And text
around an envelope that holds no tagged span can form one once the envelope is
removed; that span is then stripped from the content too. -/
theorem responseContent_envelope_counterexample :
    (parseTaggedToolCallSegments sampleDecoder (ascii "\x7b\"tool_calls\":[]\x7d") = [] ∧
      responseContent sampleDecoder (ascii "\x7b\"tool_calls\":[]\x7d")
        = ascii "\x7b\"tool_calls\":[]\x7d" ∧
      stringsTrimSpace ((ascii "\x7b\"tool_calls\":[]\x7d").take 0
        ++ (ascii "\x7b\"tool_calls\":[]\x7d").drop 17) = []) ∧
    (parseTaggedToolCallSegments sampleDecoder
        (ascii "<f" ++ sampleEnvelope ++ ascii ">\x7b\x7d") = [] ∧
      responseContent sampleDecoder (ascii "<f" ++ sampleEnvelope ++ ascii ">\x7b\x7d") = [] ∧
      stringsTrimSpace ((ascii "<f" ++ sampleEnvelope ++ ascii ">\x7b\x7d").take 2
        ++ (ascii "<f" ++ sampleEnvelope ++ ascii ">\x7b\x7d").drop 100)
        = ascii "<f>\x7b\x7d") := by
  decide

/-! ## Identifiers returned by the resolver -/

theorem ExtractTaggedToolCalls_id_at {Obj : Type} (dec : JsonDecoder Obj) (text : List Nat)
    (k : Nat) (c : ToolCall Obj) (hk : (ExtractTaggedToolCalls dec text)[k]? = some c) :
    c.ID = ascii "call_tag_" ++ decimal (k + 1) := by
  unfold ExtractTaggedToolCalls at hk
  rw [List.getElem?_map] at hk
  cases hs : (parseTaggedToolCallSpans dec text)[k]? with
  | none => rw [hs] at hk; cases hk
  | some sp =>
    rw [hs] at hk
    have : sp.call = c := by simpa using hk
    rw [← this]
    exact (parseTaggedToolCallSpans_ids dec text k sp hs).1

theorem ExtractTaggedToolCalls_ids_distinct {Obj : Type} (dec : JsonDecoder Obj)
    (text : List Nat) :
    (∀ (j k : Nat) (c1 c2 : ToolCall Obj),
      (ExtractTaggedToolCalls dec text)[j]? = some c1 →
      (ExtractTaggedToolCalls dec text)[k]? = some c2 → c1.ID = c2.ID → j = k) ∧
    (∀ c ∈ ExtractTaggedToolCalls dec text, c.ID ≠ []) := by
  constructor
  · intro j k c1 c2 hj hk hid
    rw [ExtractTaggedToolCalls_id_at dec text j c1 hj,
      ExtractTaggedToolCalls_id_at dec text k c2 hk] at hid
    have := decimal_injective _ _ (List.append_cancel_left hid)
    omega
  · intro c hc
    obtain ⟨k, hk⟩ := List.getElem?_of_mem hc
    rw [ExtractTaggedToolCalls_id_at dec text k c hk]
    intro h
    have := congrArg List.length h
    simp [ascii] at this

/-- C18 (as amended): the calls of `extractToolCalls` either come from a decoded
envelope, and then carry the `id` fields of its entries verbatim, or have pairwise
distinct, non-empty identifiers. -/
theorem extractToolCalls_ids {Obj : Type} (dec : JsonDecoder Obj) (text : List Nat) :
    (∃ start entries, stringsIndex text toolCallsMarker = some start ∧
      findMatchingBrace text start ≠ start ∧
      dec.unmarshalEnvelope (slice text start (findMatchingBrace text start)) = some entries ∧
      (extractToolCalls dec text).map (fun c => c.ID) = entries.map (fun e => e.ID)) ∨
    ((∀ (j k : Nat) (c1 c2 : ToolCall Obj),
      (extractToolCalls dec text)[j]? = some c1 →
      (extractToolCalls dec text)[k]? = some c2 → c1.ID = c2.ID → j = k) ∧
    (∀ c ∈ extractToolCalls dec text, c.ID ≠ [])) := by
  cases hidx : stringsIndex text toolCallsMarker with
  | none =>
    right
    have : extractToolCalls dec text = ExtractTaggedToolCalls dec text := by
      unfold extractToolCalls
      rw [hidx]
      exact extractTaggedToolCalls_eq dec text
    rw [this]
    exact ExtractTaggedToolCalls_ids_distinct dec text
  | some start =>
    by_cases hm : findMatchingBrace text start = start
    · right
      rw [extractToolCalls_of_unmatched dec text start hidx hm]
      exact ⟨fun j k c1 c2 hj => by simp at hj, fun c hc => by simp at hc⟩
    · cases hdec : dec.unmarshalEnvelope (slice text start (findMatchingBrace text start)) with
      | none =>
        right
        rw [extractToolCalls_of_undecodable dec text start hidx hm hdec,
          extractTaggedToolCalls_eq]
        exact ExtractTaggedToolCalls_ids_distinct dec text
      | some entries =>
        left
        refine ⟨start, entries, rfl, hm, hdec, ?_⟩
        rw [extractToolCalls_of_envelope dec text start entries hidx hm hdec, List.map_map]
        rfl

set_option maxRecDepth 100000 in
/-- C18 fails as stated: the two entries of this envelope carry no `id`, and both
calls are returned with the empty identifier. -/
theorem extractToolCalls_ids_counterexample :
    (extractToolCalls sampleDecoder sampleNoIdEnvelope).map (fun c => c.ID) = [[], []] ∧
    (extractToolCalls sampleDecoder sampleNoIdEnvelope).map (fun c => c.Name)
      = [ascii "f", ascii "g"] := by
  decide

/-! ## Several tagged calls -/

theorem renderPiece_length {Obj : Type} (p : TaggedPiece Obj) :
    (renderPiece p).length
      = p.before.length + 1 + p.name.length + 1 + p.obj.length + (p.name.length + 3) := by
  simp [renderPiece, closingTag]
  omega

theorem renderPieces_length_ge {Obj : Type} (ps : List (TaggedPiece Obj)) :
    ps.length ≤ (renderPieces ps).length := by
  induction ps with
  | nil => simp [renderPieces]
  | cons p ps ih =>
    simp only [renderPieces, List.length_cons, List.length_append, renderPiece_length]
    omega

/-- The scan of a text composed of pieces finds exactly the spans of the pieces. -/
theorem taggedScan_pieces {Obj : Type} (dec : JsonDecoder Obj) (trailer : List Nat)
    (htr : 60 ∉ trailer) (text : List Nat) :
    ∀ (ps : List (TaggedPiece Obj)) (a : List Nat) (spans : List (taggedToolCallSpan Obj))
      (fuel : Nat),
      (∀ p ∈ ps, 60 ∉ p.before) → (∀ p ∈ ps, isTagName p.name = true) →
      (∀ p ∈ ps, p.obj.head? = some 123) →
      (∀ p ∈ ps, findMatchingBrace p.obj 0 = p.obj.length) →
      (∀ p ∈ ps, dec.unmarshalMap p.obj = some (some p.args)) →
      text = a ++ (renderPieces ps ++ trailer) → ps.length ≤ fuel →
      taggedScan ptcIsTagNameStart ptcIsTagNameChar ptcIsWhitespace dec text fuel a.length spans
        = spans ++ pieceSpans a.length spans.length ps := by
  intro ps
  induction ps with
  | nil =>
    intro a spans fuel _ _ _ _ _ htext _
    rw [taggedScan_done _ _ _ _ _ _ _ _
      (by rw [drop_of_append text a _ _ htext rfl]; simpa [renderPieces] using htr)]
    simp [pieceSpans]
  | cons p ps ih =>
    intro a spans fuel h1 h2 h3 h4 h5 htext hfuel
    obtain ⟨f, rfl⟩ : ∃ f, fuel = f + 1 := ⟨fuel - 1, by simp at hfuel; omega⟩
    have hp := List.mem_cons_self p ps
    have htext2 : text = a ++ (p.before ++ (60 :: (p.name ++ (62 :: ([] ++ (p.obj
        ++ (closingTag p.name ++ (renderPieces ps ++ trailer)))))))) := by
      rw [htext]; simp [renderPieces, renderPiece]
    have hstep := taggedScan_step dec text a p.before p.name [] p.obj
      (closingTag p.name ++ (renderPieces ps ++ trailer)) (some p.args) f spans htext2
      (h1 p hp) (h2 p hp) (by simp) (h3 p hp) (h4 p hp) (h5 p hp)
    have hxl : (a ++ (p.before ++ (60 :: (p.name ++ (62 :: p.obj))))).length
        = a.length + p.before.length + 1 + p.name.length + 1 + ([] : List Nat).length
            + p.obj.length := by
      simp; omega
    have hse := spanEndAfter_closing text (a ++ (p.before ++ (60 :: (p.name ++ (62 :: p.obj)))))
      [] p.name (renderPieces ps ++ trailer) (by rw [htext2]; simp) (by simp)
    rw [hxl] at hse
    have hstop : a.length + p.before.length + 1 + p.name.length + 1 + ([] : List Nat).length
        + p.obj.length + ([] : List Nat).length + (p.name.length + 3)
        = (a ++ renderPiece p).length := by
      rw [List.length_append, renderPiece_length]; simp; omega
    rw [hstep, hse.1, hstop]
    have htext3 : text = (a ++ renderPiece p) ++ (renderPieces ps ++ trailer) := by
      rw [htext]; simp [renderPieces]
    rw [ih (a ++ renderPiece p) _ f
      (fun q hq => h1 q (List.mem_cons_of_mem _ hq))
      (fun q hq => h2 q (List.mem_cons_of_mem _ hq))
      (fun q hq => h3 q (List.mem_cons_of_mem _ hq))
      (fun q hq => h4 q (List.mem_cons_of_mem _ hq))
      (fun q hq => h5 q (List.mem_cons_of_mem _ hq)) htext3
      (by simp at hfuel; omega)]
    simp [pieceSpans, List.length_append]

/-- The spans of a text composed of pieces. -/
theorem parseTaggedToolCallSpans_pieces {Obj : Type} (dec : JsonDecoder Obj)
    (ps : List (TaggedPiece Obj)) (trailer : List Nat)
    (h1 : ∀ p ∈ ps, 60 ∉ p.before) (h2 : ∀ p ∈ ps, isTagName p.name = true)
    (h3 : ∀ p ∈ ps, p.obj.head? = some 123)
    (h4 : ∀ p ∈ ps, findMatchingBrace p.obj 0 = p.obj.length)
    (h5 : ∀ p ∈ ps, dec.unmarshalMap p.obj = some (some p.args))
    (htr : 60 ∉ trailer) :
    parseTaggedToolCallSpans dec (renderPieces ps ++ trailer) = pieceSpans 0 0 ps := by
  unfold parseTaggedToolCallSpans
  have := taggedScan_pieces dec trailer htr (renderPieces ps ++ trailer) ps [] []
    (renderPieces ps ++ trailer).length h1 h2 h3 h4 h5 (by simp)
    (by rw [List.length_append]
        exact Nat.le_trans (renderPieces_length_ge ps) (Nat.le_add_right _ _))
  simpa using this

theorem pieceSpans_calls {Obj : Type} : ∀ (ps : List (TaggedPiece Obj)) (offset count : Nat),
    (pieceSpans offset count ps).length = ps.length ∧
    (pieceSpans offset count ps).map (fun sp => sp.call.Name) = ps.map (fun p => p.name) ∧
    (pieceSpans offset count ps).map (fun sp => sp.call.Arguments)
      = ps.map (fun p => some p.args) := by
  intro ps
  induction ps with
  | nil => intro _ _; simp [pieceSpans]
  | cons p ps ih =>
    intro offset count
    obtain ⟨i1, i2, i3⟩ := ih (offset + (renderPiece p).length) (count + 1)
    simp [pieceSpans, i1, i2, i3, taggedCall]

/-- C19: several tagged calls are all collected, from left to right.  For a text made
of pieces (a text without `<`, an opening tag with a valid name, a brace-matched object
that decodes, the closing tag) followed by a text without `<`, the calls returned are
as many as the pieces, with the names and the decoded arguments of the pieces in their
order. -/
theorem ExtractTaggedToolCalls_pieces {Obj : Type} (dec : JsonDecoder Obj)
    (ps : List (TaggedPiece Obj)) (trailer : List Nat)
    (h1 : ∀ p ∈ ps, 60 ∉ p.before) (h2 : ∀ p ∈ ps, isTagName p.name = true)
    (h3 : ∀ p ∈ ps, p.obj.head? = some 123)
    (h4 : ∀ p ∈ ps, findMatchingBrace p.obj 0 = p.obj.length)
    (h5 : ∀ p ∈ ps, dec.unmarshalMap p.obj = some (some p.args))
    (htr : 60 ∉ trailer) :
    (ExtractTaggedToolCalls dec (renderPieces ps ++ trailer)).length = ps.length ∧
    (ExtractTaggedToolCalls dec (renderPieces ps ++ trailer)).map (fun c => c.Name)
      = ps.map (fun p => p.name) ∧
    (ExtractTaggedToolCalls dec (renderPieces ps ++ trailer)).map (fun c => c.Arguments)
      = ps.map (fun p => some p.args) := by
  unfold ExtractTaggedToolCalls
  rw [parseTaggedToolCallSpans_pieces dec ps trailer h1 h2 h3 h4 h5 htr]
  obtain ⟨i1, i2, i3⟩ := pieceSpans_calls ps 0 0
  refine ⟨by simpa using i1, ?_, ?_⟩
  · rw [List.map_map]; exact i2
  · rw [List.map_map]; exact i3

set_option maxRecDepth 100000 in
theorem ExtractTaggedToolCalls_pieces_witness :
    (∀ p ∈ samplePieces, 60 ∉ p.before) ∧ (∀ p ∈ samplePieces, isTagName p.name = true) ∧
    (∀ p ∈ samplePieces, p.obj.head? = some 123) ∧
    (∀ p ∈ samplePieces, findMatchingBrace p.obj 0 = p.obj.length) ∧
    (∀ p ∈ samplePieces, sampleDecoder.unmarshalMap p.obj = some (some p.args)) ∧
    60 ∉ ascii " c" ∧
    renderPieces samplePieces ++ ascii " c"
      = ascii "a <f>\x7b\x7d</f> b <append_file>" ++ sampleObject ++ ascii "</append_file> c" ∧
    ((ExtractTaggedToolCalls sampleDecoder (renderPieces samplePieces ++ ascii " c")).length
      = samplePieces.length ∧
    (ExtractTaggedToolCalls sampleDecoder (renderPieces samplePieces ++ ascii " c")).map
        (fun c => c.Name) = samplePieces.map (fun p => p.name) ∧
    (ExtractTaggedToolCalls sampleDecoder (renderPieces samplePieces ++ ascii " c")).map
        (fun c => c.Arguments) = samplePieces.map (fun p => some p.args)) :=
  ⟨by decide, by decide, by decide, by decide, by decide, by decide, by decide,
    ExtractTaggedToolCalls_pieces sampleDecoder samplePieces (ascii " c")
      (by decide) (by decide) (by decide) (by decide) (by decide) (by decide)⟩

/-! ## Stripping, then extracting again -/

theorem stringsTrimSpace_isInfix (s : List Nat) : stringsTrimSpace s <:+: s := by
  unfold stringsTrimSpace
  have h1 := trimRightSpaceRev_suffix s.length (trimLeftSpace s.length s).reverse
  have h2 : (trimRightSpaceRev s.length (trimLeftSpace s.length s).reverse).reverse
      <+: trimLeftSpace s.length s := by
    have := List.reverse_prefix.2 h1
    rwa [List.reverse_reverse] at this
  exact h2.isInfix.trans (trimLeftSpace_suffix _ _).isInfix

theorem ExtractTaggedToolCalls_of_no_tag {Obj : Type} (dec : JsonDecoder Obj)
    (text : List Nat) (h : 60 ∉ text) : ExtractTaggedToolCalls dec text = [] := by
  unfold ExtractTaggedToolCalls parseTaggedToolCallSpans
  rw [taggedScan_done _ _ _ _ _ _ _ _ (by simpa using h)]
  rfl

theorem stripLoop_pieces {Obj : Type} (trailer text : List Nat) :
    ∀ (ps : List (TaggedPiece Obj)) (a sb : List Nat) (count : Nat),
      text = a ++ (renderPieces ps ++ trailer) →
      stripLoop text (pieceSpans a.length count ps) a.length sb
        = (sb ++ (ps.map (fun p => p.before)).flatten, a.length + (renderPieces ps).length) := by
  intro ps
  induction ps with
  | nil => intro a sb count _; simp [pieceSpans, stripLoop, renderPieces]
  | cons p ps ih =>
    intro a sb count htext
    have hsl : slice text a.length (a.length + p.before.length) = p.before :=
      slice_of_append text a p.before
        (60 :: (p.name ++ (62 :: (p.obj ++ closingTag p.name))) ++ (renderPieces ps ++ trailer))
        _ _ (by rw [htext]; simp [renderPieces, renderPiece]) rfl rfl
    have hsb : (if a.length + p.before.length > a.length
        then sb ++ slice text a.length (a.length + p.before.length) else sb)
        = sb ++ p.before := by
      split_ifs with hgt
      · rw [hsl]
      · have : p.before = [] := List.length_eq_zero.1 (by omega)
        rw [this, List.append_nil]
    have htext3 : text = (a ++ renderPiece p) ++ (renderPieces ps ++ trailer) := by
      rw [htext]; simp [renderPieces]
    have hal : a.length + (renderPiece p).length = (a ++ renderPiece p).length := by simp
    simp only [pieceSpans, stripLoop]
    rw [hsb, hal, ih (a ++ renderPiece p) (sb ++ p.before) (count + 1) htext3]
    simp [renderPieces, Nat.add_assoc]

/-- Stripping a text composed of pieces leaves the texts between the pieces. -/
theorem StripTaggedToolCalls_pieces {Obj : Type} (dec : JsonDecoder Obj)
    (ps : List (TaggedPiece Obj)) (trailer : List Nat)
    (h1 : ∀ p ∈ ps, 60 ∉ p.before) (h2 : ∀ p ∈ ps, isTagName p.name = true)
    (h3 : ∀ p ∈ ps, p.obj.head? = some 123)
    (h4 : ∀ p ∈ ps, findMatchingBrace p.obj 0 = p.obj.length)
    (h5 : ∀ p ∈ ps, dec.unmarshalMap p.obj = some (some p.args))
    (htr : 60 ∉ trailer) :
    StripTaggedToolCalls dec (renderPieces ps ++ trailer)
      = stringsTrimSpace ((ps.map (fun p => p.before)).flatten ++ trailer) := by
  unfold StripTaggedToolCalls
  rw [parseTaggedToolCallSpans_pieces dec ps trailer h1 h2 h3 h4 h5 htr]
  cases ps with
  | nil => simp [pieceSpans, stripSpans, renderPieces]
  | cons p ps =>
    have hl := stripLoop_pieces trailer (renderPieces (p :: ps) ++ trailer) (p :: ps) [] [] 0
      (by simp)
    have hne : (pieceSpans 0 0 (p :: ps)).length ≠ 0 := by simp [pieceSpans]
    unfold stripSpans
    rw [if_neg hne]
    simp only []
    simp only [List.length_nil, List.nil_append, Nat.zero_add] at hl
    rw [hl]
    simp only [List.length_append]
    congr 1
    by_cases ht : trailer = []
    · subst ht; simp
    · have : 0 < trailer.length := List.length_pos.2 ht
      rw [if_pos (by omega)]
      simp


set_option maxRecDepth 100000 in
/-- C14 fails as stated: stripping the one span of this text joins the bytes around it
into a new tagged call, which a second extraction returns. -/
theorem strip_then_extract_counterexample :
    StripTaggedToolCalls sampleDecoder (ascii "<a<a>\x7b\x7d>\x7b\x7d") = ascii "<a>\x7b\x7d" ∧
    ExtractTaggedToolCalls sampleDecoder
        (StripTaggedToolCalls sampleDecoder (ascii "<a<a>\x7b\x7d>\x7b\x7d"))
      = [taggedCall 0 (ascii "a") (ascii "\x7b\x7d") (some [])] ∧
    responseToolCalls sampleDecoder
        (responseContent sampleDecoder (ascii "<a<a>\x7b\x7d>\x7b\x7d"))
      = [taggedCall 0 (ascii "a") (ascii "\x7b\x7d") (some [])] := by
  decide

/-! ## Stability of a found match -/

theorem findMatchingBraceFrom_append (pos : Nat) (extra : List Nat) (rest : List Nat) :
    ∀ (i : Nat) (d : Int) (s e : Bool),
      findMatchingBraceFrom pos rest i d s e ≠ pos →
      findMatchingBraceFrom pos (rest ++ extra) i d s e
        = findMatchingBraceFrom pos rest i d s e := by
  induction rest with
  | nil => intro i d s e h; exact absurd (by simp [findMatchingBraceFrom]) h
  | cons ch rest ih =>
    intro i d s e h
    rw [List.cons_append, findMatchingBraceFrom_cons, findMatchingBraceFrom_cons]
    rw [findMatchingBraceFrom_cons] at h
    split_ifs with hc
    · rfl
    · rw [if_neg hc] at h
      exact ih _ _ _ _ h

theorem findMatchingBraceFrom_le (pos : Nat) (rest : List Nat) :
    ∀ (i : Nat) (d : Int) (s e : Bool), pos ≤ i + rest.length →
      findMatchingBraceFrom pos rest i d s e ≤ i + rest.length := by
  induction rest with
  | nil => intro i d s e h; simpa [findMatchingBraceFrom] using h
  | cons ch rest ih =>
    intro i d s e h
    rw [findMatchingBraceFrom_cons]
    rw [List.length_cons] at h ⊢
    split_ifs
    · omega
    · have := ih (i + 1) (depthStep d (s, e) ch) (quoteStep (s, e) ch).1
        (quoteStep (s, e) ch).2 (by omega)
      omega

theorem findMatchingBrace_le (text : List Nat) (pos : Nat) (h : pos ≤ text.length) :
    findMatchingBrace text pos ≤ text.length := by
  unfold findMatchingBrace
  have := findMatchingBraceFrom_le pos (text.drop pos) pos 0 false false (by omega)
  rw [List.length_drop] at this
  omega

/-- C30 (as amended): a found match depends only on the text up to the match.  When
`findMatchingBrace(text, pos)` is `r` with `r != pos`, appending any text leaves the
result `r`; and for `pos <= len(text)` the result lies between `pos` and
`len(text)`. -/
theorem findMatchingBrace_prefix_stable (text extra : List Nat) (pos r : Nat)
    (h0 : text[pos]? = some 123) (hr : findMatchingBrace text pos = r) (hne : r ≠ pos) :
    findMatchingBrace (text ++ extra) pos = r ∧
    (∀ (t : List Nat) (p : Nat), p ≤ t.length →
      p ≤ findMatchingBrace t p ∧ findMatchingBrace t p ≤ t.length) := by
  refine ⟨?_, fun t p hp => ⟨findMatchingBrace_ge t p, findMatchingBrace_le t p hp⟩⟩
  have hlt : pos < text.length := by
    rcases Nat.lt_or_ge pos text.length with h | h
    · exact h
    · rw [List.getElem?_eq_none h] at h0; cases h0
  unfold findMatchingBrace at hr ⊢
  rw [List.drop_append_of_le_length (Nat.le_of_lt hlt),
    findMatchingBraceFrom_append pos extra _ _ _ _ _ (by rw [hr]; exact hne), hr]

theorem findMatchingBrace_prefix_stable_witness :
    (ascii "\x7b\x7d")[0]? = some 123 ∧ findMatchingBrace (ascii "\x7b\x7d") 0 = 2 ∧ 2 ≠ 0 ∧
    (findMatchingBrace (ascii "\x7b\x7d" ++ ascii "\x7d x") 0 = 2 ∧
    (∀ (t : List Nat) (p : Nat), p ≤ t.length →
      p ≤ findMatchingBrace t p ∧ findMatchingBrace t p ≤ t.length)) :=
  ⟨by decide, by decide, by decide,
    findMatchingBrace_prefix_stable (ascii "\x7b\x7d") (ascii "\x7d x") 0 2
      (by decide) (by decide) (by decide)⟩

/-- C30 fails as stated: past the end of the text the result is `pos`, which is
greater than `len(text)`. -/
theorem findMatchingBrace_bounds_counterexample :
    findMatchingBrace (ascii "a") 2 = 2 ∧ ¬ (findMatchingBrace (ascii "a") 2 ≤ (ascii "a").length) := by
  decide

/-! ## Bounds of the spans -/

theorem advanceWhile_le (p : Nat → Bool) (l : List Nat) : ∀ k,
    advanceWhile p l k ≤ k + l.length := by
  induction l with
  | nil => intro k; simp [advanceWhile]
  | cons b l ih =>
    intro k
    rw [advanceWhile, List.length_cons]
    split_ifs
    · have := ih (k + 1); omega
    · omega

theorem advanceWhile_drop_le (p : Nat → Bool) (text : List Nat) (k : Nat)
    (hk : k ≤ text.length) : advanceWhile p (text.drop k) k ≤ text.length := by
  have := advanceWhile_le p (text.drop k) k
  rw [List.length_drop] at this
  omega

theorem spanEndAfter_le (isWs : Nat → Bool) (text name : List Nat) (jsonEnd : Nat)
    (h : jsonEnd ≤ text.length) : spanEndAfter isWs text name jsonEnd ≤ text.length := by
  unfold spanEndAfter
  simp only []
  split_ifs with hp
  · have hpre := (stringsHasPrefix_iff _ _).1 hp
    have hlen := hpre.length_le
    rw [List.length_drop] at hlen
    have hpos : 0 < (closingTag name).length := by simp [closingTag]
    omega
  · exact h

/-- An accepted candidate yields a non-empty span inside the text that starts at the
candidate. -/
theorem tagCandidate_bounds {Obj : Type} (isStart isChar isWs : Nat → Bool)
    (dec : JsonDecoder Obj) (text : List Nat) (count start : Nat)
    (sp : taggedToolCallSpan Obj)
    (h : tagCandidate isStart isChar isWs dec text count start = some sp) :
    sp.start = start ∧ start < sp.stop ∧ sp.stop ≤ text.length := by
  obtain ⟨nameEnd, jsonStart, jsonEnd, args, -, -, hne, hnlt, -, hjs, hjlt, -,
    hje, hjne, -, hsp⟩ := tagCandidate_facts _ _ _ dec text count start sp h
  have h1 : start + 1 ≤ nameEnd := by rw [hne]; exact advanceWhile_ge _ _ _
  have h2 : nameEnd + 1 ≤ jsonStart := by rw [hjs]; exact advanceWhile_ge _ _ _
  have h3 : jsonStart ≤ jsonEnd := by rw [hje]; exact findMatchingBrace_ge _ _
  have h4 : jsonEnd ≤ text.length := by
    rw [hje]; exact findMatchingBrace_le _ _ (Nat.le_of_lt hjlt)
  have h5 := spanEndAfter_ge isWs text (slice text (start + 1) nameEnd) jsonEnd
  have h6 := spanEndAfter_le isWs text (slice text (start + 1) nameEnd) jsonEnd h4
  rw [hsp]
  refine ⟨rfl, ?_, h6⟩
  show start < spanEndAfter isWs text (slice text (start + 1) nameEnd) jsonEnd
  omega

/-- The spans of a text are non-empty, inside the text, and each ends before the
next one starts. -/
theorem parseTaggedToolCallSpans_bounds {Obj : Type} (dec : JsonDecoder Obj)
    (text : List Nat) :
    (∀ sp ∈ parseTaggedToolCallSpans dec text, sp.start < sp.stop ∧ sp.stop ≤ text.length) ∧
    List.Pairwise (fun a b : taggedToolCallSpan Obj => a.stop ≤ b.start)
      (parseTaggedToolCallSpans dec text) := by
  have h := taggedScan_induction ptcIsTagNameStart ptcIsTagNameChar ptcIsWhitespace dec text
    (fun i spans =>
      (∀ sp ∈ spans, sp.start < sp.stop ∧ sp.stop ≤ text.length ∧ sp.stop ≤ i) ∧
      List.Pairwise (fun a b : taggedToolCallSpan Obj => a.stop ≤ b.start) spans)
    (fun i j spans hinv hij =>
      ⟨fun sp hsp => ⟨(hinv.1 sp hsp).1, (hinv.1 sp hsp).2.1,
        Nat.le_trans (hinv.1 sp hsp).2.2 hij⟩, hinv.2⟩)
    (by
      intro i spans start sp hinv his _ _ hc
      obtain ⟨hb1, hb2, hb3⟩ := tagCandidate_bounds _ _ _ dec text _ _ sp hc
      constructor
      · intro sp2 hmem
        rcases List.mem_append.1 hmem with hold | hnew
        · have := hinv.1 sp2 hold
          exact ⟨this.1, this.2.1, by omega⟩
        · have hsp2 : sp2 = sp := by simpa using hnew
          subst hsp2
          exact ⟨by omega, hb3, Nat.le_refl _⟩
      · rw [List.pairwise_append]
        refine ⟨hinv.2, List.pairwise_singleton _ _, ?_⟩
        intro a ha b hb
        have hb2 : b = sp := by simpa using hb
        subst hb2
        have := (hinv.1 a ha).2.2
        omega)
    text.length 0 [] ⟨by intro sp hsp; simp at hsp, List.Pairwise.nil⟩
  obtain ⟨_, hj⟩ := h
  exact ⟨fun sp hsp => ⟨(hj.1 sp hsp).1, (hj.1 sp hsp).2.1⟩, hj.2⟩

theorem slice_length_le (text : List Nat) (a b : Nat) : (slice text a b).length ≤ b - a := by
  unfold slice
  rw [List.length_take]
  exact Nat.min_le_left _ _

/-- The loop of `StripTaggedToolCalls` over well-formed spans never writes more bytes
than it has passed. -/
theorem stripLoop_length {Obj : Type} (text : List Nat) :
    ∀ (spans : List (taggedToolCallSpan Obj)) (last : Nat) (sb : List Nat),
      sb.length ≤ last → last ≤ text.length →
      (∀ sp ∈ spans, sp.start < sp.stop ∧ sp.stop ≤ text.length ∧ last ≤ sp.start) →
      List.Pairwise (fun a b : taggedToolCallSpan Obj => a.stop ≤ b.start) spans →
      (stripLoop text spans last sb).1.length ≤ (stripLoop text spans last sb).2 ∧
      (stripLoop text spans last sb).2 ≤ text.length := by
  intro spans
  induction spans with
  | nil => intro last sb h1 h2 _ _; exact ⟨h1, h2⟩
  | cons sp rest ih =>
    intro last sb h1 h2 hall hpw
    rw [stripLoop]
    have hsp := hall sp (List.mem_cons_self _ _)
    rw [List.pairwise_cons] at hpw
    apply ih
    · split_ifs
      · rw [List.length_append]
        have := slice_length_le text last sp.start
        omega
      · omega
    · exact hsp.2.1
    · intro b hb
      have := hall b (List.mem_cons_of_mem _ hb)
      exact ⟨this.1, this.2.1, hpw.1 b hb⟩
    · exact hpw.2

theorem stringsTrimSpace_length_le (s : List Nat) : (stringsTrimSpace s).length ≤ s.length :=
  (stringsTrimSpace_isInfix s).length_le

theorem StripTaggedToolCalls_length_le {Obj : Type} (dec : JsonDecoder Obj)
    (text : List Nat) : (StripTaggedToolCalls dec text).length ≤ text.length := by
  unfold StripTaggedToolCalls stripSpans
  obtain ⟨hb, hpw⟩ := parseTaggedToolCallSpans_bounds dec text
  split_ifs with h0
  · exact stringsTrimSpace_length_le _
  · have hl := stripLoop_length text (parseTaggedToolCallSpans dec text) 0 []
      (by simp) (Nat.zero_le _)
      (fun sp hsp => ⟨(hb sp hsp).1, (hb sp hsp).2, Nat.zero_le _⟩) hpw
    refine Nat.le_trans (stringsTrimSpace_length_le _) ?_
    split_ifs
    · rw [List.length_append, List.length_drop]
      omega
    · omega

/-- Every span returned is an accepted candidate at a `<` of the text. -/
theorem parseTaggedToolCallSpans_candidates {Obj : Type} (dec : JsonDecoder Obj)
    (text : List Nat) :
    ∀ sp ∈ parseTaggedToolCallSpans dec text, ∃ count,
      sp.start + 1 < text.length ∧ text[sp.start]? = some 60 ∧
      tagCandidate ptcIsTagNameStart ptcIsTagNameChar ptcIsWhitespace dec text count sp.start
        = some sp := by
  have h := taggedScan_induction ptcIsTagNameStart ptcIsTagNameChar ptcIsWhitespace dec text
    (fun _ spans => ∀ sp ∈ spans, ∃ count,
      sp.start + 1 < text.length ∧ text[sp.start]? = some 60 ∧
      tagCandidate ptcIsTagNameStart ptcIsTagNameChar ptcIsWhitespace dec text count sp.start
        = some sp)
    (fun _ _ _ hinv _ => hinv)
    (by
      intro i spans start sp hinv _ hlt h60 hc sp2 hmem
      rcases List.mem_append.1 hmem with hold | hnew
      · exact hinv sp2 hold
      · have hsp2 : sp2 = sp := by simpa using hnew
        subst hsp2
        have hs := (tagCandidate_bounds _ _ _ dec text _ _ sp2 hc).1
        rw [hs]
        exact ⟨spans.length, hlt, h60, hc⟩)
    text.length 0 [] (by intro sp hsp; simp at hsp)
  obtain ⟨_, hj⟩ := h
  exact hj

/-- C28: the spans returned by `parseTaggedToolCallSpans` are well-formed.  Each span
has `start < end <= len(text)`; a span ends before every later span starts; the name
and the raw arguments of a span are the slices `text[start+1:nameEnd]` and
`text[jsonStart:jsonEnd]` with `start + 1 <= nameEnd < jsonStart < jsonEnd <= end`;
the index loops and the brace matcher started inside the text stay inside it; the
cursor `last` of `StripTaggedToolCalls` ends inside the text, and the stripped output
is never longer than the input. -/
theorem parseTaggedToolCallSpans_wellformed {Obj : Type} (dec : JsonDecoder Obj)
    (text : List Nat) :
    (∀ sp ∈ parseTaggedToolCallSpans dec text, sp.start < sp.stop ∧ sp.stop ≤ text.length) ∧
    (∀ (j k : Nat) (a b : taggedToolCallSpan Obj), j < k →
      (parseTaggedToolCallSpans dec text)[j]? = some a →
      (parseTaggedToolCallSpans dec text)[k]? = some b → a.stop ≤ b.start) ∧
    (∀ sp ∈ parseTaggedToolCallSpans dec text, ∃ nameEnd jsonStart jsonEnd,
      sp.start + 1 ≤ nameEnd ∧ nameEnd < jsonStart ∧ jsonStart < jsonEnd ∧
      jsonEnd ≤ sp.stop ∧ sp.call.Name = slice text (sp.start + 1) nameEnd ∧
      sp.call.Function
        = some { Name := sp.call.Name, Arguments := slice text jsonStart jsonEnd }) ∧
    (∀ (p : Nat → Bool) (k : Nat), k ≤ text.length →
      k ≤ advanceWhile p (text.drop k) k ∧ advanceWhile p (text.drop k) k ≤ text.length) ∧
    (∀ pos, pos ≤ text.length →
      pos ≤ findMatchingBrace text pos ∧ findMatchingBrace text pos ≤ text.length) ∧
    (stripLoop text (parseTaggedToolCallSpans dec text) 0 []).2 ≤ text.length ∧
    (StripTaggedToolCalls dec text).length ≤ text.length := by
  obtain ⟨hb, hpw⟩ := parseTaggedToolCallSpans_bounds dec text
  refine ⟨hb, ?_, ?_, ?_, ?_, ?_, StripTaggedToolCalls_length_le dec text⟩
  · intro j k a b hjk ha hb2
    rw [List.pairwise_iff_getElem] at hpw
    obtain ⟨hj, hja⟩ := List.getElem?_eq_some_iff.1 ha
    obtain ⟨hk, hkb⟩ := List.getElem?_eq_some_iff.1 hb2
    have := hpw j k hj hk hjk
    rwa [hja, hkb] at this
  · intro sp hsp
    obtain ⟨count, _, _, hc⟩ := parseTaggedToolCallSpans_candidates dec text sp hsp
    obtain ⟨nameEnd, jsonStart, jsonEnd, args, -, -, hne, hnlt, -, hjs, hjlt, -,
      hje, hjne, -, hsp2⟩ := tagCandidate_facts _ _ _ dec text count sp.start sp hc
    have h1 : sp.start + 1 ≤ nameEnd := by rw [hne]; exact advanceWhile_ge _ _ _
    have h2 : nameEnd + 1 ≤ jsonStart := by rw [hjs]; exact advanceWhile_ge _ _ _
    have h3 : jsonStart ≤ jsonEnd := by rw [hje]; exact findMatchingBrace_ge _ _
    have h5 := spanEndAfter_ge ptcIsWhitespace text (slice text (sp.start + 1) nameEnd) jsonEnd
    have hstop : sp.stop
        = spanEndAfter ptcIsWhitespace text (slice text (sp.start + 1) nameEnd) jsonEnd := by
      conv_lhs => rw [hsp2]
    have hname : sp.call.Name = slice text (sp.start + 1) nameEnd := by
      conv_lhs => rw [hsp2]
      rfl
    have hfun : sp.call.Function
        = some { Name := slice text (sp.start + 1) nameEnd,
                 Arguments := slice text jsonStart jsonEnd } := by
      conv_lhs => rw [hsp2]
      rfl
    refine ⟨nameEnd, jsonStart, jsonEnd, h1, by omega, by omega, by omega, hname, ?_⟩
    rw [hfun, hname]
  · intro p k hk
    exact ⟨advanceWhile_ge _ _ _, advanceWhile_drop_le p text k hk⟩
  · intro pos hpos
    exact ⟨findMatchingBrace_ge _ _, findMatchingBrace_le _ _ hpos⟩
  · exact (stripLoop_length text (parseTaggedToolCallSpans dec text) 0 []
      (by simp) (Nat.zero_le _)
      (fun sp hsp => ⟨(hb sp hsp).1, (hb sp hsp).2, Nat.zero_le _⟩) hpw).2

/-! ## Termination of the scan -/

theorem taggedScan_scanStep {Obj : Type} (dec : JsonDecoder Obj) (text : List Nat)
    (fuel i : Nat) (spans : List (taggedToolCallSpan Obj)) :
    taggedScan ptcIsTagNameStart ptcIsTagNameChar ptcIsWhitespace dec text (fuel + 1) i spans
      = match scanStep dec text i spans with
        | none => spans
        | some next =>
          taggedScan ptcIsTagNameStart ptcIsTagNameChar ptcIsWhitespace dec text fuel
            next.1 next.2 := by
  rw [taggedScan_unfold]
  unfold scanStep
  split_ifs with h1
  · cases hrel : stringsIndexByte (text.drop i) 60 with
    | none => rfl
    | some rel =>
      simp only []
      split_ifs with h2
      · rfl
      · cases hc : tagCandidate ptcIsTagNameStart ptcIsTagNameChar ptcIsWhitespace dec text
          spans.length (i + rel) <;> rfl
  · rfl

/-- An iteration that stays in the loop moves the cursor forward: past a rejected
candidate, or to the end of the span of an accepted one. -/
theorem scanStep_progress {Obj : Type} (dec : JsonDecoder Obj) (text : List Nat) (i j : Nat)
    (spans spans2 : List (taggedToolCallSpan Obj))
    (h : scanStep dec text i spans = some (j, spans2)) :
    ∃ start, i ≤ start ∧ start + 1 < text.length ∧ j ≤ text.length ∧
      ((j = start + 1 ∧ spans2 = spans) ∨
        ∃ sp, spans2 = spans ++ [sp] ∧ sp.start = start ∧ j = sp.stop ∧ start < sp.stop) := by
  unfold scanStep at h
  split_ifs at h with h1
  cases hrel : stringsIndexByte (text.drop i) 60 with
  | none => rw [hrel] at h; cases h
  | some rel =>
    rw [hrel] at h
    simp only [] at h
    split_ifs at h with h2
    cases hc : tagCandidate ptcIsTagNameStart ptcIsTagNameChar ptcIsWhitespace dec text
        spans.length (i + rel) with
    | none =>
      rw [hc] at h
      simp only [Option.some.injEq, Prod.mk.injEq] at h
      exact ⟨i + rel, by omega, by omega, by omega, Or.inl ⟨h.1.symm, h.2.symm⟩⟩
    | some sp =>
      rw [hc] at h
      simp only [Option.some.injEq, Prod.mk.injEq] at h
      obtain ⟨hb1, hb2, hb3⟩ := tagCandidate_bounds _ _ _ dec text _ _ sp hc
      exact ⟨i + rel, by omega, by omega, by rw [← h.1]; exact hb3,
        Or.inr ⟨sp, h.2.symm, hb1, h.1.symm, hb2⟩⟩

/-- With fuel for the bytes left, the scan leaves the loop after some number `k` of
iterations, and returns the spans found until then. -/
theorem taggedScan_exits {Obj : Type} (dec : JsonDecoder Obj) (text : List Nat) :
    ∀ (fuel i : Nat) (spans : List (taggedToolCallSpan Obj)), text.length ≤ i + fuel →
      ∃ k j out, scanSteps dec text k i spans = some (j, out) ∧
        scanStep dec text j out = none ∧ i + k ≤ j ∧ (i ≤ text.length → j ≤ text.length) ∧
        taggedScan ptcIsTagNameStart ptcIsTagNameChar ptcIsWhitespace dec text fuel i spans
          = out := by
  intro fuel
  induction fuel with
  | zero =>
    intro i spans h
    refine ⟨0, i, spans, rfl, ?_, by omega, fun h => h, by rw [taggedScan]⟩
    unfold scanStep
    rw [if_neg (by omega)]
  | succ fuel ih =>
    intro i spans h
    rw [taggedScan_scanStep]
    cases hs : scanStep dec text i spans with
    | none => exact ⟨0, i, spans, rfl, hs, by omega, fun h => h, rfl⟩
    | some next =>
      obtain ⟨j, spans2⟩ := next
      obtain ⟨start, h1, h2, h3, _⟩ := scanStep_progress dec text i j spans spans2 hs
      have hij : i < j := by
        rename_i hcase
        rcases hcase with ⟨hj, _⟩ | ⟨sp, _, hst, hj, hlt⟩ <;> omega
      obtain ⟨k, j2, out, e1, e2, e3, e4, e5⟩ := ih j spans2 (by omega)
      refine ⟨k + 1, j2, out, ?_, e2, by omega, fun _ => e4 h3, e5⟩
      rw [scanSteps, hs]
      exact e1

/-- C29: `parseTaggedToolCallSpans` terminates on every input.  An iteration that stays
in the loop moves the cursor `i` strictly forward, to `start + 1` after a rejected
candidate at `start >= i` or to the end of the span, greater than `start`, after a
match, and never past `len(text)`; so the loop is left after `k` such iterations,
the last cursor being at least `k`, its body has run at most `len(text)` times, and
the spans found until then are the result, whatever fuel beyond `len(text)` the scan
is given. -/
theorem parseTaggedToolCallSpans_terminates {Obj : Type} (dec : JsonDecoder Obj)
    (text : List Nat) :
    (∀ (i j : Nat) (spans spans2 : List (taggedToolCallSpan Obj)),
      scanStep dec text i spans = some (j, spans2) →
      i < j ∧ j ≤ text.length ∧
      ∃ start, i ≤ start ∧
        ((j = start + 1 ∧ spans2 = spans) ∨
          ∃ sp, spans2 = spans ++ [sp] ∧ sp.start = start ∧ j = sp.stop ∧ start < sp.stop)) ∧
    (∃ k j out, scanSteps dec text k 0 [] = some (j, out) ∧
      scanStep dec text j out = none ∧
      k + (if j < text.length then 1 else 0) ≤ text.length ∧
      parseTaggedToolCallSpans dec text = out) ∧
    (∀ extra, taggedScan ptcIsTagNameStart ptcIsTagNameChar ptcIsWhitespace dec text
        (text.length + extra) 0 [] = parseTaggedToolCallSpans dec text) := by
  refine ⟨?_, ?_, fun extra => parseTaggedToolCallSpans_fuel dec text extra⟩
  · intro i j spans spans2 h
    obtain ⟨start, h1, h2, h3, hcase⟩ := scanStep_progress dec text i j spans spans2 h
    refine ⟨?_, h3, start, h1, hcase⟩
    rcases hcase with ⟨hj, _⟩ | ⟨sp, _, hst, hj, hlt⟩ <;> omega
  · obtain ⟨k, j, out, e1, e2, e3, e4, e5⟩ :=
      taggedScan_exits dec text text.length 0 [] (by omega)
    refine ⟨k, j, out, e1, e2, ?_, e5⟩
    have := e4 (Nat.zero_le _)
    split_ifs <;> omega

/-! ## Agreement of the two tagged parsers -/

/-- C27: the two implementations of the tagged parser agree.  For every text the
method `parseTaggedToolCallSegments` and the package-level `parseTaggedToolCallSpans`
return the same sequence of (start, end, call), from every cursor of their loops; hence
`extractTaggedToolCalls` equals `ExtractTaggedToolCalls` and `stripTaggedToolCalls`
equals `StripTaggedToolCalls` on every input. -/
theorem tagged_parsers_agree {Obj : Type} (dec : JsonDecoder Obj) (text : List Nat) :
    parseTaggedToolCallSegments dec text = parseTaggedToolCallSpans dec text ∧
    (∀ (fuel i : Nat) (spans : List (taggedToolCallSpan Obj)),
      segmentScan dec text fuel i spans
        = taggedScan ptcIsTagNameStart ptcIsTagNameChar ptcIsWhitespace dec text fuel i spans) ∧
    extractTaggedToolCalls dec text = ExtractTaggedToolCalls dec text ∧
    stripTaggedToolCalls dec text = StripTaggedToolCalls dec text := by
  refine ⟨?_, segmentScan_eq_taggedScan dec text, ?_, ?_⟩
  · exact parseTaggedToolCallSegments_eq_spans dec text
  · exact extractTaggedToolCalls_eq dec text
  · exact stripTaggedToolCalls_eq dec text

/-! ## Raw and parsed arguments -/

/-- The raw arguments of a span are the brace-matched slice that starts at the first
byte after the tag that is not white space, and the parsed arguments are their
decoding. -/
theorem parseTaggedToolCallSpans_arguments {Obj : Type} (dec : JsonDecoder Obj)
    (text : List Nat) :
    ∀ sp ∈ parseTaggedToolCallSpans dec text, ∃ nameEnd jsonStart,
      nameEnd = advanceWhile ptcIsTagNameChar (text.drop (sp.start + 1)) (sp.start + 1) ∧
      text[nameEnd]? = some 62 ∧
      jsonStart = advanceWhile ptcIsWhitespace (text.drop (nameEnd + 1)) (nameEnd + 1) ∧
      text[jsonStart]? = some 123 ∧
      findMatchingBrace text jsonStart ≠ jsonStart ∧
      sp.call.Name = slice text (sp.start + 1) nameEnd ∧
      sp.call.Function
        = some { Name := sp.call.Name,
                 Arguments := slice text jsonStart (findMatchingBrace text jsonStart) } ∧
      dec.unmarshalMap (slice text jsonStart (findMatchingBrace text jsonStart))
        = some sp.call.Arguments := by
  intro sp hsp
  obtain ⟨count, _, _, hc⟩ := parseTaggedToolCallSpans_candidates dec text sp hsp
  obtain ⟨nameEnd, jsonStart, jsonEnd, args, -, -, hne, hnlt, hn62, hjs, hjlt, hj123,
    hje, hjne, hdec, hsp2⟩ := tagCandidate_facts _ _ _ dec text count sp.start sp hc
  have hname : sp.call.Name = slice text (sp.start + 1) nameEnd := by
    conv_lhs => rw [hsp2]
    rfl
  have hfun : sp.call.Function
      = some { Name := slice text (sp.start + 1) nameEnd,
               Arguments := slice text jsonStart jsonEnd } := by
    conv_lhs => rw [hsp2]
    rfl
  have hargs : sp.call.Arguments = args := by
    conv_lhs => rw [hsp2]
    rfl
  refine ⟨nameEnd, jsonStart, hne, ?_, hjs, ?_, ?_, hname, ?_, ?_⟩
  · rw [List.getElem?_eq_getElem hnlt, ← hn62, List.getD_eq_getElem _ _ hnlt]
  · rw [List.getElem?_eq_getElem hjlt, ← hj123, List.getD_eq_getElem _ _ hjlt]
  · rw [← hje]; exact hjne
  · rw [hfun, hname, hje]
  · rw [← hje, hargs]; exact hdec

/-- C21: raw and parsed arguments stay consistent.  Every call returned by
`extractToolCalls` or by `ExtractTaggedToolCalls` carries a `Function` whose name is
the call's `Name`; its `Arguments` are the decoding of `Function.Arguments` as a JSON
object when that decoding succeeds, and nil when it fails.  For a tagged call
`Function.Arguments` is the slice `text[jsonStart:findMatchingBrace(text, jsonStart)]`,
`jsonStart` being the index of the opening brace that follows the tag and its white
space, and its decoding succeeds. -/
theorem arguments_consistent {Obj : Type} (dec : JsonDecoder Obj) (text : List Nat) :
    (∀ c ∈ extractToolCalls dec text, ∃ fn, c.Function = some fn ∧ c.Name = fn.Name ∧
      (∀ r, dec.unmarshalMap fn.Arguments = some r → c.Arguments = r) ∧
      (dec.unmarshalMap fn.Arguments = none → c.Arguments = none)) ∧
    (∀ c ∈ ExtractTaggedToolCalls dec text, ∃ fn, c.Function = some fn ∧ c.Name = fn.Name ∧
      (∀ r, dec.unmarshalMap fn.Arguments = some r → c.Arguments = r) ∧
      (dec.unmarshalMap fn.Arguments = none → c.Arguments = none)) ∧
    (∀ sp ∈ parseTaggedToolCallSpans dec text, ∃ nameEnd jsonStart,
      nameEnd = advanceWhile ptcIsTagNameChar (text.drop (sp.start + 1)) (sp.start + 1) ∧
      text[nameEnd]? = some 62 ∧
      jsonStart = advanceWhile ptcIsWhitespace (text.drop (nameEnd + 1)) (nameEnd + 1) ∧
      text[jsonStart]? = some 123 ∧
      findMatchingBrace text jsonStart ≠ jsonStart ∧
      sp.call.Name = slice text (sp.start + 1) nameEnd ∧
      sp.call.Function
        = some { Name := sp.call.Name,
                 Arguments := slice text jsonStart (findMatchingBrace text jsonStart) } ∧
      dec.unmarshalMap (slice text jsonStart (findMatchingBrace text jsonStart))
        = some sp.call.Arguments) := by
  have htag : ∀ c ∈ ExtractTaggedToolCalls dec text, ∃ fn, c.Function = some fn ∧
      c.Name = fn.Name ∧
      (∀ r, dec.unmarshalMap fn.Arguments = some r → c.Arguments = r) ∧
      (dec.unmarshalMap fn.Arguments = none → c.Arguments = none) := by
    intro c hc
    unfold ExtractTaggedToolCalls at hc
    obtain ⟨sp, hsp, rfl⟩ := List.mem_map.1 hc
    obtain ⟨nameEnd, jsonStart, -, -, -, -, -, -, hfun, hdec⟩ :=
      parseTaggedToolCallSpans_arguments dec text sp hsp
    refine ⟨_, hfun, rfl, ?_, ?_⟩
    · intro r hr
      rw [hdec] at hr
      exact Option.some.inj hr
    · intro hnone
      rw [hdec] at hnone
      cases hnone
  refine ⟨?_, htag, parseTaggedToolCallSpans_arguments dec text⟩
  intro c hc
  unfold extractToolCalls at hc
  cases hidx : stringsIndex text toolCallsMarker with
  | none =>
    rw [hidx] at hc
    simp only [] at hc
    rw [extractTaggedToolCalls_eq] at hc
    exact htag c hc
  | some start =>
    rw [hidx] at hc
    simp only [] at hc
    split_ifs at hc with hstop
    · simp at hc
    · cases hdec : dec.unmarshalEnvelope (slice text start (findMatchingBrace text start)) with
      | none =>
        rw [hdec] at hc
        simp only [] at hc
        rw [extractTaggedToolCalls_eq] at hc
        exact htag c hc
      | some calls =>
        rw [hdec] at hc
        simp only [] at hc
        obtain ⟨tc, _, rfl⟩ := List.mem_map.1 hc
        refine ⟨{ Name := tc.Name, Arguments := tc.Arguments }, rfl, rfl, ?_, ?_⟩
        · intro r hr
          simp only [envelopeToolCall]
          rw [hr]
          rfl
        · intro hnone
          simp only [envelopeToolCall]
          rw [hnone]
          rfl

/-! ## Prompt construction -/

theorem promptParts_eq (messages : List Message) : ∀ parts : List (List Nat),
    promptParts messages parts = parts ++ (messages.map promptPart).flatten := by
  induction messages with
  | nil => intro parts; simp [promptParts]
  | cons msg rest ih =>
    intro parts
    rw [promptParts, ih]
    simp [List.append_assoc]

theorem promptParts_filter (messages : List Message) :
    promptParts (messages.filter (fun m => decide (m.Role ≠ ascii "system"))) []
      = promptParts messages [] := by
  rw [promptParts_eq, promptParts_eq]
  congr 1
  induction messages with
  | nil => rfl
  | cons msg rest ih =>
    by_cases h : msg.Role = ascii "system"
    · rw [List.filter_cons_of_neg (by simpa using h), ih, List.map_cons, List.flatten_cons]
      simp [promptPart, h]
    · rw [List.filter_cons_of_pos (by simpa using h), List.map_cons, List.flatten_cons,
        List.map_cons, List.flatten_cons, ih]

theorem stringsHasPrefix_append (p s : List Nat) : stringsHasPrefix (p ++ s) p = true := by
  rw [stringsHasPrefix_iff]
  exact List.prefix_append p s

/-- C24: when the messages other than those of role `system` are exactly one message
of role `user`, `messagesToPrompt` returns the content of that message verbatim,
without the `User: ` prefix; and the prompt of every message list is the prompt of the
list without its `system` messages, so two lists that differ only in their `system`
messages have the same prompt. -/
theorem messagesToPrompt_single_user (messages : List Message) (m : Message)
    (hone : messages.filter (fun x => decide (x.Role ≠ ascii "system")) = [m])
    (huser : m.Role = ascii "user") :
    messagesToPrompt messages = m.Content ∧
    (∀ ms : List Message,
      messagesToPrompt (ms.filter (fun x => decide (x.Role ≠ ascii "system")))
        = messagesToPrompt ms) ∧
    (∀ ms ms2 : List Message,
      ms.filter (fun x => decide (x.Role ≠ ascii "system"))
        = ms2.filter (fun x => decide (x.Role ≠ ascii "system")) →
      messagesToPrompt ms = messagesToPrompt ms2) := by
  have hfilter : ∀ ms : List Message,
      messagesToPrompt (ms.filter (fun x => decide (x.Role ≠ ascii "system")))
        = messagesToPrompt ms := by
    intro ms
    unfold messagesToPrompt
    rw [promptParts_filter]
  refine ⟨?_, hfilter, ?_⟩
  · rw [← hfilter messages, hone]
    have hparts : promptParts [m] [] = [ascii "User: " ++ m.Content] := by
      have hne : ¬ (ascii "user" = ascii "system") := by decide
      simp [promptParts, promptPart, huser, hne]
    unfold messagesToPrompt
    simp only [hparts, List.length_singleton, List.headD_cons, true_and]
    rw [if_pos (stringsHasPrefix_append _ _)]
    unfold stringsTrimPrefix
    rw [if_pos (stringsHasPrefix_append _ _), List.drop_left]
  · intro ms ms2 h
    rw [← hfilter ms, ← hfilter ms2, h]

theorem messagesToPrompt_single_user_witness :
    [({ Role := ascii "system", Content := ascii "be brief", ToolCallID := [] } : Message),
      { Role := ascii "user", Content := ascii "User: hi", ToolCallID := [] }].filter
        (fun x => decide (x.Role ≠ ascii "system"))
      = [{ Role := ascii "user", Content := ascii "User: hi", ToolCallID := [] }] ∧
    messagesToPrompt
      [{ Role := ascii "system", Content := ascii "be brief", ToolCallID := [] },
       { Role := ascii "user", Content := ascii "User: hi", ToolCallID := [] }]
      = ascii "User: hi" :=
  ⟨by decide,
    (messagesToPrompt_single_user
      [{ Role := ascii "system", Content := ascii "be brief", ToolCallID := [] },
       { Role := ascii "user", Content := ascii "User: hi", ToolCallID := [] }]
      { Role := ascii "user", Content := ascii "User: hi", ToolCallID := [] }
      (by decide) (by decide)).1⟩

/-! ## arXiv search: the result count -/

/-- C25 at its failing input: for `max_results = 0.5` the guard `mr > 0` holds and
`int(0.5)` is `0`, so the count printed into the query is `0`, below the minimum `1`
of the parameter schema.  Elsewhere the claim holds: the count is `5` when the argument
is missing, not a number or not positive, and for a positive number whose integer part
is at least `1` and fits `int` it is that integer part capped at `20`, between `1` and
`20`. -/
theorem arxivMaxResults_half (outOfRange : Int) :
    arxivMaxResults outOfRange (.number (.finite 1 (-1))) = 0 ∧
    arxivMaxResults outOfRange .missing = 5 ∧
    (∀ s, arxivMaxResults outOfRange (.str s) = 5) ∧
    (∀ b, arxivMaxResults outOfRange (.bool b) = 5) ∧
    arxivMaxResults outOfRange .other = 5 ∧
    (∀ mr : Float64, mr.isPositive = false → arxivMaxResults outOfRange (.number mr) = 5) ∧
    (∀ mant exp : Int, 1 ≤ truncateDyadic mant exp → truncateDyadic mant exp < 2 ^ 63 →
      arxivMaxResults outOfRange (.number (.finite mant exp))
        = min (truncateDyadic mant exp) 20 ∧
      1 ≤ arxivMaxResults outOfRange (.number (.finite mant exp)) ∧
      arxivMaxResults outOfRange (.number (.finite mant exp)) ≤ 20) := by
  have hhalf : truncateDyadic 1 (-1) = 0 := by decide
  refine ⟨?_, rfl, fun _ => rfl, fun _ => rfl, rfl, ?_, ?_⟩
  · simp [arxivMaxResults, Float64.isPositive, floatToInt, hhalf]
  · intro mr h
    simp [arxivMaxResults, h]
  · intro mant exp h1 h2
    have hpos : (Float64.finite mant exp).isPositive = true := by
      simp only [Float64.isPositive, decide_eq_true_eq]
      by_contra hneg
      have hm : mant ≤ 0 := not_lt.mp hneg
      have : truncateDyadic mant exp ≤ 0 := by
        unfold truncateDyadic
        split_ifs
        · exact Int.mul_nonpos_of_nonpos_of_nonneg hm (Int.ofNat_nonneg _)
        · have hneg2 : mant.tdiv ((2 ^ (-exp).toNat : Nat) : Int)
              = -((-mant).tdiv ((2 ^ (-exp).toNat : Nat) : Int)) := by
            rw [Int.neg_tdiv, neg_neg]
          have hnn := Int.tdiv_nonneg (a := -mant) (b := ((2 ^ (-exp).toNat : Nat) : Int))
            (by omega) (Int.ofNat_nonneg _)
          omega
      omega
    have hconv : floatToInt outOfRange (.finite mant exp) = truncateDyadic mant exp := by
      simp only [floatToInt]
      rw [if_pos ⟨by omega, h2⟩]
    simp only [arxivMaxResults, hpos, if_true, hconv]
    split_ifs with h20
    · refine ⟨?_, by omega, le_refl _⟩
      rw [min_eq_right (le_of_lt h20)]
    · refine ⟨?_, h1, by omega⟩
      rw [min_eq_left (by omega)]

/-! ## Tool loop controller -/

/-- A run from a state with `remaining` iterations left reports at most
`counter + remaining` iterations and performs at most `remaining` exchanges. -/
theorem loopFrom_bounded {Obj : Type} (dec : JsonDecoder Obj) (cfg : LoopConfig Obj) :
    ∀ (remaining counter : Nat) (conversation : List ConversationMessage)
      (trace : List LoopEvent),
      (∀ n, (loopFrom dec cfg remaining counter conversation trace).outcome.iterationsUsed
          = some n → n ≤ counter + remaining) ∧
      (loopFrom dec cfg remaining counter conversation trace).trace.count .exchange
        ≤ trace.count .exchange + remaining := by
  intro remaining
  induction remaining with
  | zero =>
    intro counter conversation trace
    refine ⟨?_, by simp [loopFrom]⟩
    intro n hn
    simp only [loopFrom, LoopEnd.iterationsUsed, Option.some.injEq] at hn
    omega
  | succ remaining ih =>
    intro counter conversation trace
    rw [loopFrom]
    cases hx : cfg.exchange conversation with
    | error e =>
      refine ⟨?_, by simp⟩
      intro n hn
      simp [LoopEnd.iterationsUsed] at hn
    | ok reply =>
      simp only []
      split_ifs with h0
      · refine ⟨?_, by simp⟩
        intro n hn
        simp only [LoopEnd.iterationsUsed, Option.some.injEq] at hn
        omega
      · obtain ⟨h1, h2⟩ := ih (counter + 1)
          (conversation
            ++ turnMessages cfg (responseContent dec reply) (responseToolCalls dec reply))
          (trace ++ .exchange :: (responseToolCalls dec reply).map (callEvent cfg))
        refine ⟨fun n hn => by have := h1 n hn; omega, ?_⟩
        have hc : (trace ++ LoopEvent.exchange
            :: (responseToolCalls dec reply).map (callEvent cfg)).count .exchange
            = trace.count .exchange + 1 := by
          rw [List.count_append, List.count_cons_self]
          have : ((responseToolCalls dec reply).map (callEvent cfg)).count .exchange = 0 := by
            rw [List.count_eq_zero]
            intro hmem
            obtain ⟨c, _, hc⟩ := List.mem_map.1 hmem
            unfold callEvent at hc
            cases hr : cfg.registry c.Name <;> rw [hr] at hc <;> cases hc
          omega
        omega

/-- A model that resolves to at least one call on every turn exhausts whatever
iterations are left, with one exchange per iteration. -/
theorem loopFrom_busy {Obj : Type} (dec : JsonDecoder Obj) (cfg : LoopConfig Obj)
    (hmodel : ∀ conversation, ∃ reply, cfg.exchange conversation = .ok reply ∧
      responseToolCalls dec reply ≠ []) :
    ∀ (remaining counter : Nat) (conversation : List ConversationMessage)
      (trace : List LoopEvent),
      (loopFrom dec cfg remaining counter conversation trace).outcome
        = .iterationExhausted (counter + remaining) ∧
      (loopFrom dec cfg remaining counter conversation trace).trace.count .exchange
        = trace.count .exchange + remaining := by
  intro remaining
  induction remaining with
  | zero => intro counter conversation trace; simp [loopFrom]
  | succ remaining ih =>
    intro counter conversation trace
    obtain ⟨reply, hx, hcalls⟩ := hmodel conversation
    rw [loopFrom, hx]
    simp only []
    rw [if_neg (by
      intro h0
      exact hcalls (List.length_eq_zero.1 h0))]
    obtain ⟨h1, h2⟩ := ih (counter + 1)
      (conversation
        ++ turnMessages cfg (responseContent dec reply) (responseToolCalls dec reply))
      (trace ++ .exchange :: (responseToolCalls dec reply).map (callEvent cfg))
    have hc : (trace ++ LoopEvent.exchange
        :: (responseToolCalls dec reply).map (callEvent cfg)).count .exchange
        = trace.count .exchange + 1 := by
      rw [List.count_append, List.count_cons_self]
      have : ((responseToolCalls dec reply).map (callEvent cfg)).count .exchange = 0 := by
        rw [List.count_eq_zero]
        intro hmem
        obtain ⟨c, _, hc⟩ := List.mem_map.1 hmem
        unfold callEvent at hc
        cases hr : cfg.registry c.Name <;> rw [hr] at hc <;> cases hc
      omega
    refine ⟨?_, ?_⟩
    · rw [h1]
      congr 1
      omega
    · rw [h2, hc]
      omega

/-- A reply without calls ends the run with the raw reply as final content. -/
theorem finalContent_of_no_calls {Obj : Type} (dec : JsonDecoder Obj) (reply : List Nat)
    (h : responseToolCalls dec reply = []) : finalContent dec reply = reply := by
  unfold finalContent responseContent
  rw [h]
  simp only [List.length_nil, gt_iff_lt, Nat.lt_irrefl, if_false, if_true]

/-- C22: loop happy path, on the controller modelled from the specification.  When the
reply of turn 1 resolves to exactly one call, to a registered tool, and the reply of
turn 2 resolves to no call, a run with a bound of at least 2 ends as done, not as an
error: it invokes that tool once between its two exchanges and returns 2 iterations
and the turn-2 text as content. -/
theorem runToolLoop_happy_path {Obj : Type} (dec : JsonDecoder Obj) (cfg : LoopConfig Obj)
    (messages : List ConversationMessage) (instruction : Option (List Nat))
    (reply1 reply2 : List Nat) (c : ToolCall Obj) (tool : Option Obj → ToolOutcome)
    (hmax : 2 ≤ cfg.maxIterations)
    (h1 : cfg.exchange (initialConversation messages instruction) = .ok reply1)
    (hcall : responseToolCalls dec reply1 = [c])
    (hreg : cfg.registry c.Name = some tool)
    (h2 : cfg.exchange (initialConversation messages instruction
      ++ turnMessages cfg (responseContent dec reply1) [c]) = .ok reply2)
    (hplain : responseToolCalls dec reply2 = []) :
    (runToolLoop dec cfg messages instruction).outcome
      = .done { final_content := reply2, iterations_used := 2 } ∧
    (runToolLoop dec cfg messages instruction).trace
      = [.exchange, .invoked c.Name, .exchange] ∧
    (runToolLoop dec cfg messages instruction).conversation
      = initialConversation messages instruction ++
        [{ role := .assistant, content := responseContent dec reply1, tool_call_id := none },
         { role := .tool, content := (tool c.Arguments).for_model,
           tool_call_id := some c.ID }] := by
  obtain ⟨n, hn⟩ : ∃ n, cfg.maxIterations.toNat = n + 2 :=
    ⟨cfg.maxIterations.toNat - 2, by omega⟩
  have hev : callEvent cfg c = .invoked c.Name := by
    unfold callEvent
    rw [hreg]
  have hout : toolOutcome cfg c = tool c.Arguments := by
    unfold toolOutcome
    rw [hreg]
  unfold runToolLoop
  rw [if_neg (by omega), hn, loopFrom, h1]
  simp only [hcall, List.length_singleton, Nat.succ_ne_zero, if_false, List.map_cons,
    List.map_nil, hev]
  rw [loopFrom, h2]
  simp only [hplain, List.length_nil, if_true, finalContent_of_no_calls dec reply2 hplain]
  refine ⟨trivial, by simp, ?_⟩
  simp only [turnMessages, List.map_cons, List.map_nil, hout]

set_option maxRecDepth 100000 in
theorem runToolLoop_happy_path_witness :
    (2 : Int) ≤ sampleLoopConfig.maxIterations ∧
    responseToolCalls sampleLoopDecoder sampleLoopReply
      = [taggedCall 0 (ascii "append_file")
          (ascii "\x7b\"path\":\"/tmp/test.txt\",\"content\":\"hello\"\x7d")
          (some [(ascii "path", ascii "\"/tmp/test.txt\""),
                 (ascii "content", ascii "\"hello\"")])] ∧
    responseToolCalls sampleLoopDecoder (ascii "done") = [] ∧
    (runToolLoop sampleLoopDecoder sampleLoopConfig
        [{ role := .user, content := ascii "test", tool_call_id := none }] none).outcome
      = .done { final_content := ascii "done", iterations_used := 2 } ∧
    (runToolLoop sampleLoopDecoder sampleLoopConfig
        [{ role := .user, content := ascii "test", tool_call_id := none }] none).trace
      = [.exchange, .invoked (ascii "append_file"), .exchange] :=
  ⟨by decide, by decide, by decide,
    (runToolLoop_happy_path sampleLoopDecoder sampleLoopConfig
      [{ role := .user, content := ascii "test", tool_call_id := none }] none
      sampleLoopReply (ascii "done")
      (taggedCall 0 (ascii "append_file")
        (ascii "\x7b\"path\":\"/tmp/test.txt\",\"content\":\"hello\"\x7d")
        (some [(ascii "path", ascii "\"/tmp/test.txt\""),
               (ascii "content", ascii "\"hello\"")]))
      (fun _ => { for_model := ascii "ok", for_observer := ascii "ok", is_error := false })
      (by decide) rfl (by decide) rfl rfl (by decide)).1,
    (runToolLoop_happy_path sampleLoopDecoder sampleLoopConfig
      [{ role := .user, content := ascii "test", tool_call_id := none }] none
      sampleLoopReply (ascii "done")
      (taggedCall 0 (ascii "append_file")
        (ascii "\x7b\"path\":\"/tmp/test.txt\",\"content\":\"hello\"\x7d")
        (some [(ascii "path", ascii "\"/tmp/test.txt\""),
               (ascii "content", ascii "\"hello\"")]))
      (fun _ => { for_model := ascii "ok", for_observer := ascii "ok", is_error := false })
      (by decide) rfl (by decide) rfl rfl (by decide)).2.1⟩

/-- C23: loop termination, on the controller modelled from the specification.  For a
bound of at least 1 and a model whose reply resolves to at least one call on every
turn, the run performs exactly as many model exchanges as the bound and ends as
iteration-exhausted, an outcome distinct from done, with that many iterations used;
and for every model and every bound the iterations reported, and the exchanges
performed, never exceed the bound. -/
theorem runToolLoop_exhausted {Obj : Type} (dec : JsonDecoder Obj) (cfg : LoopConfig Obj)
    (messages : List ConversationMessage) (instruction : Option (List Nat))
    (hmax : 1 ≤ cfg.maxIterations)
    (hmodel : ∀ conversation, ∃ reply, cfg.exchange conversation = .ok reply ∧
      responseToolCalls dec reply ≠ []) :
    (runToolLoop dec cfg messages instruction).outcome
      = .iterationExhausted cfg.maxIterations.toNat ∧
    (∀ result, (runToolLoop dec cfg messages instruction).outcome ≠ .done result) ∧
    (runToolLoop dec cfg messages instruction).trace.count .exchange
      = cfg.maxIterations.toNat ∧
    (∀ (cfg2 : LoopConfig Obj) (messages2 : List ConversationMessage)
      (instruction2 : Option (List Nat)),
      (∀ n, (runToolLoop dec cfg2 messages2 instruction2).outcome.iterationsUsed = some n →
        (n : Int) ≤ cfg2.maxIterations) ∧
      (((runToolLoop dec cfg2 messages2 instruction2).trace.count .exchange : Nat) : Int)
        ≤ max cfg2.maxIterations 0) := by
  have hrun : runToolLoop dec cfg messages instruction
      = loopFrom dec cfg cfg.maxIterations.toNat 0 (initialConversation messages instruction)
          [] := by
    unfold runToolLoop
    rw [if_neg (by omega)]
  obtain ⟨hb1, hb2⟩ := loopFrom_busy dec cfg hmodel cfg.maxIterations.toNat 0
    (initialConversation messages instruction) []
  rw [Nat.zero_add] at hb1
  refine ⟨by rw [hrun, hb1], ?_, by rw [hrun, hb2]; simp, ?_⟩
  · intro result hres
    rw [hrun, hb1] at hres
    cases hres
  · intro cfg2 messages2 instruction2
    unfold runToolLoop
    split_ifs with h0
    · refine ⟨?_, by simp⟩
      intro n hn
      simp [LoopEnd.iterationsUsed] at hn
    · obtain ⟨g1, g2⟩ := loopFrom_bounded dec cfg2 cfg2.maxIterations.toNat 0
        (initialConversation messages2 instruction2) []
      refine ⟨?_, ?_⟩
      · intro n hn
        have := g1 n hn
        omega
      · simp only [List.count_nil, Nat.zero_add] at g2
        omega

set_option maxRecDepth 100000 in
theorem runToolLoop_exhausted_witness :
    (1 : Int) ≤ (sampleBusyConfig 3).maxIterations ∧
    (runToolLoop sampleLoopDecoder (sampleBusyConfig 3)
        [{ role := .user, content := ascii "go", tool_call_id := none }] none).outcome
      = .iterationExhausted 3 ∧
    (runToolLoop sampleLoopDecoder (sampleBusyConfig 3)
        [{ role := .user, content := ascii "go", tool_call_id := none }] none).trace.count
        .exchange = 3 :=
  ⟨by decide,
    (runToolLoop_exhausted sampleLoopDecoder (sampleBusyConfig 3)
      [{ role := .user, content := ascii "go", tool_call_id := none }] none (by decide)
      (fun _ => ⟨ascii "<noop>\x7b\x7d</noop>", rfl, by decide⟩)).1,
    (runToolLoop_exhausted sampleLoopDecoder (sampleBusyConfig 3)
      [{ role := .user, content := ascii "go", tool_call_id := none }] none (by decide)
      (fun _ => ⟨ascii "<noop>\x7b\x7d</noop>", rfl, by decide⟩)).2.2.1⟩

/-! ## Lower-casing -/

theorem utf8DecodeRune_ascii (b : Nat) (t : List Nat) (h : b < 128) :
    utf8DecodeRune (b :: t) = (b, 1) := by
  simp [utf8DecodeRune, h]

theorem utf8Decode2_facts (s0 : Nat) (rest : List Nat) (h : 194 ≤ s0) (h2 : s0 < 224) :
    1 ≤ (utf8Decode2 s0 rest).2 ∧ (utf8Decode2 s0 rest).2 ≤ rest.length + 1 ∧
    128 ≤ (utf8Decode2 s0 rest).1 := by
  rcases rest with _ | ⟨s1, rest⟩ <;> simp only [utf8Decode2, List.length_cons, List.length_nil]
  · omega
  · split_ifs <;> simp only [] <;> omega

theorem utf8Decode3_facts (s0 : Nat) (rest : List Nat) (h : 224 ≤ s0) (h2 : s0 < 240) :
    1 ≤ (utf8Decode3 s0 rest).2 ∧ (utf8Decode3 s0 rest).2 ≤ rest.length + 1 ∧
    128 ≤ (utf8Decode3 s0 rest).1 := by
  rcases rest with _ | ⟨s1, _ | ⟨s2, rest⟩⟩ <;>
    simp only [utf8Decode3, List.length_cons, List.length_nil]
  · omega
  · omega
  · split_ifs <;> simp only [] <;> omega

theorem utf8Decode4_facts (s0 : Nat) (rest : List Nat) (h : 240 ≤ s0) (h2 : s0 ≤ 244) :
    1 ≤ (utf8Decode4 s0 rest).2 ∧ (utf8Decode4 s0 rest).2 ≤ rest.length + 1 ∧
    128 ≤ (utf8Decode4 s0 rest).1 := by
  rcases rest with _ | ⟨s1, _ | ⟨s2, _ | ⟨s3, rest⟩⟩⟩ <;>
    simp only [utf8Decode4, List.length_cons, List.length_nil]
  · omega
  · omega
  · omega
  · split_ifs <;> simp only [] <;> omega

theorem utf8DecodeRune_width (s0 : Nat) (rest : List Nat) :
    1 ≤ (utf8DecodeRune (s0 :: rest)).2 ∧
    (utf8DecodeRune (s0 :: rest)).2 ≤ (s0 :: rest).length := by
  rw [utf8DecodeRune, List.length_cons]
  split_ifs with h1 h2 h3 h4
  · simp
  · simp
  · have := utf8Decode2_facts s0 rest (by omega) h3; omega
  · have := utf8Decode3_facts s0 rest (by omega) h4; omega
  · have := utf8Decode4_facts s0 rest (by omega) (by omega); omega

theorem utf8DecodeRune_nonascii (s0 : Nat) (rest : List Nat) (h : 128 ≤ s0) :
    128 ≤ (utf8DecodeRune (s0 :: rest)).1 := by
  rw [utf8DecodeRune]
  split_ifs with h1 h2 h3 h4
  · omega
  · simp
  · exact (utf8Decode2_facts s0 rest (by omega) h3).2.2
  · exact (utf8Decode3_facts s0 rest (by omega) h4).2.2
  · exact (utf8Decode4_facts s0 rest (by omega) (by omega)).2.2

theorem utf8Decode2_append_ascii (s0 : Nat) (rest : List Nat) (b : Nat) (t : List Nat)
    (hb : b < 128) : utf8Decode2 s0 (rest ++ b :: t) = utf8Decode2 s0 rest := by
  rcases rest with _ | ⟨s1, rest⟩ <;>
    simp only [utf8Decode2, List.cons_append, List.nil_append]
  rw [if_neg (by omega)]

theorem utf8Decode3_append_ascii (s0 : Nat) (rest : List Nat) (b : Nat) (t : List Nat)
    (hb : b < 128) : utf8Decode3 s0 (rest ++ b :: t) = utf8Decode3 s0 rest := by
  rcases rest with _ | ⟨s1, _ | ⟨s2, rest⟩⟩
  · rcases t with _ | ⟨t0, t⟩ <;> simp only [utf8Decode3, List.nil_append]
    rw [if_neg (by split_ifs <;> omega)]
  · simp only [utf8Decode3, List.cons_append, List.nil_append]
    rw [if_neg (by omega)]
  · simp only [utf8Decode3, List.cons_append]

theorem utf8Decode4_append_ascii (s0 : Nat) (rest : List Nat) (b : Nat) (t : List Nat)
    (hb : b < 128) : utf8Decode4 s0 (rest ++ b :: t) = utf8Decode4 s0 rest := by
  rcases rest with _ | ⟨s1, _ | ⟨s2, _ | ⟨s3, rest⟩⟩⟩
  · rcases t with _ | ⟨t0, _ | ⟨t1, t⟩⟩ <;> simp only [utf8Decode4, List.nil_append]
    rw [if_neg (by split_ifs <;> omega)]
  · rcases t with _ | ⟨t0, t⟩ <;> simp only [utf8Decode4, List.cons_append, List.nil_append]
    rw [if_neg (by omega)]
  · simp only [utf8Decode4, List.cons_append, List.nil_append]
    rw [if_neg (by omega)]
  · simp only [utf8Decode4, List.cons_append]

theorem utf8DecodeRune_append_ascii (s0 : Nat) (rest : List Nat) (b : Nat) (t : List Nat)
    (hb : b < 128) :
    utf8DecodeRune (s0 :: rest ++ b :: t) = utf8DecodeRune (s0 :: rest) := by
  rw [List.cons_append, utf8DecodeRune, utf8DecodeRune, utf8Decode2_append_ascii _ _ _ _ hb,
    utf8Decode3_append_ascii _ _ _ _ hb, utf8Decode4_append_ascii _ _ _ _ hb]

theorem utf8EncodeRune_ne_nil (r : Nat) : utf8EncodeRune r ≠ [] := by
  unfold utf8EncodeRune
  split_ifs <;> simp

theorem utf8EncodeRune_ascii (r : Nat) (h : r ≤ 127) : utf8EncodeRune r = [r] := by
  unfold utf8EncodeRune
  rw [if_pos h]

theorem utf8EncodeRune_nonascii (r : Nat) (h : 128 ≤ r) : ∀ c ∈ utf8EncodeRune r, 128 ≤ c := by
  unfold utf8EncodeRune
  split_ifs <;> intro c hc <;> simp at hc <;> omega

theorem stringsMapFrom_fuel (f : Nat → Nat) : ∀ (fuel1 fuel2 : Nat) (s : List Nat),
    s.length ≤ fuel1 → s.length ≤ fuel2 →
    stringsMapFrom f fuel1 s = stringsMapFrom f fuel2 s := by
  intro fuel1
  induction fuel1 with
  | zero =>
    intro fuel2 s h1 _
    have hs : s = [] := List.length_eq_zero.1 (by omega)
    subst hs
    cases fuel2 <;> rfl
  | succ fuel1 ih =>
    intro fuel2 s h1 h2
    cases s with
    | nil => cases fuel2 <;> rfl
    | cons s0 rest =>
      cases fuel2 with
      | zero => simp at h2
      | succ fuel2 =>
        have hw := utf8DecodeRune_width s0 rest
        simp only [stringsMapFrom]
        rw [ih fuel2 _ (by rw [List.length_drop]; simp only [List.length_cons] at h1 ⊢; omega)
          (by rw [List.length_drop]; simp only [List.length_cons] at h2 ⊢; omega)]

theorem stringsMap_nil (f : Nat → Nat) : stringsMap f [] = [] := rfl

theorem stringsMap_cons (f : Nat → Nat) (s0 : Nat) (rest : List Nat) :
    stringsMap f (s0 :: rest)
      = utf8EncodeRune (f (utf8DecodeRune (s0 :: rest)).1)
        ++ stringsMap f ((s0 :: rest).drop (utf8DecodeRune (s0 :: rest)).2) := by
  have hw := utf8DecodeRune_width s0 rest
  unfold stringsMap
  rw [List.length_cons, stringsMapFrom]
  rw [stringsMapFrom_fuel f rest.length _ _
    (by rw [List.length_drop, List.length_cons]; omega) (Nat.le_refl _)]

/-- An ASCII byte is a rune of its own: the runes before it are decoded as if the
string ended there. -/
theorem stringsMap_append_ascii (f : Nat → Nat) (b : Nat) (t : List Nat) (hb : b < 128) :
    ∀ (n : Nat) (s : List Nat), s.length ≤ n →
      stringsMap f (s ++ b :: t) = stringsMap f s ++ stringsMap f (b :: t) := by
  intro n
  induction n with
  | zero =>
    intro s hs
    have : s = [] := List.length_eq_zero.1 (by omega)
    subst this
    rw [stringsMap_nil, List.nil_append, List.nil_append]
  | succ n ih =>
    intro s hs
    cases s with
    | nil => rw [stringsMap_nil, List.nil_append, List.nil_append]
    | cons s0 rest =>
      have hw := utf8DecodeRune_width s0 rest
      have hloc := utf8DecodeRune_append_ascii s0 rest b t hb
      rw [stringsMap_cons f s0 rest, List.append_assoc, ← ih _ (by
        rw [List.length_drop]; simp only [List.length_cons] at hs ⊢; omega)]
      rw [List.cons_append] at hloc ⊢
      rw [stringsMap_cons, hloc]
      congr 2
      rw [← List.cons_append, List.drop_append_of_le_length hw.2]

theorem unicodeToLower_ascii (table : Nat → Nat) (b : Nat) (hb : b < 128) :
    unicodeToLower table b = asciiLower b := by
  unfold unicodeToLower asciiLower
  rw [if_pos (by omega)]

theorem asciiLower_lt (b : Nat) (hb : b < 128) : asciiLower b < 128 := by
  unfold asciiLower
  split_ifs <;> omega

theorem stringsMap_ascii_cons (table : Nat → Nat) (b : Nat) (t : List Nat) (hb : b < 128) :
    stringsMap (unicodeToLower table) (b :: t)
      = asciiLower b :: stringsMap (unicodeToLower table) t := by
  rw [stringsMap_cons, utf8DecodeRune_ascii b t hb]
  simp only [List.drop_succ_cons, List.drop_zero]
  rw [unicodeToLower_ascii table b hb,
    utf8EncodeRune_ascii _ (by have := asciiLower_lt b hb; omega)]
  rfl

theorem stringsMap_all_ascii (table : Nat → Nat) (s : List Nat) (h : ∀ c ∈ s, c < 128) :
    stringsMap (unicodeToLower table) s = s.map asciiLower := by
  induction s with
  | nil => rfl
  | cons b t ih =>
    rw [stringsMap_ascii_cons table b t (h b (List.mem_cons_self _ _)),
      ih (fun c hc => h c (List.mem_cons_of_mem _ hc)), List.map_cons]

/-- The ASCII path of `strings.ToLower` gives what the general path gives. -/
theorem stringsToLower_eq_map (table : Nat → Nat) (s : List Nat) :
    stringsToLower table s = stringsMap (unicodeToLower table) s := by
  unfold stringsToLower
  split_ifs with h
  · rw [stringsMap_all_ascii table s (by
      intro c hc
      have := List.all_eq_true.1 h c hc
      simpa using this)]
  · rfl

theorem stringsToLower_append_ascii (table : Nat → Nat) (s t : List Nat)
    (ht : ∀ c ∈ t, c < 128) :
    stringsToLower table (s ++ t) = stringsToLower table s ++ t.map asciiLower := by
  rw [stringsToLower_eq_map, stringsToLower_eq_map]
  cases t with
  | nil => simp
  | cons b t =>
    rw [stringsMap_append_ascii _ b t (ht b (List.mem_cons_self _ _)) s.length s (Nat.le_refl _),
      stringsMap_all_ascii table (b :: t) ht]

/-- The lower-cased string ends with a byte of 128 or more, or with the image of a
rune beyond ASCII, when the string ends with a byte of 128 or more. -/
theorem stringsMap_last_nonascii (table : Nat → Nat) : ∀ (n : Nat) (s : List Nat),
    s.length ≤ n → ∀ b, s.getLast? = some b → 128 ≤ b →
    ∃ c, (stringsMap (unicodeToLower table) s).getLast? = some c ∧
      (128 ≤ c ∨ ∃ r, 128 ≤ r ∧ c = table r) := by
  intro n
  induction n with
  | zero =>
    intro s hs b hb _
    have : s = [] := List.length_eq_zero.1 (by omega)
    subst this
    simp at hb
  | succ n ih =>
    intro s hs b hb h128
    cases s with
    | nil => simp at hb
    | cons s0 rest =>
      have hw := utf8DecodeRune_width s0 rest
      rw [stringsMap_cons]
      cases hrest : (s0 :: rest).drop (utf8DecodeRune (s0 :: rest)).2 with
      | nil =>
        rw [stringsMap_nil, List.append_nil]
        have hs0 : 128 ≤ s0 := by
          by_contra hlt
          have hlt2 : s0 < 128 := by omega
          rw [utf8DecodeRune_ascii s0 rest hlt2] at hrest
          simp only [List.drop_succ_cons, List.drop_zero] at hrest
          subst hrest
          simp only [List.getLast?_singleton, Option.some.injEq] at hb
          omega
        have hr := utf8DecodeRune_nonascii s0 rest hs0
        have hf : unicodeToLower table (utf8DecodeRune (s0 :: rest)).1
            = table (utf8DecodeRune (s0 :: rest)).1 := by
          unfold unicodeToLower
          rw [if_neg (by omega)]
        rw [hf]
        rcases Nat.lt_or_ge (table (utf8DecodeRune (s0 :: rest)).1) 128 with hlt | hge
        · rw [utf8EncodeRune_ascii _ (by omega)]
          exact ⟨_, rfl, Or.inr ⟨_, hr, rfl⟩⟩
        · have hne := utf8EncodeRune_ne_nil (table (utf8DecodeRune (s0 :: rest)).1)
          obtain ⟨c, hc⟩ : ∃ c, (utf8EncodeRune (table (utf8DecodeRune (s0 :: rest)).1)).getLast?
              = some c := by
            cases hl : (utf8EncodeRune (table (utf8DecodeRune (s0 :: rest)).1)).getLast? with
            | none => exact absurd (List.getLast?_eq_none_iff.1 hl) hne
            | some c => exact ⟨c, rfl⟩
          exact ⟨c, hc, Or.inl (utf8EncodeRune_nonascii _ hge c (List.mem_of_getLast?_eq_some hc))⟩
      | cons x xs =>
        have hlast : (x :: xs).getLast? = some b := by
          rw [← hrest, List.getLast?_drop, if_neg (by
            intro hle
            have := List.drop_eq_nil_of_le hle
            rw [hrest] at this
            cases this)]
          exact hb
        obtain ⟨c, hc, hcases⟩ := ih (x :: xs) (by
          have := congrArg List.length hrest
          rw [List.length_drop] at this
          simp only [List.length_cons] at hs this ⊢
          omega) b hlast h128
        refine ⟨c, ?_, hcases⟩
        rw [List.getLast?_append, hc]
        rfl

/-- A lower-cased string that ends with an ASCII byte which is the image of no rune
beyond ASCII comes from a string that ends with an ASCII byte. -/
theorem stringsToLower_last (table : Nat → Nat) (c : Nat) (hc : c < 128)
    (hT : ∀ r, 128 ≤ r → table r ≠ c) (s Y : List Nat)
    (h : stringsToLower table s = Y ++ [c]) :
    ∃ s2 b, s = s2 ++ [b] ∧ b < 128 ∧ asciiLower b = c ∧ stringsToLower table s2 = Y := by
  have hne : s ≠ [] := by
    intro hs
    subst hs
    rw [stringsToLower_eq_map, stringsMap_nil] at h
    simp at h
  have hsplit := (List.dropLast_append_getLast hne).symm
  have hlast? : s.getLast? = some (s.getLast hne) := List.getLast?_eq_getLast _ hne
  rcases Nat.lt_or_ge (s.getLast hne) 128 with hlt | hge
  · refine ⟨s.dropLast, s.getLast hne, hsplit, hlt, ?_⟩
    have happ := stringsToLower_append_ascii table s.dropLast [s.getLast hne]
      (by intro x hx; simp only [List.mem_singleton] at hx; omega)
    rw [← hsplit, h, List.map_cons, List.map_nil] at happ
    have := List.append_inj' happ rfl
    exact ⟨(List.cons.inj this.2.symm).1, this.1.symm⟩
  · exfalso
    obtain ⟨c2, hc2, hcases⟩ := stringsMap_last_nonascii table s.length s (Nat.le_refl _)
      _ hlast? hge
    rw [← stringsToLower_eq_map, h] at hc2
    rw [List.getLast?_append, List.getLast?_singleton] at hc2
    have hcc : c = c2 := Option.some.inj hc2
    subst hcc
    rcases hcases with h1 | ⟨r, hr, hcr⟩
    · omega
    · exact hT r hr hcr.symm

/-! ## Markdown file tool: the path -/

theorem stringsHasSuffix_iff (s sfx : List Nat) :
    stringsHasSuffix s sfx = true ↔ ∃ a, s = a ++ sfx := by
  unfold stringsHasSuffix
  rw [Bool.and_eq_true, decide_eq_true_eq, beq_iff_eq]
  constructor
  · rintro ⟨_, h⟩
    refine ⟨s.take (s.length - sfx.length), ?_⟩
    conv_lhs => rw [← List.take_append_drop (s.length - sfx.length) s]
    rw [h]
  · rintro ⟨a, rfl⟩
    refine ⟨by rw [List.length_append]; omega, ?_⟩
    rw [List.length_append, Nat.add_sub_cancel, List.drop_left]

theorem stringsToLower_md (table : Nat → Nat) (s : List Nat) (m d : Nat)
    (hm : m = 109 ∨ m = 77) (hd : d = 100 ∨ d = 68) :
    stringsToLower table (s ++ [46, m, d]) = stringsToLower table s ++ ascii ".md" := by
  rw [stringsToLower_append_ascii table s [46, m, d] (by
    intro c hc
    simp only [List.mem_cons, List.mem_singleton, List.not_mem_nil, or_false] at hc
    omega)]
  congr 1
  rcases hm with rfl | rfl <;> rcases hd with rfl | rfl <;> decide

/-- A path whose lower-cased form ends with `.md` ends with a dot, an `m` and a `d` in
some letter case, when no rune beyond ASCII has one of these three bytes as its
lower-case image. -/
theorem stringsToLower_md_inv (table : Nat → Nat)
    (hT : ∀ r, 128 ≤ r → table r ≠ 46 ∧ table r ≠ 109 ∧ table r ≠ 100)
    (path : List Nat)
    (h : stringsHasSuffix (stringsToLower table path) (ascii ".md") = true) :
    ∃ s m d, path = s ++ [46, m, d] ∧ (m = 109 ∨ m = 77) ∧ (d = 100 ∨ d = 68) := by
  obtain ⟨Y, hY⟩ := (stringsHasSuffix_iff _ _).1 h
  have hY3 : stringsToLower table path = (Y ++ [46, 109]) ++ [100] := by
    rw [hY]
    simp [ascii]
  obtain ⟨s1, d, hs1, hd128, hd, h1⟩ := stringsToLower_last table 100 (by omega)
    (fun r hr => (hT r hr).2.2) path _ hY3
  have hY2 : stringsToLower table s1 = (Y ++ [46]) ++ [109] := by
    rw [h1]
    simp
  obtain ⟨s2, m, hs2, hm128, hm, h2⟩ := stringsToLower_last table 109 (by omega)
    (fun r hr => (hT r hr).2.1) s1 _ hY2
  obtain ⟨s3, p, hs3, hp128, hp, h3⟩ := stringsToLower_last table 46 (by omega)
    (fun r hr => (hT r hr).1) s2 _ h2
  refine ⟨s3, m, d, ?_, ?_, ?_⟩
  · have hp46 : p = 46 := by
      unfold asciiLower at hp
      split_ifs at hp <;> omega
    rw [hs1, hs2, hs3, hp46]
    simp
  · unfold asciiLower at hm
    split_ifs at hm <;> omega
  · unfold asciiLower at hd
    split_ifs at hd <;> omega

/-- C26: for a non-empty requested path, the path that `MarkdownFileTool.Execute`
resolves and writes ends with `.md` when lower-cased; a path that ends with a dot, an
`m` and a `d` in any letter case is used unchanged, every other path gets `.md`
appended, as `notes/daily` becomes `notes/daily.md`; and normalising twice gives what
normalising once gives.  The case tables of the library are the parameter `table`, of
which the proof uses that no rune beyond ASCII has the lower-case image `.`, `m` or
`d`. -/
theorem markdownPath_suffix (table : Nat → Nat) (defaultPath path : List Nat)
    (hne : path ≠ [])
    (hT : ∀ r, 128 ≤ r → table r ≠ 46 ∧ table r ≠ 109 ∧ table r ≠ 100) :
    stringsHasSuffix (stringsToLower table (markdownPath table defaultPath (.str path)))
        (ascii ".md") = true ∧
    (∀ s m d, path = s ++ [46, m, d] → (m = 109 ∨ m = 77) → (d = 100 ∨ d = 68) →
      markdownPath table defaultPath (.str path) = path) ∧
    ((¬ ∃ s m d, path = s ++ [46, m, d] ∧ (m = 109 ∨ m = 77) ∧ (d = 100 ∨ d = 68)) →
      markdownPath table defaultPath (.str path) = path ++ ascii ".md") ∧
    markdownPath table defaultPath (.str (markdownPath table defaultPath (.str path)))
      = markdownPath table defaultPath (.str path) ∧
    markdownPath table defaultPath (.str (ascii "notes/daily")) = ascii "notes/daily.md" := by
  have hdef : ∀ p : List Nat, p ≠ [] → markdownPath table defaultPath (.str p)
      = if stringsHasSuffix (stringsToLower table p) (ascii ".md") = true then p
        else p ++ ascii ".md" := by
    intro p hp
    unfold markdownPath
    simp only [if_neg hp]
    cases stringsHasSuffix (stringsToLower table p) (ascii ".md") <;> rfl
  have happ : ∀ p : List Nat,
      stringsHasSuffix (stringsToLower table (p ++ ascii ".md")) (ascii ".md") = true := by
    intro p
    rw [stringsHasSuffix_iff]
    exact ⟨stringsToLower table p,
      stringsToLower_md table p 109 100 (Or.inl rfl) (Or.inl rfl)⟩
  have hsfx : stringsHasSuffix (stringsToLower table (markdownPath table defaultPath (.str path)))
      (ascii ".md") = true := by
    rw [hdef path hne]
    split_ifs with h
    · exact h
    · exact happ path
  have hne2 : markdownPath table defaultPath (.str path) ≠ [] := by
    rw [hdef path hne]
    split_ifs
    · exact hne
    · simp [ascii]
  refine ⟨hsfx, ?_, ?_, ?_, ?_⟩
  · intro s m d hp hm hd
    rw [hdef path hne, if_pos]
    rw [hp, stringsHasSuffix_iff]
    exact ⟨stringsToLower table s, stringsToLower_md table s m d hm hd⟩
  · intro hnot
    rw [hdef path hne, if_neg]
    intro h
    exact hnot (stringsToLower_md_inv table hT path h)
  · rw [hdef _ hne2, if_pos hsfx]
  · have hlow : stringsToLower table (ascii "notes/daily") = ascii "notes/daily" := by
      unfold stringsToLower
      rw [if_pos (by decide)]
      decide
    rw [hdef _ (by decide), hlow, if_neg (by decide)]
    decide

theorem markdownPath_suffix_witness :
    ascii "Notes.MD" ≠ [] ∧
    (∀ r, 128 ≤ r → sampleLowerTable r ≠ 46 ∧ sampleLowerTable r ≠ 109 ∧
      sampleLowerTable r ≠ 100) ∧
    markdownPath sampleLowerTable (ascii "reports/summary-0.md") (.str (ascii "Notes.MD"))
      = ascii "Notes.MD" :=
  ⟨by decide,
    fun r hr => by unfold sampleLowerTable; split_ifs <;> omega,
    (markdownPath_suffix sampleLowerTable (ascii "reports/summary-0.md") (ascii "Notes.MD")
      (by decide) (fun r hr => by unfold sampleLowerTable; split_ifs <;> omega)).2.1
      (ascii "Notes") 77 68 (by decide) (Or.inr rfl) (Or.inr rfl)⟩

/-! ## The response of the CLI -/

/-- C31: for an output that decodes to a response without error flag,
`parseClaudeCliResponse` returns a response whose `ToolCalls` are
`extractToolCalls(result)` and whose `Content` is the content computed from them; its
`FinishReason` is `tool_calls` if and only if `extractToolCalls(result)` is non-empty
and `stop` otherwise, and in the `stop` case `Content` is `strings.TrimSpace(result)`
and `ToolCalls` is empty. -/
theorem parseClaudeCliResponse_finishReason {Obj : Type} (dec : JsonDecoder Obj)
    (unmarshalResponse : List Nat → Option claudeCliJSONResponse) (output : List Nat)
    (resp : claudeCliJSONResponse)
    (hdec : unmarshalResponse output = some resp) (hok : resp.IsError = false) :
    ∃ r : LLMResponse Obj, parseClaudeCliResponse dec unmarshalResponse output = .ok r ∧
      r.ToolCalls = extractToolCalls dec resp.Result ∧
      r.ToolCalls = responseToolCalls dec resp.Result ∧
      r.Content = responseContent dec resp.Result ∧
      (r.FinishReason = ascii "tool_calls" ↔ extractToolCalls dec resp.Result ≠ []) ∧
      (r.FinishReason = ascii "stop" ↔ extractToolCalls dec resp.Result = []) ∧
      (r.FinishReason = ascii "stop" →
        r.Content = stringsTrimSpace resp.Result ∧ r.ToolCalls = []) := by
  have hne : ascii "tool_calls" ≠ ascii "stop" := by decide
  unfold parseClaudeCliResponse
  rw [hdec]
  simp only [hok, Bool.false_eq_true, if_false]
  refine ⟨_, rfl, rfl, rfl, rfl, ?_, ?_, ?_⟩
  · simp only []
    cases hcalls : extractToolCalls dec resp.Result with
    | nil => simp [hne.symm]
    | cons c cs => simp
  · simp only []
    cases hcalls : extractToolCalls dec resp.Result with
    | nil => simp
    | cons c cs => simp [hne]
  · simp only []
    cases hcalls : extractToolCalls dec resp.Result with
    | nil => simp
    | cons c cs => simp [hne]

set_option maxRecDepth 100000 in
theorem parseClaudeCliResponse_finishReason_witness :
    sampleUnmarshalResponse
        (ascii "\x7b\"type\":\"result\",\"is_error\":false,\"result\":\"done\"\x7d")
      = some { IsError := false, Result := ascii "done",
               Usage := { InputTokens := 0, OutputTokens := 0, CacheCreationInputTokens := 0,
                          CacheReadInputTokens := 0 } } ∧
    ∃ r : LLMResponse (List (List Nat × List Nat)),
      parseClaudeCliResponse sampleDecoder sampleUnmarshalResponse
          (ascii "\x7b\"type\":\"result\",\"is_error\":false,\"result\":\"done\"\x7d")
        = .ok r ∧
      r.ToolCalls = extractToolCalls sampleDecoder (ascii "done") :=
  ⟨by decide,
    (parseClaudeCliResponse_finishReason sampleDecoder sampleUnmarshalResponse
      (ascii "\x7b\"type\":\"result\",\"is_error\":false,\"result\":\"done\"\x7d")
      { IsError := false, Result := ascii "done",
        Usage := { InputTokens := 0, OutputTokens := 0, CacheCreationInputTokens := 0,
                   CacheReadInputTokens := 0 } }
      (by decide) rfl).imp (fun _ h => ⟨h.1, h.2.1⟩)⟩

/-! ## Calls of the stripped text -/

/-- The slice that the matcher finds at an opening brace is brace-matched over its
whole length. -/
theorem findMatchingBrace_self (text : List Nat) (pos : Nat) (h0 : text[pos]? = some 123)
    (hne : findMatchingBrace text pos ≠ pos) :
    findMatchingBrace (slice text pos (findMatchingBrace text pos)) 0
      = (slice text pos (findMatchingBrace text pos)).length := by
  have hlt : pos < text.length := by
    rcases Nat.lt_or_ge pos text.length with h | h
    · exact h
    · rw [List.getElem?_eq_none h] at h0; cases h0
  have hd : text.drop pos = 123 :: text.drop (pos + 1) := by
    rw [List.drop_eq_getElem_cons hlt]
    congr 1
    rw [List.getElem?_eq_getElem hlt] at h0
    exact Option.some.inj h0
  have hfm : findMatchingBrace text pos
      = findMatchingBraceFrom pos (text.drop (pos + 1)) (pos + 1) 1 false false := by
    unfold findMatchingBrace
    rw [hd, findMatchingBraceFrom_cons]
    simp [depthStep, quoteStep]
  rcases findMatchingBraceFrom_walk pos (text.drop (pos + 1)) (pos + 1) 1 (false, false)
    (le_refl 1) with hw | hw
  · exact absurd (hfm.trans hw.1) hne
  · obtain ⟨k, hk, hres, _, hz, hpos⟩ := hw
    have hr : findMatchingBrace text pos = pos + 1 + k + 1 := hfm.trans hres
    have hsl : slice text pos (findMatchingBrace text pos)
        = 123 :: (text.drop (pos + 1)).take (k + 1) := by
      unfold slice
      rw [hr, hd, show pos + 1 + k + 1 - pos = (k + 1) + 1 by omega, List.take_succ_cons]
    rw [hsl]
    have hfm0 : findMatchingBrace (123 :: (text.drop (pos + 1)).take (k + 1)) 0
        = findMatchingBraceFrom 0 ((text.drop (pos + 1)).take (k + 1)) 1 1 false false := by
      unfold findMatchingBrace
      rw [List.drop_zero, findMatchingBraceFrom_cons]
      simp [depthStep, quoteStep]
    rw [hfm0]
    have := findMatchingBraceFrom_of_depth 0 ((text.drop (pos + 1)).take (k + 1)) 1 1
      (false, false) (le_refl 1) k (by rw [List.length_take]; omega)
      (by rw [List.take_take, Nat.min_self]; exact hz)
      (fun m hmk => by
        rw [List.take_take, Nat.min_eq_left (by omega)]; exact hpos m hmk)
    rw [this, List.length_cons, List.length_take, Nat.min_eq_left (by omega)]
    omega

/-- What an accepted candidate looks like in the text, with raw arguments that are
brace-matched over their whole length. -/
theorem tagCandidate_shape {Obj : Type} (dec : JsonDecoder Obj) (text : List Nat)
    (count start : Nat) (sp : taggedToolCallSpan Obj)
    (h60 : text[start]? = some 60)
    (hc : tagCandidate ptcIsTagNameStart ptcIsTagNameChar ptcIsWhitespace dec text count start
      = some sp) :
    ∃ ws rawArgs tail,
      text.drop start = 60 :: (sp.call.Name ++ 62 :: (ws ++ (rawArgs ++ tail))) ∧
      isTagName sp.call.Name = true ∧
      (∀ b ∈ ws, ptcIsWhitespace b = true) ∧
      rawArgs.head? = some 123 ∧
      findMatchingBrace rawArgs 0 = rawArgs.length ∧
      sp.call.Function = some { Name := sp.call.Name, Arguments := rawArgs } ∧
      dec.unmarshalMap rawArgs = some sp.call.Arguments := by
  obtain ⟨ws, rawArgs, tail, -, hdrop, htag, hws, hhead, hfun, hdec⟩ :=
    tagCandidate_sound dec text count start sp h60 hc
  obtain ⟨nameEnd, jsonStart, jsonEnd, args, -, -, -, -, -, -, hjlt, hj123,
    hje, hjne, -, hsp⟩ := tagCandidate_facts _ _ _ dec text count start sp hc
  have hraw : rawArgs = slice text jsonStart jsonEnd := by
    have hf2 : sp.call.Function
        = some { Name := slice text (start + 1) nameEnd,
                 Arguments := slice text jsonStart jsonEnd } := by
      conv_lhs => rw [hsp]
      rfl
    rw [hfun] at hf2
    have := Option.some.inj hf2
    exact congrArg FunctionCall.Arguments this
  have hj? : text[jsonStart]? = some 123 := by
    rw [List.getElem?_eq_getElem hjlt, ← hj123, List.getD_eq_getElem _ _ hjlt]
  refine ⟨ws, rawArgs, tail, hdrop, htag, hws, hhead, ?_, hfun, hdec⟩
  rw [hraw, hje]
  exact findMatchingBrace_self text jsonStart hj? (by rw [← hje]; exact hjne)

/-- A text that continues, at `a`, with a tag, white space and a brace-matched object
that decodes has an accepted candidate there. -/
theorem tagCandidate_of_shape {Obj : Type} (dec : JsonDecoder Obj)
    (text a n ws obj tail : List Nat) (args : Option Obj) (count : Nat)
    (htext : text = a ++ (60 :: (n ++ (62 :: (ws ++ (obj ++ tail))))))
    (hn : isTagName n = true) (hws : ∀ b ∈ ws, ptcIsWhitespace b = true)
    (hobj0 : obj.head? = some 123) (hobj : findMatchingBrace obj 0 = obj.length)
    (hdec : dec.unmarshalMap obj = some args) :
    tagCandidate ptcIsTagNameStart ptcIsTagNameChar ptcIsWhitespace dec text count a.length
      ≠ none := by
  intro hnone
  let dummy : taggedToolCallSpan Obj :=
    { start := 0, stop := 0, call := taggedCall 0 [] [] none }
  have hstep := taggedScan_step dec text a [] n ws obj tail args 0
    (List.replicate count dummy) (by rw [htext]; rfl) (by simp) hn hws hobj0 hobj hdec
  rw [taggedScan_unfold] at hstep
  obtain ⟨c, cs, hncs, _, _⟩ := isTagName_chars n hn
  have hlen : a.length + 1 + 1 ≤ text.length := by
    rw [htext, hncs]; simp; omega
  have hd : text.drop a.length = 60 :: (n ++ (62 :: (ws ++ (obj ++ tail)))) := by
    rw [htext, List.drop_left]
  rw [if_pos (by omega), hd] at hstep
  have hidx : stringsIndexByte (60 :: (n ++ (62 :: (ws ++ (obj ++ tail))))) 60 = some 0 := by
    simp [stringsIndexByte]
  rw [hidx] at hstep
  simp only [Nat.add_zero, List.length_replicate] at hstep
  rw [if_neg (by omega), hnone] at hstep
  simp only [taggedScan] at hstep
  have := congrArg List.length hstep
  simp at this

theorem stringsIndexByte_first (c : Nat) : ∀ (l : List Nat) (k : Nat),
    stringsIndexByte l c = some k → ∀ q, q < k → l[q]? ≠ some c := by
  intro l
  induction l with
  | nil => intro k h; simp [stringsIndexByte] at h
  | cons b l ih =>
    intro k h q hq
    rw [stringsIndexByte] at h
    split_ifs at h with hb
    · have : k = 0 := by simpa using h.symm
      omega
    · cases hr : stringsIndexByte l c with
      | none => rw [hr] at h; simp at h
      | some j =>
        rw [hr] at h
        have hk : k = j + 1 := by simpa using h.symm
        cases q with
        | zero => simpa using hb
        | succ q =>
          rw [List.getElem?_cons_succ]
          exact ih j hr q (by omega)

theorem stringsIndexByte_eq_none (c : Nat) : ∀ (l : List Nat),
    stringsIndexByte l c = none → c ∉ l := by
  intro l
  induction l with
  | nil => intro _; simp
  | cons b l ih =>
    intro h
    rw [stringsIndexByte] at h
    split_ifs at h with hb
    cases hr : stringsIndexByte l c with
    | none =>
      intro hmem
      rcases List.mem_cons.1 hmem with rfl | hmem
      · exact hb rfl
      · exact ih hr hmem
    | some j => rw [hr] at h; simp at h

/-- Every `<` before the cursor that has a byte after it lies in a span found so far
or is a rejected candidate; one iteration of the scan keeps that. -/
theorem scanStep_rejects {Obj : Type} (dec : JsonDecoder Obj) (text : List Nat) (i j : Nat)
    (spans spans2 : List (taggedToolCallSpan Obj))
    (h : scanStep dec text i spans = some (j, spans2))
    (hinv : ∀ p, p < i → text[p]? = some 60 → p + 1 < text.length →
      (∃ sp ∈ spans, sp.start ≤ p ∧ p < sp.stop) ∨
      ∃ count, tagCandidate ptcIsTagNameStart ptcIsTagNameChar ptcIsWhitespace dec text
        count p = none) :
    ∀ p, p < j → text[p]? = some 60 → p + 1 < text.length →
      (∃ sp ∈ spans2, sp.start ≤ p ∧ p < sp.stop) ∨
      ∃ count, tagCandidate ptcIsTagNameStart ptcIsTagNameChar ptcIsWhitespace dec text
        count p = none := by
  unfold scanStep at h
  split_ifs at h with h1
  cases hrel : stringsIndexByte (text.drop i) 60 with
  | none => rw [hrel] at h; cases h
  | some rel =>
    rw [hrel] at h
    simp only [] at h
    split_ifs at h with h2
    have hfirst : ∀ p, i ≤ p → p < i + rel → text[p]? ≠ some 60 := by
      intro p hp1 hp2
      have := stringsIndexByte_first 60 _ _ hrel (p - i) (by omega)
      rwa [List.getElem?_drop, Nat.add_sub_cancel' hp1] at this
    cases hc : tagCandidate ptcIsTagNameStart ptcIsTagNameChar ptcIsWhitespace dec text
        spans.length (i + rel) with
    | none =>
      rw [hc] at h
      simp only [Option.some.injEq, Prod.mk.injEq] at h
      obtain ⟨hj, hs⟩ := h
      subst hs
      intro p hp h60 hlen
      rcases Nat.lt_or_ge p i with hlt | hge
      · exact hinv p hlt h60 hlen
      · rcases Nat.lt_or_ge p (i + rel) with hlt2 | hge2
        · exact absurd h60 (hfirst p hge hlt2)
        · have hp2 : p = i + rel := by omega
          subst hp2
          exact Or.inr ⟨spans.length, hc⟩
    | some sp =>
      rw [hc] at h
      simp only [Option.some.injEq, Prod.mk.injEq] at h
      obtain ⟨hj, hs⟩ := h
      subst hs
      obtain ⟨hb1, hb2, hb3⟩ := tagCandidate_bounds _ _ _ dec text _ _ sp hc
      intro p hp h60 hlen
      rcases Nat.lt_or_ge p i with hlt | hge
      · rcases hinv p hlt h60 hlen with ⟨sp2, hmem, hin⟩ | hrej
        · exact Or.inl ⟨sp2, List.mem_append_left _ hmem, hin⟩
        · exact Or.inr hrej
      · rcases Nat.lt_or_ge p (i + rel) with hlt2 | hge2
        · exact absurd h60 (hfirst p hge hlt2)
        · exact Or.inl ⟨sp, List.mem_append_right _ (List.mem_singleton_self _),
            by omega, by omega⟩

theorem scanSteps_rejects {Obj : Type} (dec : JsonDecoder Obj) (text : List Nat) :
    ∀ (k i j : Nat) (spans out : List (taggedToolCallSpan Obj)),
      scanSteps dec text k i spans = some (j, out) →
      (∀ p, p < i → text[p]? = some 60 → p + 1 < text.length →
        (∃ sp ∈ spans, sp.start ≤ p ∧ p < sp.stop) ∨
        ∃ count, tagCandidate ptcIsTagNameStart ptcIsTagNameChar ptcIsWhitespace dec text
          count p = none) →
      ∀ p, p < j → text[p]? = some 60 → p + 1 < text.length →
        (∃ sp ∈ out, sp.start ≤ p ∧ p < sp.stop) ∨
        ∃ count, tagCandidate ptcIsTagNameStart ptcIsTagNameChar ptcIsWhitespace dec text
          count p = none := by
  intro k
  induction k with
  | zero =>
    intro i j spans out h hinv
    simp only [scanSteps, Option.some.injEq, Prod.mk.injEq] at h
    obtain ⟨rfl, rfl⟩ := h
    exact hinv
  | succ k ih =>
    intro i j spans out h hinv
    rw [scanSteps] at h
    cases hs : scanStep dec text i spans with
    | none => rw [hs] at h; cases h
    | some next =>
      obtain ⟨i2, spans2⟩ := next
      rw [hs] at h
      exact ih i2 j spans2 out h (scanStep_rejects dec text i i2 spans spans2 hs hinv)

/-- When the loop is left, no `<` from the cursor on has a byte after it. -/
theorem scanStep_none {Obj : Type} (dec : JsonDecoder Obj) (text : List Nat) (j : Nat)
    (out : List (taggedToolCallSpan Obj)) (h : scanStep dec text j out = none) :
    ∀ p, j ≤ p → text[p]? = some 60 → ¬ (p + 1 < text.length) := by
  intro p hp h60 hlen
  unfold scanStep at h
  rw [if_pos (by omega)] at h
  cases hrel : stringsIndexByte (text.drop j) 60 with
  | none =>
    have hno := stringsIndexByte_eq_none 60 _ hrel
    apply hno
    rw [List.mem_iff_getElem?]
    exact ⟨p - j, by rw [List.getElem?_drop, Nat.add_sub_cancel' hp]; exact h60⟩
  | some rel =>
    rw [hrel] at h
    simp only [] at h
    split_ifs at h with h2
    · have hfirst := stringsIndexByte_first 60 _ _ hrel (p - j)
      rcases Nat.lt_or_ge (p - j) rel with hlt | hge
      · apply hfirst hlt
        rw [List.getElem?_drop, Nat.add_sub_cancel' hp]
        exact h60
      · omega
    · cases hc : tagCandidate ptcIsTagNameStart ptcIsTagNameChar ptcIsWhitespace dec text
          out.length (j + rel) <;> rw [hc] at h <;> cases h

/-- The scan visits every `<`: one that has a byte after it and lies in no span
returned is a rejected candidate. -/
theorem parseTaggedToolCallSpans_rejects {Obj : Type} (dec : JsonDecoder Obj)
    (text : List Nat) (p : Nat) (h60 : text[p]? = some 60) (hlen : p + 1 < text.length)
    (hout : ∀ sp ∈ parseTaggedToolCallSpans dec text, ¬ (sp.start ≤ p ∧ p < sp.stop)) :
    ∃ count, tagCandidate ptcIsTagNameStart ptcIsTagNameChar ptcIsWhitespace dec text
      count p = none := by
  obtain ⟨k, j, out, e1, e2, _, _, e5⟩ :=
    taggedScan_exits dec text text.length 0 [] (by omega)
  have hparse : parseTaggedToolCallSpans dec text = out := e5
  have hinv := scanSteps_rejects dec text k 0 j [] out e1 (by intro p hp; omega)
  have hj : p < j := by
    by_contra hge
    exact scanStep_none dec text j out e2 p (by omega) h60 hlen
  rcases hinv p hj h60 hlen with ⟨sp, hmem, hin⟩ | hrej
  · exact absurd hin (hout sp (by rw [hparse]; exact hmem))
  · exact hrej

/-- What the loop of `StripTaggedToolCalls` and the write after it produce: the text
written before, then the kept pieces. -/
theorem stripLoop_keptPieces {Obj : Type} (text : List Nat) :
    ∀ (spans : List (taggedToolCallSpan Obj)) (last : Nat) (sb : List Nat),
      (if (stripLoop text spans last sb).2 < text.length then
        (stripLoop text spans last sb).1 ++ text.drop (stripLoop text spans last sb).2
       else (stripLoop text spans last sb).1)
        = sb ++ (keptPieces text spans last).flatten := by
  intro spans
  induction spans with
  | nil =>
    intro last sb
    simp only [stripLoop, keptPieces, List.flatten_cons, List.flatten_nil, List.append_nil]
    split_ifs with h
    · rfl
    · rw [List.drop_eq_nil_of_le (by omega), List.append_nil]
  | cons sp rest ih =>
    intro last sb
    rw [stripLoop, ih, keptPieces, List.flatten_cons, ← List.append_assoc]
    congr 1
    split_ifs with h
    · rfl
    · unfold slice
      rw [Nat.sub_eq_zero_of_le (by omega), List.take_zero, List.append_nil]

/-- The stripped text is the trimmed concatenation of the kept pieces. -/
theorem stripSpans_keptPieces {Obj : Type} (text : List Nat)
    (spans : List (taggedToolCallSpan Obj)) :
    stripSpans text spans = stringsTrimSpace (keptPieces text spans 0).flatten := by
  unfold stripSpans
  split_ifs with h
  · have : spans = [] := List.length_eq_zero.1 h
    subst this
    simp [keptPieces]
  · simp only []
    rw [stripLoop_keptPieces, List.nil_append]

theorem keptPieces_length {Obj : Type} (text : List Nat) :
    ∀ (spans : List (taggedToolCallSpan Obj)) (last : Nat),
      (keptPieces text spans last).length = spans.length + 1 := by
  intro spans
  induction spans with
  | nil => intro last; rfl
  | cons sp rest ih => intro last; rw [keptPieces, List.length_cons, ih, List.length_cons]

/-- A kept piece is a slice of the text that meets no span. -/
theorem keptPieces_position {Obj : Type} (text : List Nat) :
    ∀ (spans : List (taggedToolCallSpan Obj)) (last : Nat), last ≤ text.length →
      (∀ sp ∈ spans, last ≤ sp.start ∧ sp.start < sp.stop ∧ sp.stop ≤ text.length) →
      List.Pairwise (fun a b : taggedToolCallSpan Obj => a.stop ≤ b.start) spans →
      ∀ (i : Nat) (g : List Nat), (keptPieces text spans last)[i]? = some g →
        ∃ lo, last ≤ lo ∧ lo + g.length ≤ text.length ∧
          text = text.take lo ++ (g ++ text.drop (lo + g.length)) ∧
          ∀ sp ∈ spans, lo + g.length ≤ sp.start ∨ sp.stop ≤ lo := by
  intro spans
  induction spans with
  | nil =>
    intro last hlast _ _ i g hg
    cases i with
    | zero =>
      simp only [keptPieces, List.getElem?_cons_zero, Option.some.injEq] at hg
      subst hg
      refine ⟨last, Nat.le_refl _, by rw [List.length_drop]; omega, ?_, by simp⟩
      rw [List.length_drop, Nat.add_sub_cancel' hlast, List.drop_length, List.append_nil,
        List.take_append_drop]
    | succ i => simp [keptPieces] at hg
  | cons sp rest ih =>
    intro last hlast hall hpw i g hg
    have hsp := hall sp (List.mem_cons_self _ _)
    rw [List.pairwise_cons] at hpw
    cases i with
    | zero =>
      simp only [keptPieces, List.getElem?_cons_zero, Option.some.injEq] at hg
      subst hg
      have hlen : (slice text last sp.start).length = sp.start - last := by
        unfold slice
        rw [List.length_take, List.length_drop]
        omega
      refine ⟨last, Nat.le_refl _, by rw [hlen]; omega, ?_, ?_⟩
      · rw [hlen, Nat.add_sub_cancel' hsp.1]
        unfold slice
        have h1 : text.drop last
            = (text.drop last).take (sp.start - last) ++ text.drop sp.start := by
          conv_lhs => rw [← List.take_append_drop (sp.start - last) (text.drop last)]
          rw [List.drop_drop, Nat.add_comm, Nat.sub_add_cancel hsp.1]
        rw [← h1, List.take_append_drop]
      · intro sp2 hsp2
        rw [hlen, Nat.add_sub_cancel' hsp.1]
        rcases List.mem_cons.1 hsp2 with rfl | hmem
        · exact Or.inl (Nat.le_refl _)
        · have := hpw.1 sp2 hmem
          exact Or.inl (by omega)
    | succ i =>
      simp only [keptPieces, List.getElem?_cons_succ] at hg
      obtain ⟨lo, h0, h1, h2, h3⟩ := ih sp.stop hsp.2.2
        (fun b hb => ⟨hpw.1 b hb, (hall b (List.mem_cons_of_mem _ hb)).2⟩) hpw.2 i g hg
      refine ⟨lo, by omega, h1, h2, ?_⟩
      intro sp2 hsp2
      rcases List.mem_cons.1 hsp2 with rfl | hmem
      · exact Or.inr h0
      · exact h3 sp2 hmem

/-- A byte of a concatenation lies in one of the pieces. -/
theorem flatten_locate (c : Nat) : ∀ (pieces : List (List Nat)) (x y : List Nat),
    pieces.flatten = x ++ c :: y →
    ∃ i u w, pieces[i]? = some (u ++ c :: w) ∧ y = w ++ (pieces.drop (i + 1)).flatten := by
  intro pieces
  induction pieces with
  | nil => intro x y h; simp at h
  | cons g rest ih =>
    intro x y h
    rw [List.flatten_cons, List.append_eq_append_iff] at h
    rcases h with ⟨a2, hx, hrest⟩ | ⟨c2, hg, hcy⟩
    · obtain ⟨i, u, w, hi, hy⟩ := ih a2 y hrest
      exact ⟨i + 1, u, w, by simpa using hi, by simpa using hy⟩
    · cases c2 with
      | nil =>
        rw [List.nil_append] at hcy
        obtain ⟨i, u, w, hi, hy⟩ := ih [] y (by rw [List.nil_append]; exact hcy.symm)
        exact ⟨i + 1, u, w, by simpa using hi, by simpa using hy⟩
      | cons d w =>
        rw [List.cons_append] at hcy
        obtain ⟨hd, hy⟩ := List.cons.inj hcy
        subst hd
        exact ⟨0, x, w, by simp [hg], by simpa using hy⟩

/-- A call found in the stripped text starts at a `<` of a kept piece that is followed
by a removed span, and the piece ends before the raw arguments of the call do: a call
that lay within one piece would have been found by the first pass. -/
theorem stripped_call_across_join {Obj : Type} (dec : JsonDecoder Obj) (text : List Nat) :
    ∀ sp ∈ parseTaggedToolCallSpans dec (StripTaggedToolCalls dec text),
      ∃ (ws rawArgs : List Nat) (i : Nat) (u w : List Nat),
        (∀ b ∈ ws, ptcIsWhitespace b = true) ∧
        sp.call.Function = some { Name := sp.call.Name, Arguments := rawArgs } ∧
        isTagName sp.call.Name = true ∧
        i + 1 < (keptPieces text (parseTaggedToolCallSpans dec text) 0).length ∧
        (keptPieces text (parseTaggedToolCallSpans dec text) 0)[i]? = some (u ++ 60 :: w) ∧
        w.length < (sp.call.Name ++ 62 :: (ws ++ rawArgs)).length ∧
        w <+: sp.call.Name ++ 62 :: (ws ++ rawArgs) := by
  intro sp hsp
  obtain ⟨count, hlt, h60, hc⟩ := parseTaggedToolCallSpans_candidates dec _ sp hsp
  obtain ⟨ws, rawArgs, tail, hdrop, htag, hws, hhead, hself, hfun, hdec⟩ :=
    tagCandidate_shape dec _ count sp.start sp h60 hc
  -- the stripped text inside the concatenation of the kept pieces
  have hstrip : StripTaggedToolCalls dec text
      = stringsTrimSpace (keptPieces text (parseTaggedToolCallSpans dec text) 0).flatten :=
    stripSpans_keptPieces text _
  obtain ⟨lead, trail, hG⟩ := stringsTrimSpace_isInfix
    (keptPieces text (parseTaggedToolCallSpans dec text) 0).flatten
  rw [← hstrip] at hG
  have hS : StripTaggedToolCalls dec text
      = (StripTaggedToolCalls dec text).take sp.start
        ++ 60 :: (sp.call.Name ++ 62 :: (ws ++ (rawArgs ++ tail))) := by
    rw [← hdrop, List.take_append_drop]
  have hflat : (keptPieces text (parseTaggedToolCallSpans dec text) 0).flatten
      = (lead ++ (StripTaggedToolCalls dec text).take sp.start)
        ++ 60 :: ((sp.call.Name ++ 62 :: (ws ++ rawArgs)) ++ (tail ++ trail)) := by
    rw [← hG]
    conv_lhs => rw [hS]
    simp [List.append_assoc]
  obtain ⟨i, u, w, hi, hy⟩ := flatten_locate 60 _ _ _ hflat
  obtain ⟨hb, hpw⟩ := parseTaggedToolCallSpans_bounds dec text
  rcases Nat.lt_or_ge w.length (sp.call.Name ++ 62 :: (ws ++ rawArgs)).length with hshort | hlong
  · refine ⟨ws, rawArgs, i, u, w, hws, hfun, htag, ?_, hi, hshort, ?_⟩
    · by_contra hlast
      have hnil : (keptPieces text (parseTaggedToolCallSpans dec text) 0).drop (i + 1) = [] :=
        List.drop_eq_nil_of_le (by omega)
      rw [hnil, List.flatten_nil, List.append_nil] at hy
      have := congrArg List.length hy
      rw [List.length_append] at this
      omega
    · exact List.prefix_of_prefix_length_le (by rw [hy]; exact List.prefix_append _ _)
        (List.prefix_append _ _) (Nat.le_of_lt hshort)
  · exfalso
    -- the call lies within the piece: the first pass has met and rejected it
    have hpre : (sp.call.Name ++ 62 :: (ws ++ rawArgs)) <+: w :=
      List.prefix_of_prefix_length_le (by rw [← hy]; exact List.prefix_append _ _)
        (List.prefix_append _ _) hlong
    obtain ⟨z, hz⟩ := hpre
    obtain ⟨lo, -, hlo1, hlo2, hlo3⟩ := keptPieces_position text _ 0 (Nat.zero_le _)
      (fun b hbm => ⟨Nat.zero_le _, (hb b hbm).1, (hb b hbm).2⟩) hpw i _ hi
    have hlole : lo ≤ text.length := by omega
    obtain ⟨B, hB⟩ : ∃ B, text = text.take lo ++ (u ++ 60 :: w ++ B) := ⟨_, hlo2⟩
    have htext : text = (text.take lo ++ u)
        ++ (60 :: (sp.call.Name ++ (62 :: (ws ++ (rawArgs ++ (z ++ B)))))) := by
      conv_lhs => rw [hB, ← hz]
      simp [List.append_assoc]
    have hacc := tagCandidate_of_shape dec text (text.take lo ++ u) sp.call.Name ws rawArgs
      (z ++ B) sp.call.Arguments
    have hpos : (text.take lo ++ u).length = lo + u.length := by
      rw [List.length_append, List.length_take, Nat.min_eq_left hlole]
    have hwl : (u ++ 60 :: w).length = u.length + (w.length + 1) := by
      rw [List.length_append, List.length_cons]
    have hClen : 1 ≤ (sp.call.Name ++ 62 :: (ws ++ rawArgs)).length := by
      rw [List.length_append, List.length_cons]; omega
    have h60t : text[lo + u.length]? = some 60 := by
      conv_lhs => rw [htext]
      rw [← hpos, List.getElem?_append_right (Nat.le_refl _), Nat.sub_self]
      simp
    obtain ⟨cnt, hrej⟩ := parseTaggedToolCallSpans_rejects dec text (lo + u.length) h60t
      (by omega)
      (by
        intro b hbm hin
        rcases hlo3 b hbm with h | h <;> omega)
    apply hacc cnt htext htag hws hhead hself hdec
    rw [hpos]
    exact hrej

theorem dropWhile_run (p : Nat → Bool) (run : List Nat) (c : Nat) (rest : List Nat)
    (hrun : ∀ b ∈ run, p b = true) (hc : p c = false) :
    (run ++ c :: rest).dropWhile p = c :: rest := by
  induction run with
  | nil => simp [List.dropWhile, hc]
  | cons b run ih =>
    rw [List.cons_append, List.dropWhile_cons, if_pos (hrun b (List.mem_cons_self _ _))]
    exact ih (fun x hx => hrun x (List.mem_cons_of_mem _ hx))

theorem dropWhile_all (p : Nat → Bool) (run : List Nat) (hrun : ∀ b ∈ run, p b = true) :
    run.dropWhile p = [] := by
  induction run with
  | nil => rfl
  | cons b run ih =>
    rw [List.dropWhile_cons, if_pos (hrun b (List.mem_cons_self _ _))]
    exact ih (fun x hx => hrun x (List.mem_cons_of_mem _ hx))

/-- A proper beginning of an object that is brace-matched over its whole length is
not brace-matched. -/
theorem findMatchingBrace_proper_beginning (o obj : List Nat) (hpre : o <+: obj)
    (hlt : o.length < obj.length) (hobj : findMatchingBrace obj 0 = obj.length) :
    findMatchingBrace o 0 = 0 := by
  by_contra hne
  obtain ⟨t, ht⟩ := hpre
  have hle := findMatchingBrace_le o 0 (Nat.zero_le _)
  have happ : findMatchingBrace (o ++ t) 0 = findMatchingBrace o 0 := by
    unfold findMatchingBrace at hne ⊢
    rw [List.drop_zero, List.drop_zero] at *
    exact findMatchingBraceFrom_append 0 t o 0 0 false false hne
  rw [ht, hobj] at happ
  omega

theorem prefix_append_cases (l a b : List Nat) (h : l <+: a ++ b) :
    l <+: a ∨ ∃ t, l = a ++ t ∧ t <+: b := by
  rcases Nat.le_total l.length a.length with hle | hge
  · exact Or.inl (List.prefix_of_prefix_length_le h (List.prefix_append _ _) hle)
  · right
    obtain ⟨t, ht⟩ := List.prefix_of_prefix_length_le (List.prefix_append a b) h hge
    refine ⟨t, ht.symm, ?_⟩
    obtain ⟨r, hr⟩ := h
    rw [← ht, List.append_assoc] at hr
    exact ⟨r, List.append_cancel_left hr⟩

/-- A proper beginning of the text of a call, from its tag name to the end of its raw
arguments, begins a call. -/
theorem beginsCall_of_beginning (n ws obj w : List Nat) (hn : isTagName n = true)
    (hws : ∀ b ∈ ws, ptcIsWhitespace b = true) (hobj0 : obj.head? = some 123)
    (hobj : findMatchingBrace obj 0 = obj.length)
    (hpre : w <+: n ++ 62 :: (ws ++ obj))
    (hlt : w.length < (n ++ 62 :: (ws ++ obj)).length) : beginsCall w = true := by
  obtain ⟨c, cs, hncs, hc, hchars⟩ := isTagName_chars n hn
  have h62 : ptcIsTagNameChar 62 = false := by decide
  have h123 : ptcIsWhitespace 123 = false := by decide
  cases w with
  | nil => rfl
  | cons x w2 =>
    have hx : x = c := by
      obtain ⟨t, ht⟩ := hpre
      rw [hncs, List.cons_append, List.cons_append] at ht
      exact (List.cons.inj ht).1
    subst hx
    unfold beginsCall
    simp only [hc, Bool.true_and]
    rcases prefix_append_cases _ _ _ hpre with h1 | ⟨t, ht, htp⟩
    · rw [dropWhile_all _ _ (fun b hb => hchars b (h1.subset hb))]
    · rw [ht]
      cases t with
      | nil =>
        rw [List.append_nil, dropWhile_all _ _ hchars]
      | cons g t2 =>
        have hg : g = 62 := by
          obtain ⟨r, hr⟩ := htp
          rw [List.cons_append] at hr
          exact (List.cons.inj hr).1
        subst hg
        rw [dropWhile_run _ n 62 t2 hchars h62]
        simp only [beq_self_eq_true, Bool.true_and]
        have htp2 : t2 <+: ws ++ obj := by
          obtain ⟨r, hr⟩ := htp
          rw [List.cons_append] at hr
          exact ⟨r, (List.cons.inj hr).2⟩
        rcases prefix_append_cases _ _ _ htp2 with h2 | ⟨o, ho, hop⟩
        · rw [dropWhile_all _ _ (fun b hb => hws b (h2.subset hb))]
        · rw [ho]
          cases o with
          | nil => rw [List.append_nil, dropWhile_all _ _ hws]
          | cons b o2 =>
            have hb : b = 123 := by
              obtain ⟨r, hr⟩ := hop
              cases obj with
              | nil => simp at hobj0
              | cons y obj2 =>
                rw [List.cons_append] at hr
                have := (List.cons.inj hr).1
                simp only [List.head?_cons, Option.some.injEq] at hobj0
                omega
            subst hb
            rw [dropWhile_run _ ws 123 o2 hws h123]
            simp only [beq_self_eq_true, Bool.true_and, beq_iff_eq]
            apply findMatchingBrace_proper_beginning _ obj hop _ hobj
            rw [ht, ho] at hlt
            simp only [List.length_append, List.length_cons] at hlt
            simp only [List.length_cons]
            omega

theorem noCallBegins_next : ∀ (u w : List Nat), noCallBegins (u ++ 60 :: w) = true →
    beginsCall w = false := by
  intro u
  induction u with
  | nil =>
    intro w h
    simp only [List.nil_append, noCallBegins, bne_self_eq_false, Bool.false_or,
      Bool.and_eq_true, Bool.not_eq_true'] at h
    exact h.1
  | cons c u ih =>
    intro w h
    simp only [List.cons_append, noCallBegins, Bool.and_eq_true] at h
    exact ih w h.2

theorem mem_dropLast_of_getElem? (pieces : List (List Nat)) (i : Nat) (g : List Nat)
    (hi : pieces[i]? = some g) (hlt : i + 1 < pieces.length) : g ∈ pieces.dropLast := by
  rw [List.dropLast_eq_take, List.mem_iff_getElem?]
  refine ⟨i, ?_⟩
  rw [List.getElem?_take_of_lt (by omega)]
  exact hi

/-- C14 (as amended): for every text, the stripped text is the trimmed concatenation
of the pieces that the first pass left in place, and every call that a second
extraction finds in it is formed across a removed span: its `<` stands in a piece
that is followed by a removed span, and that piece ends before the raw arguments of
the call do.  So the second extraction is empty whenever no `<` of a piece followed by
a removed span is followed, to the end of the piece, by the beginning of a tagged
call; and when neither the text nor the stripped text holds the marker, resolving the
content of the reply yields the calls of that second extraction. -/
theorem strip_then_extract_across_join {Obj : Type} (dec : JsonDecoder Obj)
    (text : List Nat) :
    StripTaggedToolCalls dec text
      = stringsTrimSpace (keptPieces text (parseTaggedToolCallSpans dec text) 0).flatten ∧
    (∀ sp ∈ parseTaggedToolCallSpans dec (StripTaggedToolCalls dec text),
      ∃ (ws rawArgs : List Nat) (i : Nat) (u w : List Nat),
        (∀ b ∈ ws, ptcIsWhitespace b = true) ∧
        sp.call.Function = some { Name := sp.call.Name, Arguments := rawArgs } ∧
        isTagName sp.call.Name = true ∧
        i + 1 < (keptPieces text (parseTaggedToolCallSpans dec text) 0).length ∧
        (keptPieces text (parseTaggedToolCallSpans dec text) 0)[i]? = some (u ++ 60 :: w) ∧
        w.length < (sp.call.Name ++ 62 :: (ws ++ rawArgs)).length ∧
        w <+: sp.call.Name ++ 62 :: (ws ++ rawArgs)) ∧
    ((keptPieces text (parseTaggedToolCallSpans dec text) 0).dropLast.all noCallBegins = true →
      ExtractTaggedToolCalls dec (StripTaggedToolCalls dec text) = []) ∧
    (¬ toolCallsMarker <:+: text → ¬ toolCallsMarker <:+: StripTaggedToolCalls dec text →
      responseToolCalls dec (responseContent dec text)
        = ExtractTaggedToolCalls dec (StripTaggedToolCalls dec text)) := by
  refine ⟨stripSpans_keptPieces text _, stripped_call_across_join dec text, ?_, ?_⟩
  · intro hsafe
    unfold ExtractTaggedToolCalls
    rw [List.map_eq_nil_iff]
    cases hs : parseTaggedToolCallSpans dec (StripTaggedToolCalls dec text) with
    | nil => rfl
    | cons sp rest =>
      exfalso
      have hmem : sp ∈ parseTaggedToolCallSpans dec (StripTaggedToolCalls dec text) := by
        rw [hs]; exact List.mem_cons_self _ _
      obtain ⟨count, -, h60, hc⟩ := parseTaggedToolCallSpans_candidates dec _ sp hmem
      obtain ⟨ws, rawArgs, i, u, w, hws, hfun, htag, hlt, hi, hshort, hpre⟩ :=
        stripped_call_across_join dec text sp hmem
      obtain ⟨ws2, raw2, -, -, -, -, hhead, hself, hfun2, -⟩ :=
        tagCandidate_shape dec _ count sp.start sp h60 hc
      have hraw : raw2 = rawArgs := by
        rw [hfun] at hfun2
        exact (congrArg FunctionCall.Arguments (Option.some.inj hfun2)).symm
      subst hraw
      have hg := List.all_eq_true.1 hsafe _ (mem_dropLast_of_getElem? _ i _ hi hlt)
      have hno := noCallBegins_next u w hg
      rw [beginsCall_of_beginning _ ws raw2 w htag hws hhead hself hpre hshort] at hno
      cases hno
  · intro hm1 hm2
    rw [responseContent_of_no_marker dec text hm1, responseToolCalls_of_no_marker dec _ hm2]

set_option maxRecDepth 100000 in
theorem strip_then_extract_across_join_witness :
    (keptPieces (ascii "1 < 2 <f>\x7b\x7d</f> ok")
        (parseTaggedToolCallSpans sampleDecoder (ascii "1 < 2 <f>\x7b\x7d</f> ok")) 0)
      = [ascii "1 < 2 ", ascii " ok"] ∧
    StripTaggedToolCalls sampleDecoder (ascii "1 < 2 <f>\x7b\x7d</f> ok") = ascii "1 < 2  ok" ∧
    ExtractTaggedToolCalls sampleDecoder
      (StripTaggedToolCalls sampleDecoder (ascii "1 < 2 <f>\x7b\x7d</f> ok")) = [] ∧
    ExtractTaggedToolCalls sampleDecoder
      (StripTaggedToolCalls sampleDecoder (ascii "a <f>\x7b\x7d")) = [] ∧
    ExtractTaggedToolCalls sampleDecoder
      (StripTaggedToolCalls sampleDecoder (ascii "a <f> \x7b\x7d </f> b")) = [] ∧
    ExtractTaggedToolCalls sampleDecoder
      (StripTaggedToolCalls sampleDecoder (ascii "<b> hi <f>\x7b\x7d</f> <g>\x7b")) = [] ∧
    responseToolCalls sampleDecoder
      (responseContent sampleDecoder (ascii "1 < 2 <f>\x7b\x7d</f> ok")) = [] :=
  ⟨by decide, by decide,
    (strip_then_extract_across_join sampleDecoder (ascii "1 < 2 <f>\x7b\x7d</f> ok")).2.2.1
      (by decide),
    (strip_then_extract_across_join sampleDecoder (ascii "a <f>\x7b\x7d")).2.2.1 (by decide),
    (strip_then_extract_across_join sampleDecoder (ascii "a <f> \x7b\x7d </f> b")).2.2.1
      (by decide),
    (strip_then_extract_across_join sampleDecoder
      (ascii "<b> hi <f>\x7b\x7d</f> <g>\x7b")).2.2.1 (by decide),
    ((strip_then_extract_across_join sampleDecoder (ascii "1 < 2 <f>\x7b\x7d</f> ok")).2.2.2
      (by decide) (by decide)).trans
      ((strip_then_extract_across_join sampleDecoder
        (ascii "1 < 2 <f>\x7b\x7d</f> ok")).2.2.1 (by decide))⟩

end Summer
